import Mathlib

/-!
lokaldb: the ordered index layer.

A shallow embedding of `lokaldb.go` (a wrapper around the bbolt key-value engine).

Modelling decisions.

* The engine is the external collaborator.  A bucket is a finite map from byte strings to
  byte strings, here an association list of `String` pairs read through `Bucket.Get`,
  written through `Bucket.Put` and `Bucket.Delete`.  `Get` answers `none` for Go's `nil`.
  `Put` makes bbolt's three tests in bbolt's order: the empty key (`ErrKeyRequired`), a key
  of more than `MaxKeySize` bytes (`ErrKeyTooLarge`), a value of more than `MaxValueSize`
  bytes (`ErrValueTooLarge`).  The length of a byte string is `String.utf8ByteSize`.
* One partition (one bucket name) is modelled: its record bucket `b` and its internal
  bucket `inb` (`intBucket + "-" + bucket`).  `CreateBucketIfNotExists` of a never-written
  partition yields the two empty buckets of `Partition.empty`.
* Every operation runs in one transaction that is rolled back on error: an operation
  returns `Except Error (result × Partition)` and the caller keeps the old partition when
  the result is an error.
* Go's `int` is `Int`.  The slot counter and the record count are unbounded: in the code
  they leave the 64-bit range only after 2^63 successful stores.  Two consequences.  The
  sums of an index and the `offset` argument in `FetchChunkUp` and `FetchChunkDown` wrap
  as 64-bit integers do (`wrap64`).  And a numeral the code writes is `strconv.Itoa` of a
  64-bit integer, at most 20 bytes long, where a numeral of the model can be longer: the
  size tests of `Put` therefore let every decimal numeral pass and are bbolt's tests on
  every other string.
* `for` loops are recursions on the exact number of iterations left.
* `make([]ChunkData, 0, n)` panics when `n` is negative or exceeds `MaxSliceCap`, the
  largest capacity the 64-bit runtime accepts for this element type; below that limit the
  memory is taken to be there.  The capacity of `FetchChunkUp` is the last index less the
  offset: the last index itself is a slot counter and taken to be within the limit, so
  the capacity is tested for its sign, and against `MaxSliceCap` where a negative offset
  has raised it above the last index.
* The values an operation hands back are copies of the stored bytes.
-/

namespace LokalDB

/-! ## Errors -/

/-- The package's error values, the errors of bbolt's `Put`, and the runtime panic of
`make` with a capacity out of range. -/
inductive Error where
  | ErrLocalDatabaseNotYetOpened
  | ErrCorruptedInternalBucket
  | ErrBucketDoesNotExist
  | ErrNoKeysSet
  | ErrKeyRequired
  | ErrKeyTooLarge
  | ErrValueTooLarge
  | PanicMakesliceCap
  deriving DecidableEq, Repr

/-! ## strconv.Itoa and strconv.Atoi -/

/-- The decimal digit character of `d` (for `d < 10`). -/
def digitChar (d : Nat) : Char := Char.ofNat (48 + d)

/-- Decimal digits of `n`, most significant first, in front of `ds`; `fuel` bounds the
number of digits. -/
def natDigits : Nat → Nat → List Char → List Char
  | 0, _, ds => ds
  | fuel + 1, n, ds =>
    if n / 10 = 0 then digitChar (n % 10) :: ds
    else natDigits fuel (n / 10) (digitChar (n % 10) :: ds)

/-- Decimal representation of a natural number. -/
def natRepr (n : Nat) : List Char := natDigits (n + 1) n []

/-- Go's `strconv.Itoa`. -/
def Itoa (i : Int) : String :=
  match i with
  | Int.ofNat n => String.mk (natRepr n)
  | Int.negSucc n => String.mk ('-' :: natRepr (n + 1))

/-- Value of a decimal digit character, `none` for any other character. -/
def digitVal (c : Char) : Option Nat :=
  if 48 ≤ c.toNat ∧ c.toNat ≤ 57 then some (c.toNat - 48) else none

/-- Reads a run of decimal digits, continuing from the accumulated value `acc`. -/
def parseDigits : List Char → Nat → Option Nat
  | [], acc => some acc
  | c :: cs, acc =>
    match digitVal c with
    | none => none
    | some d => parseDigits cs (acc * 10 + d)

/-- Reads a non-empty run of decimal digits. -/
def parseNat (cs : List Char) : Option Nat :=
  match cs with
  | [] => none
  | _ :: _ => parseDigits cs 0

/-- Go's `strconv.Atoi` with the error dropped (`n, _ = strconv.Atoi(s)`): an optional
sign followed by decimal digits; `0` on a syntax error. -/
def Atoi (s : String) : Int :=
  match s.data with
  | [] => 0
  | c :: cs =>
    if c = '-' then
      match parseNat cs with
      | some n => -(n : Int)
      | none => 0
    else if c = '+' then
      match parseNat cs with
      | some n => (n : Int)
      | none => 0
    else
      match parseNat (c :: cs) with
      | some n => (n : Int)
      | none => 0

/-- A string that `Itoa` can produce: a decimal integer numeral. -/
def IsNumeral (k : String) : Prop := Itoa (Atoi k) = k

instance (k : String) : Decidable (IsNumeral k) := by
  unfold IsNumeral; infer_instance

/-- A 64-bit signed integer of Go as the integer it denotes: the two's complement
wrap-around of `x`. -/
def wrap64 (x : Int) : Int := (x + 2 ^ 63) % 2 ^ 64 - 2 ^ 63

/-! ## The key-value engine -/

/-- The engine's `MaxKeySize`: the largest key, in bytes. -/
def MaxKeySize : Nat := 32768

/-- The engine's `MaxValueSize`, `(1 << 31) - 2`: the largest value, in bytes. -/
def MaxValueSize : Nat := 2147483646

/-- The key passes the engine's size test: at most `MaxKeySize` bytes, or a numeral. -/
def KeyFits (k : String) : Prop := k.utf8ByteSize ≤ MaxKeySize ∨ IsNumeral k

instance (k : String) : Decidable (KeyFits k) := by
  unfold KeyFits; infer_instance

/-- The value passes the engine's size test: at most `MaxValueSize` bytes, or a
numeral. -/
def ValueFits (v : String) : Prop := v.utf8ByteSize ≤ MaxValueSize ∨ IsNumeral v

instance (v : String) : Decidable (ValueFits v) := by
  unfold ValueFits; infer_instance

/-- The engine accepts the pair: the key is not empty and both sizes pass. -/
def Accepts (k v : String) : Prop := k ≠ "" ∧ KeyFits k ∧ ValueFits v

instance (k v : String) : Decidable (Accepts k v) := by
  unfold Accepts; infer_instance

/-- A pair within the engine's limits: at most `MaxKeySize` bytes of key and
`MaxValueSize` bytes of value. -/
def Storable (k v : String) : Prop :=
  k.utf8ByteSize ≤ MaxKeySize ∧ v.utf8ByteSize ≤ MaxValueSize

instance (k v : String) : Decidable (Storable k v) := by
  unfold Storable; infer_instance

/-- A bucket of the engine: a finite map, the first entry of a key is the live one. -/
abbrev Bucket := List (String × String)

namespace Bucket

/-- The engine's `Get`: `none` is Go's `nil`. -/
def Get : Bucket → String → Option String
  | [], _ => none
  | (k', v) :: t, k => if k' = k then some v else Get t k

/-- Writes `v` under `k`, in place when `k` is already there. -/
def set : Bucket → String → String → Bucket
  | [], k, v => [(k, v)]
  | (k', v') :: t, k, v => if k' = k then (k, v) :: t else (k', v') :: set t k v

/-- The engine's `Put`: fails on the empty key, on a key of more than `MaxKeySize` bytes
and on a value of more than `MaxValueSize` bytes, in this order.  A numeral passes the size
tests whatever its length: in the code it has at most 20 bytes. -/
def Put (b : Bucket) (k v : String) : Except Error Bucket :=
  if k = "" then .error .ErrKeyRequired
  else if MaxKeySize < k.utf8ByteSize ∧ ¬ IsNumeral k then .error .ErrKeyTooLarge
  else if MaxValueSize < v.utf8ByteSize ∧ ¬ IsNumeral v then .error .ErrValueTooLarge
  else .ok (b.set k v)

/-- The engine's `Delete`: removes the key, does nothing when it is not there. -/
def Delete (b : Bucket) (k : String) : Bucket :=
  b.filter (fun p => decide (p.1 ≠ k))

end Bucket

/-! ## Data model -/

/-- The key-value chunks returned by the window operations; `Value` is `none` for a
`nil` byte slice. -/
structure ChunkData where
  Key : String
  Value : Option String
  deriving DecidableEq, Repr

/-- Reserved key of the record count in the internal bucket. -/
def recCntKey : String := "86isoppdxbG0kgvknvvQ"

/-- Reserved key of the first index in the internal bucket. -/
def recFirstIdxKey : String := "Z6BN5EF3WgvIpc1xKiMb"

/-- Reserved key of the last index in the internal bucket. -/
def recLastIdxKey : String := "f0i5ZSQ15ARMLPZJn6zl"

/-- One partition: the record bucket `b` and the internal bucket `inb`. -/
structure Partition where
  b : Bucket
  inb : Bucket
  deriving DecidableEq, Repr

/-- A partition that was never written. -/
def Partition.empty : Partition := ⟨[], []⟩

/-! ## Kinds of keys -/

/-- An ordinary user key: non-empty, not a decimal integer numeral and none of the three
reserved bookkeeping keys. -/
def Ordinary (k : String) : Prop :=
  k ≠ "" ∧ ¬ IsNumeral k ∧ k ≠ recCntKey ∧ k ≠ recFirstIdxKey ∧ k ≠ recLastIdxKey

instance (k : String) : Decidable (Ordinary k) := by
  unfold Ordinary; infer_instance

/-! ## Internal helpers: del, atidx, abidx -/

/-- The source's `del`: removes the record of `key`, its two index entries, and
decrements the count; nothing happens when the internal bucket has no entry for `key`. -/
def del (b inb : Bucket) (key : String) : Except Error (Bucket × Bucket) :=
  match inb.Get key with
  | none => .ok (b, inb)
  | some curidxb =>
    let inb1 := inb.Delete key
    let inb2 := inb1.Delete curidxb
    let b1 := b.Delete key
    let ctb := (inb2.Get recCntKey).getD "0"
    let count := Atoi ctb
    match inb2.Put recCntKey (Itoa (count - 1)) with
    | .error e => .error e
    | .ok inb3 => .ok (b1, inb3)

/-- The loop of `atidx`: the first `i, i+1, ..` (at most `n` of them) whose numeral has
an entry in the internal bucket. -/
def scanUp (inb : Bucket) : Nat → Int → Option String
  | 0, _ => none
  | n + 1, i =>
    if (inb.Get (Itoa i)).isSome then some (Itoa i) else scanUp inb n (i + 1)

/-- The loop of `abidx`: the first `i, i-1, ..` (at most `n` of them) whose numeral has
an entry in the internal bucket. -/
def scanDown (inb : Bucket) : Nat → Int → Option String
  | 0, _ => none
  | n + 1, i =>
    if (inb.Get (Itoa i)).isSome then some (Itoa i) else scanDown inb n (i - 1)

/-- The source's `atidx`.  Its local `curidxb` is never assigned, so the scan starts at
`Atoi ""`; the parameter `topidx` is not read. -/
def atidx (inb : Bucket) (_topidx botidx : String) : Except Error Bucket :=
  let bidx := Atoi botidx
  let curidx := Atoi ""
  match scanUp inb (bidx + 1 - curidx).toNat curidx with
  | some ci => inb.Put recFirstIdxKey ci
  | none => inb.Put recFirstIdxKey "0"

/-- The source's `abidx`: scans from `botidx` down to `topidx`. -/
def abidx (inb : Bucket) (topidx botidx : String) : Except Error Bucket :=
  let tidx := Atoi topidx
  let bidx := Atoi botidx
  match scanDown inb (bidx + 1 - tidx).toNat bidx with
  | some ci => inb.Put recLastIdxKey ci
  | none => inb.Put recLastIdxKey "0"

/-- The tail shared by every delete-family operation: `atidx` then `abidx`, both with
the boundary values read before the deletion. -/
def repair (inb : Bucket) (topidxb botidxb : String) : Except Error Bucket :=
  match atidx inb topidxb botidxb with
  | .error e => .error e
  | .ok inb1 => abidx inb1 topidxb botidxb

/-! ## Public operations (transaction bodies) -/

/-- Reads a boundary entry in `Store`/`StoreOnce`: a missing entry is written as `0`. -/
def getOrInit (inb : Bucket) (k : String) : Except Error (String × Bucket) :=
  match inb.Get k with
  | some v => .ok (v, inb)
  | none =>
    match inb.Put k "0" with
    | .error e => .error e
    | .ok inb1 => .ok ("0", inb1)

/-- The source's `Store`. -/
def Store (p : Partition) (key data : String) : Except Error Partition := do
  -- Get last index; add last index if there is none
  let (lstidxb0, inb1) ← getOrInit p.inb recLastIdxKey
  let lstidx0 := Atoi lstidxb0
  let lstidxb := if p.b.Get lstidxb0 = none then Itoa (lstidx0 + 1) else lstidxb0
  -- Get first index
  let (fstidxb, inb2) ← getOrInit inb1 recFirstIdxKey
  let fstidx := Atoi fstidxb
  -- Get bucket record count
  let ctb := (inb2.Get recCntKey).getD "0"
  let count := Atoi ctb
  -- store
  let b1 ← p.b.Put key data
  let inb3 ← inb2.Put lstidxb key
  let inb4 ← inb3.Put key lstidxb
  let inb5 ← inb4.Put recLastIdxKey lstidxb
  -- If first index is zero, set to 1
  let inb6 ← if fstidx = 0 then inb5.Put recFirstIdxKey (Itoa 1) else pure inb5
  -- Record last record count
  let inb7 ← inb6.Put recCntKey (Itoa (count + 1))
  pure ⟨b1, inb7⟩

/-- The loop of `StoreOnce` over the pairs: `lstidx` is the slot the next pair gets and
`c` the number of pairs stored so far. -/
def storeLoop : List ChunkData → Bucket → Bucket → Int → Int →
    Except Error (Bucket × Bucket × Int × Int)
  | [], b, inb, lstidx, c => .ok (b, inb, lstidx, c)
  | kv :: rest, b, inb, lstidx, c => do
    let botidxb := Itoa lstidx
    let b1 ← b.Put kv.Key (kv.Value.getD "")
    let inb1 ← inb.Put botidxb kv.Key
    let inb2 ← inb1.Put kv.Key botidxb
    let inb3 ← inb2.Put recLastIdxKey botidxb
    storeLoop rest b1 inb3 (lstidx + 1) (c + 1)

/-- The source's `StoreOnce`. -/
def StoreOnce (p : Partition) (data : List ChunkData) : Except Error Partition := do
  let (botidxb0, inb1) ← getOrInit p.inb recLastIdxKey
  let lstidx0 := Atoi botidxb0
  let lstidx := if p.b.Get botidxb0 = none then lstidx0 + 1 else lstidx0
  let (topidxb, inb2) ← getOrInit inb1 recFirstIdxKey
  let ctb := (inb2.Get recCntKey).getD "0"
  let count := Atoi ctb
  let (b1, inb3, _, c) ← storeLoop data p.b inb2 lstidx 0
  let fstidx := Atoi topidxb
  let inb4 ← if 0 < c ∧ fstidx = 0 then inb3.Put recFirstIdxKey (Itoa (fstidx + 1))
    else pure inb3
  let inb5 ← inb4.Put recCntKey (Itoa (count + c))
  pure ⟨b1, inb5⟩

/-- The source's `Fetch`: `none` when the record does not exist. -/
def Fetch (p : Partition) (key : String) : Except Error (Option String × Partition) :=
  .ok (p.b.Get key, p)

/-- The source's `Delete`. -/
def Delete (p : Partition) (key : String) : Except Error Partition :=
  match p.inb.Get recFirstIdxKey with
  | none => .error .ErrCorruptedInternalBucket
  | some topidxb =>
    match p.inb.Get recLastIdxKey with
    | none => .error .ErrCorruptedInternalBucket
    | some botidxb => do
      let (b1, inb1) ← del p.b p.inb key
      let inb2 ← repair inb1 topidxb botidxb
      pure ⟨b1, inb2⟩

/-- The loop of `DeleteOnce`, `CutChunkUp` and `CutChunkDown` that calls `del` on each
key in turn. -/
def delAll : List String → Bucket → Bucket → Except Error (Bucket × Bucket)
  | [], b, inb => .ok (b, inb)
  | k :: rest, b, inb =>
    match del b inb k with
    | .error e => .error e
    | .ok (b1, inb1) => delAll rest b1 inb1

/-- The source's `DeleteOnce`. -/
def DeleteOnce (p : Partition) (key : List String) : Except Error Partition :=
  if key.length = 0 then .error .ErrNoKeysSet
  else
    match p.inb.Get recFirstIdxKey with
    | none => .error .ErrCorruptedInternalBucket
    | some topidxb =>
      match p.inb.Get recLastIdxKey with
      | none => .error .ErrCorruptedInternalBucket
      | some botidxb => do
        let (b1, inb1) ← delAll key p.b p.inb
        let inb2 ← repair inb1 topidxb botidxb
        pure ⟨b1, inb2⟩

/-- The largest capacity `make([]ChunkData, 0, n)` accepts on a 64-bit platform: a
`ChunkData` (a string and a byte slice) has 40 bytes and the runtime refuses more than
`2^48` bytes. -/
def MaxSliceCap : Int := 7036874417766

/-- The collecting loop of `FetchChunkUp` and `CutChunkUp`: `n` iterations are left
before `i` drops below zero, `c` records are collected so far. -/
def chunkUp (b inb : Bucket) (max : Int) : Nat → Int → Int → List ChunkData
  | 0, _, _ => []
  | n + 1, i, c =>
    if c < max ∨ max = 0 then
      match inb.Get (Itoa i) with
      | some keyb => ⟨keyb, b.Get keyb⟩ :: chunkUp b inb max n (i - 1) (c + 1)
      | none => chunkUp b inb max n (i - 1) c
    else []

/-- The collecting loop of `FetchChunkDown`: `n` iterations are left before `i` passes
the last index, `c` records are collected so far. -/
def chunkDown (b inb : Bucket) (max : Int) : Nat → Int → Int → List ChunkData
  | 0, _, _ => []
  | n + 1, i, c =>
    if c < max ∨ max = 0 then
      match inb.Get (Itoa i) with
      | some keyb => ⟨keyb, b.Get keyb⟩ :: chunkDown b inb max n (i + 1) (c + 1)
      | none => chunkDown b inb max n (i + 1) c
    else []

/-- The collecting loop of `CutChunkDown`.  Its test is `err == nil`, which always
holds, so every slot visited contributes a chunk: for a slot without an entry `keyb` is
`nil`, the key is `string(nil)` and the value is `b.Get(nil)`. -/
def cutDown (b inb : Bucket) (max : Int) : Nat → Int → Int → List ChunkData
  | 0, _, _ => []
  | n + 1, i, c =>
    if c < max ∨ max = 0 then
      let keyb := (inb.Get (Itoa i)).getD ""
      ⟨keyb, b.Get keyb⟩ :: cutDown b inb max n (i + 1) (c + 1)
    else []

/-- The source's `FetchChunkUp`. -/
def FetchChunkUp (p : Partition) (max offset : Int) :
    Except Error (List ChunkData × Partition) :=
  match p.inb.Get recLastIdxKey with
  | none => .error .ErrCorruptedInternalBucket
  | some lstidxb =>
    let lstidx0 := Atoi lstidxb
    let lstidx := if offset ≠ 0 ∧ offset ≤ lstidx0 then wrap64 (lstidx0 - offset) else lstidx0
    if lstidx < 0 ∨ (lstidx0 < lstidx ∧ MaxSliceCap < lstidx) then .error .PanicMakesliceCap
    else .ok (chunkUp p.b p.inb max (lstidx + 1).toNat lstidx 0, p)

/-- The source's `FetchChunkDown`. -/
def FetchChunkDown (p : Partition) (max offset : Int) :
    Except Error (List ChunkData × Partition) :=
  match p.inb.Get recFirstIdxKey with
  | none => .error .ErrCorruptedInternalBucket
  | some tmp =>
    let fstidx0 := Atoi tmp
    let fstidx := if offset ≠ 0 ∧ offset > fstidx0 then wrap64 (fstidx0 + offset) else fstidx0
    match p.inb.Get recLastIdxKey with
    | none => .error .ErrCorruptedInternalBucket
    | some tmp2 =>
      let lstidx := Atoi tmp2
      if max < 0 ∨ MaxSliceCap < max then .error .PanicMakesliceCap
      else .ok (chunkDown p.b p.inb max (lstidx + 1 - fstidx).toNat fstidx 0, p)

/-- The source's `FetchDelete`. -/
def FetchDelete (p : Partition) (key : String) :
    Except Error (Option String × Partition) :=
  match p.inb.Get recFirstIdxKey with
  | none => .error .ErrCorruptedInternalBucket
  | some topidxb =>
    match p.inb.Get recLastIdxKey with
    | none => .error .ErrCorruptedInternalBucket
    | some botidxb => do
      let data := p.b.Get key
      let (b1, inb1) ← del p.b p.inb key
      let inb2 ← repair inb1 topidxb botidxb
      pure (data, ⟨b1, inb2⟩)

/-- The body shared by `SliceUp` and `SliceDown` once the index key `idxb` to pop is
chosen. -/
def slice (p : Partition) (topidxb botidxb idxb : String) :
    Except Error (Option String × Partition) :=
  match p.inb.Get idxb with
  | none => .error .ErrCorruptedInternalBucket
  | some keyb => do
    let data := p.b.Get keyb
    let (b1, inb1) ← del p.b p.inb keyb
    let inb2 ← repair inb1 topidxb botidxb
    pure (data, ⟨b1, inb2⟩)

/-- The source's `SliceUp`: pops the record of the last index. -/
def SliceUp (p : Partition) : Except Error (Option String × Partition) :=
  match p.inb.Get recFirstIdxKey with
  | none => .error .ErrCorruptedInternalBucket
  | some topidxb =>
    match p.inb.Get recLastIdxKey with
    | none => .error .ErrCorruptedInternalBucket
    | some botidxb => slice p topidxb botidxb botidxb

/-- The source's `SliceDown`: pops the record of the first index. -/
def SliceDown (p : Partition) : Except Error (Option String × Partition) :=
  match p.inb.Get recFirstIdxKey with
  | none => .error .ErrCorruptedInternalBucket
  | some topidxb =>
    match p.inb.Get recLastIdxKey with
    | none => .error .ErrCorruptedInternalBucket
    | some botidxb => slice p topidxb botidxb topidxb

/-- The deleting half of `CutChunkUp` and `CutChunkDown`: nothing is written when the
chunk is empty. -/
def cutFinish (p : Partition) (topidxb botidxb : String) (chunk : List ChunkData) :
    Except Error (List ChunkData × Partition) :=
  if chunk.length = 0 then .ok ([], p)
  else
    match delAll (chunk.map ChunkData.Key) p.b p.inb with
    | .error _ => .error .ErrCorruptedInternalBucket
    | .ok (b1, inb1) =>
      match repair inb1 topidxb botidxb with
      | .error e => .error e
      | .ok inb2 => .ok (chunk, ⟨b1, inb2⟩)

/-- The source's `CutChunkUp`. -/
def CutChunkUp (p : Partition) (max : Int) : Except Error (List ChunkData × Partition) :=
  match p.inb.Get recLastIdxKey with
  | none => .error .ErrCorruptedInternalBucket
  | some botidxb =>
    let lstidx := Atoi botidxb
    match p.inb.Get recFirstIdxKey with
    | none => .error .ErrCorruptedInternalBucket
    | some topidxb =>
      if max < 0 ∨ MaxSliceCap < max then .error .PanicMakesliceCap
      else cutFinish p topidxb botidxb (chunkUp p.b p.inb max (lstidx + 1).toNat lstidx 0)

/-- The source's `CutChunkDown`. -/
def CutChunkDown (p : Partition) (max : Int) : Except Error (List ChunkData × Partition) :=
  match p.inb.Get recFirstIdxKey with
  | none => .error .ErrCorruptedInternalBucket
  | some topidxb =>
    let fstidx := Atoi topidxb
    match p.inb.Get recLastIdxKey with
    | none => .error .ErrCorruptedInternalBucket
    | some botidxb =>
      let lstidx := Atoi botidxb
      if max < 0 ∨ MaxSliceCap < max then .error .PanicMakesliceCap
      else cutFinish p topidxb botidxb
        (cutDown p.b p.inb max (lstidx + 1 - fstidx).toNat fstidx 0)

/-- The source's `Count`. -/
def Count (p : Partition) : Except Error (Int × Partition) :=
  .ok (Atoi ((p.inb.Get recCntKey).getD "0"), p)

/-! ## Values computed by the helpers

The helpers `del`, `atidx`, `abidx` only ever `Put` under a reserved key, so they cannot
fail; the functions below name the buckets they return. -/

/-- The buckets `del` returns. -/
def delP (b inb : Bucket) (key : String) : Bucket × Bucket :=
  match inb.Get key with
  | none => (b, inb)
  | some curidxb =>
    let inb2 := (inb.Delete key).Delete curidxb
    (b.Delete key, inb2.set recCntKey (Itoa (Atoi ((inb2.Get recCntKey).getD "0") - 1)))

/-- The buckets `delAll` returns. -/
def delAllP : List String → Bucket → Bucket → Bucket × Bucket
  | [], b, inb => (b, inb)
  | k :: rest, b, inb => delAllP rest (delP b inb k).1 (delP b inb k).2

/-- The bucket `atidx` returns. -/
def atidxP (inb : Bucket) (botidx : String) : Bucket :=
  inb.set recFirstIdxKey ((scanUp inb (Atoi botidx + 1).toNat 0).getD "0")

/-- The bucket `abidx` returns. -/
def abidxP (inb : Bucket) (topidx botidx : String) : Bucket :=
  inb.set recLastIdxKey
    ((scanDown inb (Atoi botidx + 1 - Atoi topidx).toNat (Atoi botidx)).getD "0")

/-- The bucket `repair` returns. -/
def repairP (inb : Bucket) (topidx botidx : String) : Bucket :=
  abidxP (atidxP inb botidx) topidx botidx

/-- The buckets the loop of `StoreOnce` returns when every `Put` succeeds. -/
def storeLoopP : List ChunkData → Bucket → Bucket → Int → Bucket × Bucket
  | [], b, inb, _ => (b, inb)
  | kv :: rest, b, inb, lstidx =>
    storeLoopP rest (b.set kv.Key (kv.Value.getD ""))
      (((inb.set (Itoa lstidx) kv.Key).set kv.Key (Itoa lstidx)).set recLastIdxKey
        (Itoa lstidx)) (lstidx + 1)

/-! ## Well-formed partitions -/

/-- Slot `n` has a slot→key entry in the internal bucket. -/
def Populated (inb : Bucket) (n : Int) : Prop := inb.Get (Itoa n) ≠ none

instance (inb : Bucket) (n : Int) : Decidable (Populated inb n) := by
  unfold Populated; infer_instance

/-- The stored first index, `0` when the entry is missing or unreadable. -/
def firstSlot (p : Partition) : Int := Atoi ((p.inb.Get recFirstIdxKey).getD "0")

/-- The stored last index, `0` when the entry is missing or unreadable. -/
def lastSlot (p : Partition) : Int := Atoi ((p.inb.Get recLastIdxKey).getD "0")

/-- The stored record count, as `Count` reads it. -/
def storedCount (p : Partition) : Int := Atoi ((p.inb.Get recCntKey).getD "0")

/-- Both boundary entries exist: the partition was initialised by a store. -/
def Initialised (p : Partition) : Prop :=
  p.inb.Get recFirstIdxKey ≠ none ∧ p.inb.Get recLastIdxKey ≠ none

instance (p : Partition) : Decidable (Initialised p) := by
  unfold Initialised; infer_instance

/-- The entries of the two buckets have the shapes the operations rely on: slot entries
hold ordinary keys, an ordinary key's entry holds the numeral of a slot that points back
to it, the records are those of the ordinary keys that have an index entry, and the
count entry counts the populated slots. -/
structure Typed (b inb : Bucket) : Prop where
  slotVal : ∀ n k, inb.Get (Itoa n) = some k → Ordinary k
  keyBack : ∀ k v, Ordinary k → inb.Get k = some v →
    ∃ n, v = Itoa n ∧ inb.Get (Itoa n) = some k
  bKeys : ∀ k v, b.Get k = some v → Ordinary k
  bIdx : ∀ k v, b.Get k = some v → inb.Get k ≠ none
  idxB : ∀ k v, Ordinary k → inb.Get k = some v → b.Get k ≠ none
  noEmpty : inb.Get "" = none
  cnt : ∃ S : Finset Int, (∀ n, n ∈ S ↔ Populated inb n) ∧
    (inb.Get recCntKey).getD "0" = Itoa S.card

/-- Every populated slot is positive and lies in `[F, L]`. -/
def Within (inb : Bucket) (F L : Int) : Prop :=
  ∀ n, Populated inb n → 1 ≤ n ∧ F ≤ n ∧ n ≤ L

/-- The window `[F, L]` is tight: `F` is the smallest and `L` the largest populated slot,
and both are `0` when no slot is populated. -/
def Tight (inb : Bucket) (F L : Int) : Prop :=
  (F = 0 ∧ L = 0 ∧ ∀ n, ¬ Populated inb n) ∨
  (1 ≤ F ∧ F ≤ L ∧ Populated inb F ∧ Populated inb L ∧
    ∀ n, Populated inb n → F ≤ n ∧ n ≤ L)

/-- A well-formed initialised partition with boundary pointers `F` and `L`. -/
structure WF (p : Partition) (F L : Int) : Prop where
  typed : Typed p.b p.inb
  first : p.inb.Get recFirstIdxKey = some (Itoa F)
  last : p.inb.Get recLastIdxKey = some (Itoa L)
  tight : Tight p.inb F L

/-- Two buckets answer every `Get` alike. -/
def Bucket.Same (b1 b2 : Bucket) : Prop := ∀ k, b1.Get k = b2.Get k

/-- Two partitions answer every `Get` alike. -/
def Partition.Same (p q : Partition) : Prop := p.b.Same q.b ∧ p.inb.Same q.inb

/-- The state between the deletions of an operation and its repair scans: the stored
pointers still bound the populated slots but need not be populated themselves. -/
structure Loose (p : Partition) (F L : Int) : Prop where
  typed : Typed p.b p.inb
  first : p.inb.Get recFirstIdxKey = some (Itoa F)
  last : p.inb.Get recLastIdxKey = some (Itoa L)
  within : Within p.inb F L

/-- The internal bucket after `Store`/`StoreOnce` have written the missing boundary
entries as `0`. -/
def initInb (inb : Bucket) : Bucket :=
  let inb1 := if inb.Get recLastIdxKey = none then inb.set recLastIdxKey "0" else inb
  if inb1.Get recFirstIdxKey = none then inb1.set recFirstIdxKey "0" else inb1

/-- The partition with its boundary entries initialised. -/
def initP (p : Partition) : Partition := ⟨p.b, initInb p.inb⟩

/-- No stale entry: every populated slot is the slot its key points to, and the count is
the number of records. -/
structure Exact (p : Partition) : Prop where
  slotBack : ∀ n k, p.inb.Get (Itoa n) = some k → p.inb.Get k = some (Itoa n)
  cntKeys : ∃ K : Finset String, (∀ k, k ∈ K ↔ p.b.Get k ≠ none) ∧ storedCount p = K.card

/-- The pairs of `l` sit at the consecutive slots `n, n+1, ..`: each slot entry holds the
key of its pair and the record of that key holds the value. -/
def Chain (p : Partition) : List (String × String) → Int → Prop
  | [], _ => True
  | kv :: rest, n =>
    p.inb.Get (Itoa n) = some kv.1 ∧ p.b.Get kv.1 = some kv.2 ∧ Chain p rest (n + 1)

/-- The partition holds exactly the pairs of `l`, in this order, at the consecutive slots
starting at `F`. -/
structure Holds (p : Partition) (l : List (String × String)) (F : Int) : Prop where
  wf : WF p (if l = [] then 0 else F) (if l = [] then 0 else F + l.length - 1)
  exact : Exact p
  pos : 1 ≤ F
  chain : Chain p l F

/-! ## Sequences of operations -/

/-- The public operations with their arguments. -/
inductive Op where
  | Store (key data : String)
  | StoreOnce (data : List ChunkData)
  | Fetch (key : String)
  | Delete (key : String)
  | DeleteOnce (key : List String)
  | FetchChunkUp (max offset : Int)
  | FetchChunkDown (max offset : Int)
  | FetchDelete (key : String)
  | SliceUp
  | SliceDown
  | CutChunkUp (max : Int)
  | CutChunkDown (max : Int)
  | Count
  deriving DecidableEq, Repr

/-- The partition after a transaction that returns no value: the new one when it
committed, the old one when it failed and was rolled back. -/
def commit (p : Partition) (r : Except Error Partition) : Partition :=
  match r with
  | .ok q => q
  | .error _ => p

/-- The partition after a transaction that returns a value. -/
def commitR {α : Type} (p : Partition) (r : Except Error (α × Partition)) : Partition :=
  match r with
  | .ok (_, q) => q
  | .error _ => p

/-- The partition after one public operation. -/
def applyOp (p : Partition) : Op → Partition
  | .Store key data => commit p (Store p key data)
  | .StoreOnce data => commit p (StoreOnce p data)
  | .Fetch key => commitR p (Fetch p key)
  | .Delete key => commit p (Delete p key)
  | .DeleteOnce key => commit p (DeleteOnce p key)
  | .FetchChunkUp max offset => commitR p (FetchChunkUp p max offset)
  | .FetchChunkDown max offset => commitR p (FetchChunkDown p max offset)
  | .FetchDelete key => commitR p (FetchDelete p key)
  | .SliceUp => commitR p (SliceUp p)
  | .SliceDown => commitR p (SliceDown p)
  | .CutChunkUp max => commitR p (CutChunkUp p max)
  | .CutChunkDown max => commitR p (CutChunkDown p max)
  | .Count => commitR p (Count p)

/-- The operation mentions ordinary keys only. -/
def Op.Ordinary : Op → Prop
  | .Store key _ => LokalDB.Ordinary key
  | .StoreOnce data => ∀ kv ∈ data, LokalDB.Ordinary kv.Key
  | .Fetch key => LokalDB.Ordinary key
  | .Delete key => LokalDB.Ordinary key
  | .DeleteOnce key => ∀ k ∈ key, LokalDB.Ordinary k
  | .FetchDelete key => LokalDB.Ordinary key
  | _ => True

/-- The operation stores no key that has a record: a `Store` of an absent key, a
`StoreOnce` of pairwise distinct absent keys. -/
def Op.Fresh (p : Partition) : Op → Prop
  | .Store key _ => p.b.Get key = none
  | .StoreOnce data => (data.map ChunkData.Key).Nodup ∧ ∀ kv ∈ data, p.b.Get kv.Key = none
  | _ => True

/-- The partitions reached from `s0` by operations that `ok` admits in the state they
run in. -/
inductive ReachFrom (ok : Partition → Op → Prop) (s0 : Partition) : Partition → Prop where
  | refl : ReachFrom ok s0 s0
  | step {p : Partition} {op : Op} : ReachFrom ok s0 p → ok p op →
      ReachFrom ok s0 (applyOp p op)

/-- Admits the operations that use ordinary keys only. -/
def okOrdinary (_ : Partition) (op : Op) : Prop := op.Ordinary

/-- Admits the operations that use ordinary keys only and never store a key that has a
record. -/
def okFresh (p : Partition) (op : Op) : Prop := op.Ordinary ∧ op.Fresh p

/-- Reached from a never-written partition by operations with ordinary keys. -/
def Reach (p : Partition) : Prop := ReachFrom okOrdinary Partition.empty p

/-- Reached from a never-written partition by operations with ordinary keys that never
store a key that has a record. -/
def ReachFresh (p : Partition) : Prop := ReachFrom okFresh Partition.empty p

/-- Reached by operations with ordinary keys, at least one of them a successful
`Store`. -/
def ReachStored (p : Partition) : Prop :=
  ∃ s0 key data s1, Reach s0 ∧ Ordinary key ∧ Store s0 key data = .ok s1 ∧
    ReachFrom okOrdinary s1 p

/-! ## Runs of operations used by the claims -/

instance instDecidableEqExcept {ε α : Type} [DecidableEq ε] [DecidableEq α] :
    DecidableEq (Except ε α) := fun a b =>
  match a, b with
  | .ok x, .ok y =>
    if h : x = y then isTrue (by rw [h]) else isFalse (by intro e; cases e; exact h rfl)
  | .error x, .error y =>
    if h : x = y then isTrue (by rw [h]) else isFalse (by intro e; cases e; exact h rfl)
  | .ok _, .error _ => isFalse (by intro e; cases e)
  | .error _, .ok _ => isFalse (by intro e; cases e)

/-- Successive `Store` calls, one per pair, stopping at the first error. -/
def storeAll : Partition → List (String × String) → Except Error Partition
  | p, [] => .ok p
  | p, (k, v) :: rest =>
    match Store p k v with
    | .error e => .error e
    | .ok q => storeAll q rest

/-- The values returned by `n` successive `SliceDown` calls, and the partition left. -/
def drainDown : Nat → Partition → Except Error (List (Option String) × Partition)
  | 0, p => .ok ([], p)
  | n + 1, p =>
    match SliceDown p with
    | .error e => .error e
    | .ok (v, q) =>
      match drainDown n q with
      | .error e => .error e
      | .ok (vs, r) => .ok (v :: vs, r)

/-- The values returned by `n` successive `SliceUp` calls, and the partition left. -/
def drainUp : Nat → Partition → Except Error (List (Option String) × Partition)
  | 0, p => .ok ([], p)
  | n + 1, p =>
    match SliceUp p with
    | .error e => .error e
    | .ok (v, q) =>
      match drainUp n q with
      | .error e => .error e
      | .ok (vs, r) => .ok (v :: vs, r)

/-- A key of `MaxKeySize + 1` bytes: the letter `a` repeated. -/
def longKey : String := String.mk (List.replicate (MaxKeySize + 1) 'a')

/-! ## The database handle -/

/-- The handle `LokalDB`: `ldb` is `none` when the database is not open (`db.ldb == nil`). -/
structure DB where
  ldb : Option Partition
  deriving DecidableEq, Repr

/-- The source's `DeleteOnce` on the handle: the test of the key list comes before the
test of the handle; the transaction body is `DeleteOnce` on the partition (which repeats
the test of the key list, where it cannot fail any more). -/
def DB.DeleteOnce (db : DB) (key : List String) : Except Error Partition :=
  if key.length = 0 then .error .ErrNoKeysSet
  else
    match db.ldb with
    | none => .error .ErrLocalDatabaseNotYetOpened
    | some p => LokalDB.DeleteOnce p key

/-! ## Windows, in the words of the specification -/

/-- The slots `i, i+1, ..`, `n` of them: walking upward from `i`. -/
def walkUp : Nat → Int → List Int
  | 0, _ => []
  | n + 1, i => i :: walkUp n (i + 1)

/-- The slots `i, i-1, ..`, `n` of them: walking downward from `i`. -/
def walkDown : Nat → Int → List Int
  | 0, _ => []
  | n + 1, i => i :: walkDown n (i - 1)

/-- The record of slot `s`: the key the slot points to with the value stored under that
key; `none` when the slot is not populated. -/
def recordAt (p : Partition) (s : Int) : Option ChunkData :=
  match p.inb.Get (Itoa s) with
  | some k => some ⟨k, p.b.Get k⟩
  | none => none

/-- At most `max` records of a list, all of them when `max = 0`. -/
def limit (max : Int) (l : List ChunkData) : List ChunkData :=
  if max = 0 then l else l.take max.toNat

/-- The window the specification describes for `FetchWindowTail`: the records of the
populated slots met walking downward from `start` to slot `0`, at most `max` of them. -/
def windowTail (p : Partition) (max start : Int) : List ChunkData :=
  limit max ((walkDown (start + 1).toNat start).filterMap (recordAt p))

/-- The window the specification describes for `FetchWindowHead`: the records of the
populated slots met walking upward from `start` to slot `last`, at most `max` of them. -/
def windowHead (p : Partition) (max start last : Int) : List ChunkData :=
  limit max ((walkUp (last + 1 - start).toNat start).filterMap (recordAt p))

/-- The value a call hands back: Go returns a `nil` value together with an error. -/
def valueOf (r : Except Error (Option String × Partition)) : Option String :=
  match r with
  | .ok (v, _) => v
  | .error _ => none

/-- Admits every operation. -/
def okAny (_ : Partition) (_ : Op) : Prop := True

/-- Reached from a never-written partition by any public operations with any keys. -/
def ReachAny (p : Partition) : Prop := ReachFrom okAny Partition.empty p

/-- The pairs of a `StoreOnce` list as `Store` receives them. -/
def pairsOf (data : List ChunkData) : List (String × String) :=
  data.map fun kv => (kv.Key, kv.Value.getD "")

/-- The invariant of every partition the operations produce, whatever the keys: it was
never written, or both boundary entries exist; and no record has the empty key. -/
def Sane (p : Partition) : Prop :=
  (p = Partition.empty ∨ Initialised p) ∧ p.b.Get "" = none

/-- What one operation, with any keys, leaves: the partition it was given, or an
initialised partition without a record of the empty key whose last-slot entry the engine
accepts as a key. -/
def Kept (p q : Partition) : Prop :=
  q = p ∨ (Initialised q ∧ q.b.Get "" = none ∧
    ∀ l, q.inb.Get recLastIdxKey = some l → KeyFits l)

/-! ## Keys that are neither numerals nor reserved -/

/-- A key that is neither a decimal integer numeral nor one of the three reserved
bookkeeping keys.  The empty key is such a key. -/
def Plain (k : String) : Prop :=
  ¬ IsNumeral k ∧ k ≠ recCntKey ∧ k ≠ recFirstIdxKey ∧ k ≠ recLastIdxKey

instance (k : String) : Decidable (Plain k) := by
  unfold Plain; infer_instance

/-- The operation mentions no numeral and no reserved key. -/
def Op.Plain : Op → Prop
  | .Store key _ => LokalDB.Plain key
  | .StoreOnce data => ∀ kv ∈ data, LokalDB.Plain kv.Key
  | .Fetch key => LokalDB.Plain key
  | .Delete key => LokalDB.Plain key
  | .DeleteOnce key => ∀ k ∈ key, LokalDB.Plain k
  | .FetchDelete key => LokalDB.Plain key
  | _ => True

/-- Admits the operations that mention no numeral and no reserved key. -/
def okPlain (_ : Partition) (op : Op) : Prop := op.Plain

/-- Reached from a never-written partition by operations that mention no numeral and no
reserved key. -/
def ReachPlain (p : Partition) : Prop := ReachFrom okPlain Partition.empty p

/-- The list a call hands back: Go returns the empty slice together with an error. -/
def chunksOf (r : Except Error (List ChunkData × Partition)) : List ChunkData :=
  match r with
  | .ok (l, _) => l
  | .error _ => []

/-! # Theorems -/

/-! ## Itoa and Atoi are inverse -/

theorem digitVal_digitChar (d : Nat) (h : d < 10) : digitVal (digitChar d) = some d := by
  interval_cases d <;> rfl

theorem digitChar_ne_sign (d : Nat) (h : d < 10) :
    digitChar d ≠ '-' ∧ digitChar d ≠ '+' := by
  interval_cases d <;> decide

theorem parseDigits_append (pre rest : List Char) (acc : Nat) :
    parseDigits (pre ++ rest) acc =
      match parseDigits pre acc with
      | none => none
      | some a => parseDigits rest a := by
  induction pre generalizing acc with
  | nil => simp [parseDigits]
  | cons c cs ih =>
    simp only [List.cons_append, parseDigits]
    cases digitVal c with
    | none => rfl
    | some d => exact ih _

/-- The digits written by `natDigits` read back as the number, whatever follows them. -/
theorem natDigits_spec (fuel : Nat) : ∀ (n : Nat) (ds : List Char), n < fuel →
    ∃ c cs, natDigits fuel n ds = (c :: cs) ++ ds ∧ c ≠ '-' ∧ c ≠ '+' ∧
      parseDigits (c :: cs) 0 = some n := by
  induction fuel with
  | zero => intro n ds h; omega
  | succ fuel ih =>
    intro n ds h
    have hd : n % 10 < 10 := Nat.mod_lt _ (by decide)
    by_cases h0 : n / 10 = 0
    · refine ⟨digitChar (n % 10), [], ?_, (digitChar_ne_sign _ hd).1,
        (digitChar_ne_sign _ hd).2, ?_⟩
      · simp [natDigits, h0]
      · have hn : n % 10 = n := by omega
        have hv := digitVal_digitChar _ hd
        rw [hn] at hv
        simp [parseDigits, hn, hv]
    · have hlt : n / 10 < fuel := by omega
      obtain ⟨c, cs, heq, hc1, hc2, hp⟩ := ih (n / 10) (digitChar (n % 10) :: ds) hlt
      refine ⟨c, cs ++ [digitChar (n % 10)], ?_, hc1, hc2, ?_⟩
      · simp [natDigits, h0, heq]
      · have happ := parseDigits_append (c :: cs) [digitChar (n % 10)] 0
        rw [hp] at happ
        have hn : n / 10 * 10 + n % 10 = n := by omega
        simpa [parseDigits, digitVal_digitChar _ hd, hn] using happ

theorem natRepr_spec (n : Nat) :
    ∃ c cs, natRepr n = c :: cs ∧ c ≠ '-' ∧ c ≠ '+' ∧ parseDigits (c :: cs) 0 = some n := by
  obtain ⟨c, cs, heq, h1, h2, hp⟩ := natDigits_spec (n + 1) n [] (Nat.lt_succ_self n)
  exact ⟨c, cs, by simpa [natRepr] using heq, h1, h2, hp⟩

/-- Reading back what `Itoa` wrote gives the number. -/
theorem Atoi_Itoa (i : Int) : Atoi (Itoa i) = i := by
  cases i with
  | ofNat n =>
    obtain ⟨c, cs, heq, h1, h2, hp⟩ := natRepr_spec n
    simp [Itoa, Atoi, heq, h1, h2, parseNat, hp]
  | negSucc n =>
    obtain ⟨c, cs, heq, _, _, hp⟩ := natRepr_spec (n + 1)
    simp only [Itoa, Atoi, heq, if_true, parseNat, hp]
    simp [Int.negSucc_eq]

theorem Itoa_injective {i j : Int} (h : Itoa i = Itoa j) : i = j := by
  have := congrArg Atoi h
  simpa [Atoi_Itoa] using this

theorem Itoa_ne_empty (i : Int) : Itoa i ≠ "" := by
  cases i with
  | ofNat n =>
    obtain ⟨c, cs, heq, -⟩ := natRepr_spec n
    intro h
    have := congrArg String.data h
    simp [Itoa, heq] at this
  | negSucc n =>
    intro h
    have := congrArg String.data h
    simp [Itoa] at this

/-! ## Kinds of keys -/

theorem isNumeral_Itoa (i : Int) : IsNumeral (Itoa i) := by
  simp [IsNumeral, Atoi_Itoa]

theorem isNumeral_iff (k : String) : IsNumeral k ↔ ∃ i, Itoa i = k :=
  ⟨fun h => ⟨_, h⟩, fun ⟨i, h⟩ => h ▸ isNumeral_Itoa i⟩

theorem Ordinary.ne_Itoa {k : String} (h : Ordinary k) (i : Int) : k ≠ Itoa i := by
  intro e; exact h.2.1 (e ▸ isNumeral_Itoa i)

theorem recCntKey_ne_Itoa (i : Int) : recCntKey ≠ Itoa i := by
  intro e
  have h : ¬ IsNumeral recCntKey := by decide
  exact h (e ▸ isNumeral_Itoa i)

theorem recFirstIdxKey_ne_Itoa (i : Int) : recFirstIdxKey ≠ Itoa i := by
  intro e
  have h : ¬ IsNumeral recFirstIdxKey := by decide
  exact h (e ▸ isNumeral_Itoa i)

theorem recLastIdxKey_ne_Itoa (i : Int) : recLastIdxKey ≠ Itoa i := by
  intro e
  have h : ¬ IsNumeral recLastIdxKey := by decide
  exact h (e ▸ isNumeral_Itoa i)

theorem reserved_distinct :
    recFirstIdxKey ≠ recLastIdxKey ∧ recFirstIdxKey ≠ recCntKey ∧
      recLastIdxKey ≠ recCntKey := by decide

theorem reserved_ne_empty :
    recFirstIdxKey ≠ "" ∧ recLastIdxKey ≠ "" ∧ recCntKey ≠ "" := by decide

/-! ## The engine's map laws -/

namespace Bucket

@[simp] theorem Get_nil (k : String) : Get [] k = none := rfl

@[simp] theorem Get_set_same (b : Bucket) (k v : String) : (b.set k v).Get k = some v := by
  induction b with
  | nil => simp [set, Get]
  | cons p t ih =>
    obtain ⟨k', v'⟩ := p
    by_cases h : k' = k <;> simp [set, Get, h, ih]

theorem Get_set_ne (b : Bucket) {k x : String} (v : String) (h : x ≠ k) :
    (b.set k v).Get x = b.Get x := by
  induction b with
  | nil => simp [set, Get, Ne.symm h]
  | cons p t ih =>
    obtain ⟨k', v'⟩ := p
    by_cases hk : k' = k
    · subst hk; simp [set, Get, Ne.symm h]
    · by_cases hx : k' = x
      · subst hx; simp [set, Get, hk]
      · simp [set, Get, hk, hx, ih]

theorem Get_set (b : Bucket) (k x v : String) :
    (b.set k v).Get x = if x = k then some v else b.Get x := by
  by_cases h : x = k
  · subst h; simp
  · simp [h, Get_set_ne b v h]

@[simp] theorem Get_Delete_same (b : Bucket) (k : String) : (b.Delete k).Get k = none := by
  induction b with
  | nil => rfl
  | cons p t ih =>
    obtain ⟨k', v'⟩ := p
    by_cases h : k' = k
    · simpa [Delete, List.filter, h] using ih
    · simpa [Delete, List.filter, h, Get] using ih

theorem Get_Delete_ne (b : Bucket) {k x : String} (h : x ≠ k) :
    (b.Delete k).Get x = b.Get x := by
  induction b with
  | nil => rfl
  | cons p t ih =>
    obtain ⟨k', v'⟩ := p
    by_cases hk : k' = k
    · subst hk
      have : (Delete ((k', v') :: t) k') = Delete t k' := by simp [Delete, List.filter]
      rw [this, ih]; simp [Get, Ne.symm h]
    · have : (Delete ((k', v') :: t) k) = (k', v') :: Delete t k := by
        simp [Delete, List.filter, hk]
      rw [this]
      by_cases hx : k' = x <;> simp [Get, hx, ih]

theorem Get_Delete (b : Bucket) (k x : String) :
    (b.Delete k).Get x = if x = k then none else b.Get x := by
  by_cases h : x = k
  · subst h; simp
  · simp [h, Get_Delete_ne b h]

/-- Writing the value that is already there changes nothing. -/
theorem set_eq_self (b : Bucket) {k v : String} (h : b.Get k = some v) : b.set k v = b := by
  induction b with
  | nil => simp [Get] at h
  | cons p t ih =>
    obtain ⟨k', v'⟩ := p
    by_cases hk : k' = k
    · subst hk; simp [Get] at h; simp [set, h]
    · simp [Get, hk] at h; simp [set, hk, ih h]

/-- Deleting a key that is not there changes nothing. -/
theorem Delete_eq_self (b : Bucket) {k : String} (h : b.Get k = none) : b.Delete k = b := by
  induction b with
  | nil => rfl
  | cons p t ih =>
    obtain ⟨k', v'⟩ := p
    by_cases hk : k' = k
    · subst hk; simp [Get] at h
    · simp only [Get, hk, if_false] at h
      have := ih h
      simp only [Delete] at this ⊢
      rw [List.filter_cons_of_pos (by simpa using hk), this]

theorem Put_eq (b : Bucket) {k : String} (v : String) (h : Accepts k v) :
    b.Put k v = .ok (b.set k v) := by
  obtain ⟨h1, h2, h3⟩ := h
  have e2 : ¬ (MaxKeySize < k.utf8ByteSize ∧ ¬ IsNumeral k) := by
    rintro ⟨h4, h5⟩
    rcases h2 with h2 | h2
    · omega
    · exact h5 h2
  have e3 : ¬ (MaxValueSize < v.utf8ByteSize ∧ ¬ IsNumeral v) := by
    rintro ⟨h4, h5⟩
    rcases h3 with h3 | h3
    · omega
    · exact h5 h3
  simp only [Put, h1, e2, e3, if_false]

theorem Put_empty (b : Bucket) (v : String) : b.Put "" v = .error .ErrKeyRequired := by
  simp [Put]

/-- A pair the engine does not accept makes `Put` fail. -/
theorem Put_error (b : Bucket) {k v : String} (h : ¬ Accepts k v) :
    ∃ e, b.Put k v = .error e := by
  unfold Put
  split
  · exact ⟨_, rfl⟩
  · split
    · exact ⟨_, rfl⟩
    · split
      · exact ⟨_, rfl⟩
      · rename_i h1 h2 h3
        refine absurd ⟨h1, ?_, ?_⟩ h
        · by_cases hn : IsNumeral k
          · exact Or.inr hn
          · exact Or.inl (by
              by_contra hc
              exact h2 ⟨by omega, hn⟩)
        · by_cases hn : IsNumeral v
          · exact Or.inr hn
          · exact Or.inl (by
              by_contra hc
              exact h3 ⟨by omega, hn⟩)

/-- A `Put` that succeeds was given a pair the engine accepts. -/
theorem Put_ok {b b' : Bucket} {k v : String} (h : b.Put k v = .ok b') :
    Accepts k v ∧ b' = b.set k v := by
  by_cases ha : Accepts k v
  · rw [Put_eq b v ha] at h
    exact ⟨ha, (Except.ok.inj h).symm⟩
  · obtain ⟨e, he⟩ := Put_error b ha
    rw [he] at h
    cases h

/-- A key of more than `MaxKeySize` bytes that is not a numeral is refused. -/
theorem Put_key_too_large (b : Bucket) {k : String} (v : String) (h1 : k ≠ "")
    (h2 : MaxKeySize < k.utf8ByteSize) (h3 : ¬ IsNumeral k) :
    b.Put k v = .error .ErrKeyTooLarge := by
  simp [Put, h1, h2, h3]

end Bucket

/-! ## Pairs the engine accepts -/

theorem keyFits_Itoa (n : Int) : KeyFits (Itoa n) := Or.inr (isNumeral_Itoa n)

theorem valueFits_Itoa (n : Int) : ValueFits (Itoa n) := Or.inr (isNumeral_Itoa n)

theorem valueFits_zero : ValueFits "0" := by decide

theorem keyFits_reserved :
    KeyFits recFirstIdxKey ∧ KeyFits recLastIdxKey ∧ KeyFits recCntKey := by decide

theorem valueFits_of_keyFits {k : String} (h : KeyFits k) : ValueFits k := by
  rcases h with h | h
  · exact Or.inl (le_trans h (by decide))
  · exact Or.inr h

theorem Storable.accepts {k v : String} (h : Storable k v) (hk : k ≠ "") : Accepts k v :=
  ⟨hk, Or.inl h.1, Or.inl h.2⟩

theorem accepts_first (n : Int) : Accepts recFirstIdxKey (Itoa n) :=
  ⟨reserved_ne_empty.1, keyFits_reserved.1, valueFits_Itoa n⟩

theorem accepts_last (n : Int) : Accepts recLastIdxKey (Itoa n) :=
  ⟨reserved_ne_empty.2.1, keyFits_reserved.2.1, valueFits_Itoa n⟩

theorem accepts_cnt (n : Int) : Accepts recCntKey (Itoa n) :=
  ⟨reserved_ne_empty.2.2, keyFits_reserved.2.2, valueFits_Itoa n⟩

theorem accepts_first_zero : Accepts recFirstIdxKey "0" :=
  ⟨reserved_ne_empty.1, keyFits_reserved.1, valueFits_zero⟩

theorem accepts_last_zero : Accepts recLastIdxKey "0" :=
  ⟨reserved_ne_empty.2.1, keyFits_reserved.2.1, valueFits_zero⟩

/-- The entry of a slot: the numeral as key, the user key as value. -/
theorem accepts_slot (n : Int) {k : String} (h : KeyFits k) : Accepts (Itoa n) k :=
  ⟨Itoa_ne_empty n, keyFits_Itoa n, valueFits_of_keyFits h⟩

/-- The entry of a key: the user key as key, the numeral as value. -/
theorem accepts_key {k v : String} (h : Accepts k v) (n : Int) : Accepts k (Itoa n) :=
  ⟨h.1, h.2.1, valueFits_Itoa n⟩

theorem scanUp_isNumeral (inb : Bucket) : ∀ (n : Nat) (i : Int) (s : String),
    scanUp inb n i = some s → IsNumeral s := by
  intro n
  induction n with
  | zero => intro i s h; simp [scanUp] at h
  | succ n ih =>
    intro i s h
    simp only [scanUp] at h
    split at h
    · cases h
      exact isNumeral_Itoa i
    · exact ih _ s h

theorem scanDown_isNumeral (inb : Bucket) : ∀ (n : Nat) (i : Int) (s : String),
    scanDown inb n i = some s → IsNumeral s := by
  intro n
  induction n with
  | zero => intro i s h; simp [scanDown] at h
  | succ n ih =>
    intro i s h
    simp only [scanDown] at h
    split at h
    · cases h
      exact isNumeral_Itoa i
    · exact ih _ s h

@[simp] theorem Atoi_empty : Atoi "" = 0 := rfl

@[simp] theorem Atoi_zero : Atoi "0" = 0 := by decide

theorem Itoa_zero : Itoa 0 = "0" := by decide

theorem Itoa_one : Itoa 1 = "1" := by decide

/-! ## The helpers never fail -/

theorem del_eq (b inb : Bucket) (key : String) : del b inb key = .ok (delP b inb key) := by
  unfold del delP
  cases inb.Get key with
  | none => rfl
  | some c => simp [Bucket.Put_eq _ _ (accepts_cnt _)]

theorem delAll_eq (keys : List String) (b inb : Bucket) :
    delAll keys b inb = .ok (delAllP keys b inb) := by
  induction keys generalizing b inb with
  | nil => rfl
  | cons k rest ih => simp [delAll, delAllP, del_eq, ih]

theorem atidx_eq (inb : Bucket) (topidx botidx : String) :
    atidx inb topidx botidx = .ok (atidxP inb botidx) := by
  unfold atidx atidxP
  simp only [Atoi_empty, sub_zero]
  cases h : scanUp inb (Atoi botidx + 1).toNat 0 with
  | none => simp [Bucket.Put_eq _ _ accepts_first_zero]
  | some ci =>
    have ha : Accepts recFirstIdxKey ci :=
      ⟨reserved_ne_empty.1, keyFits_reserved.1, Or.inr (scanUp_isNumeral _ _ _ _ h)⟩
    simp [Bucket.Put_eq _ _ ha]

theorem abidx_eq (inb : Bucket) (topidx botidx : String) :
    abidx inb topidx botidx = .ok (abidxP inb topidx botidx) := by
  unfold abidx abidxP
  cases h : scanDown inb (Atoi botidx + 1 - Atoi topidx).toNat (Atoi botidx) with
  | none => simp [h, Bucket.Put_eq _ _ accepts_last_zero]
  | some ci =>
    have ha : Accepts recLastIdxKey ci :=
      ⟨reserved_ne_empty.2.1, keyFits_reserved.2.1, Or.inr (scanDown_isNumeral _ _ _ _ h)⟩
    simp [h, Bucket.Put_eq _ _ ha]

theorem repair_eq (inb : Bucket) (topidx botidx : String) :
    repair inb topidx botidx = .ok (repairP inb topidx botidx) := by
  simp [repair, repairP, atidx_eq, abidx_eq]

/-! ## The boundary scans -/

theorem scanUp_none (inb : Bucket) : ∀ (n : Nat) (i : Int), scanUp inb n i = none →
    ∀ j, i ≤ j → j < i + n → ¬ Populated inb j := by
  intro n
  induction n with
  | zero => intro i _ j h1 h2; simp at h2; omega
  | succ n ih =>
    intro i h j h1 h2
    simp only [scanUp] at h
    split at h
    · simp at h
    · rename_i hi
      by_cases hj : j = i
      · subst hj; simpa [Populated, Option.isSome_iff_ne_none] using hi
      · exact ih (i + 1) h j (by omega) (by push_cast at h2; omega)

theorem scanUp_some (inb : Bucket) : ∀ (n : Nat) (i : Int) (s : String),
    scanUp inb n i = some s →
    ∃ j, s = Itoa j ∧ i ≤ j ∧ j < i + n ∧ Populated inb j ∧
      ∀ j', i ≤ j' → j' < j → ¬ Populated inb j' := by
  intro n
  induction n with
  | zero => intro i s h; simp [scanUp] at h
  | succ n ih =>
    intro i s h
    simp only [scanUp] at h
    split at h
    · rename_i hi
      refine ⟨i, by simpa using h.symm, le_refl _, by push_cast; omega, ?_, ?_⟩
      · simpa [Populated, Option.isSome_iff_ne_none] using hi
      · intro j' h1 h2; omega
    · rename_i hi
      obtain ⟨j, hs, h1, h2, h3, h4⟩ := ih (i + 1) s h
      refine ⟨j, hs, by omega, by push_cast; omega, h3, ?_⟩
      intro j' h5 h6
      by_cases hj : j' = i
      · subst hj; simpa [Populated, Option.isSome_iff_ne_none] using hi
      · exact h4 j' (by omega) h6

theorem scanDown_none (inb : Bucket) : ∀ (n : Nat) (i : Int), scanDown inb n i = none →
    ∀ j, j ≤ i → i < j + n → ¬ Populated inb j := by
  intro n
  induction n with
  | zero => intro i _ j h1 h2; simp at h2; omega
  | succ n ih =>
    intro i h j h1 h2
    simp only [scanDown] at h
    split at h
    · simp at h
    · rename_i hi
      by_cases hj : j = i
      · subst hj; simpa [Populated, Option.isSome_iff_ne_none] using hi
      · exact ih (i - 1) h j (by omega) (by push_cast at h2; omega)

theorem scanDown_some (inb : Bucket) : ∀ (n : Nat) (i : Int) (s : String),
    scanDown inb n i = some s →
    ∃ j, s = Itoa j ∧ j ≤ i ∧ i < j + n ∧ Populated inb j ∧
      ∀ j', j' ≤ i → j < j' → ¬ Populated inb j' := by
  intro n
  induction n with
  | zero => intro i s h; simp [scanDown] at h
  | succ n ih =>
    intro i s h
    simp only [scanDown] at h
    split at h
    · rename_i hi
      refine ⟨i, by simpa using h.symm, le_refl _, by push_cast; omega, ?_, ?_⟩
      · simpa [Populated, Option.isSome_iff_ne_none] using hi
      · intro j' h1 h2; omega
    · rename_i hi
      obtain ⟨j, hs, h1, h2, h3, h4⟩ := ih (i - 1) s h
      refine ⟨j, hs, by omega, by push_cast; omega, h3, ?_⟩
      intro j' h5 h6
      by_cases hj : j' = i
      · subst hj; simpa [Populated, Option.isSome_iff_ne_none] using hi
      · exact h4 j' (by omega) h6

theorem scanDown_congr (inb1 inb2 : Bucket)
    (h : ∀ n, inb1.Get (Itoa n) = inb2.Get (Itoa n)) :
    ∀ (n : Nat) (i : Int), scanDown inb1 n i = scanDown inb2 n i := by
  intro n
  induction n with
  | zero => intro i; rfl
  | succ n ih => intro i; simp [scanDown, h, ih]

theorem scanUp_congr (inb1 inb2 : Bucket)
    (h : ∀ n, inb1.Get (Itoa n) = inb2.Get (Itoa n)) :
    ∀ (n : Nat) (i : Int), scanUp inb1 n i = scanUp inb2 n i := by
  intro n
  induction n with
  | zero => intro i; rfl
  | succ n ih => intro i; simp [scanUp, h, ih]

theorem Tight.within {inb : Bucket} {F L : Int} (h : Tight inb F L) : Within inb F L := by
  intro n hn
  rcases h with ⟨_, _, h0⟩ | ⟨h1, _, _, _, h5⟩
  · exact absurd hn (h0 n)
  · have := h5 n hn; omega

theorem Populated_set_reserved (inb : Bucket) (k v : String) (hk : ∀ i, k ≠ Itoa i)
    (n : Int) : Populated (inb.set k v) n ↔ Populated inb n := by
  simp [Populated, Bucket.Get_set_ne inb v (Ne.symm (hk n))]

/-- Smallest and largest populated slot of a window that contains every populated slot. -/
theorem repairP_spec (inb : Bucket) (F L : Int) (hw : Within inb F L) :
    ∃ F' L', Tight inb F' L' ∧
      repairP inb (Itoa F) (Itoa L) =
        (inb.set recFirstIdxKey (Itoa F')).set recLastIdxKey (Itoa L') := by
  have hcongr : ∀ n, (atidxP inb (Itoa L)).Get (Itoa n) = inb.Get (Itoa n) := by
    intro n
    exact Bucket.Get_set_ne inb _ (Ne.symm (recFirstIdxKey_ne_Itoa n))
  unfold repairP abidxP
  rw [scanDown_congr _ _ hcongr]
  unfold atidxP
  simp only [Atoi_Itoa]
  cases hu : scanUp inb (L + 1).toNat 0 with
  | none =>
    have hnone : ∀ n, ¬ Populated inb n := by
      intro n hn
      obtain ⟨h1, h2, h3⟩ := hw n hn
      exact scanUp_none inb _ 0 hu n (by omega) (by omega) hn
    cases hd : scanDown inb (L + 1 - F).toNat L with
    | none =>
      exact ⟨0, 0, Or.inl ⟨rfl, rfl, hnone⟩, by simp [Itoa_zero]⟩
    | some s =>
      obtain ⟨j, _, _, _, hj, _⟩ := scanDown_some inb _ _ _ hd
      exact absurd hj (hnone j)
  | some s =>
    obtain ⟨j, hs, hj0, hjL, hj, hmin⟩ := scanUp_some inb _ _ _ hu
    obtain ⟨hj1, hjF, hjL'⟩ := hw j hj
    cases hd : scanDown inb (L + 1 - F).toNat L with
    | none =>
      exact absurd hj (scanDown_none inb _ _ hd j hjL' (by omega))
    | some t =>
      obtain ⟨m, ht, hmL, hmF, hm, hmax⟩ := scanDown_some inb _ _ _ hd
      refine ⟨j, m, Or.inr ⟨hj1, ?_, hj, hm, ?_⟩, by simp [hs, ht]⟩
      · by_contra hlt
        exact hmax j hjL' (by omega) hj
      · intro n hn
        obtain ⟨hn1, hnF, hnL⟩ := hw n hn
        constructor
        · by_contra hlt
          exact hmin n (by omega) (by omega) hn
        · by_contra hlt
          exact hmax n hnL (by omega) hn

/-! ## Repairing the boundary pointers -/

theorem Tight.unique {inb : Bucket} {F L F' L' : Int} (h : Tight inb F L)
    (h' : Tight inb F' L') : F = F' ∧ L = L' := by
  rcases h with ⟨hF, hL, h0⟩ | ⟨h1, h2, hpF, hpL, hin⟩
  · rcases h' with ⟨hF', hL', _⟩ | ⟨_, _, hpF', _, _⟩
    · omega
    · exact absurd hpF' (h0 _)
  · rcases h' with ⟨_, _, h0'⟩ | ⟨_, _, hpF', hpL', hin'⟩
    · exact absurd hpF (h0' _)
    · have a := hin F' hpF'
      have b := hin L' hpL'
      have c := hin' F hpF
      have d := hin' L hpL
      omega

theorem Tight.congrSlots {inb inb' : Bucket} {F L : Int} (h : Tight inb F L)
    (hg : ∀ n, inb'.Get (Itoa n) = inb.Get (Itoa n)) : Tight inb' F L := by
  have hp : ∀ n, Populated inb' n ↔ Populated inb n := by
    intro n; simp [Populated, hg]
  rcases h with ⟨hF, hL, h0⟩ | ⟨h1, h2, hpF, hpL, hin⟩
  · exact Or.inl ⟨hF, hL, fun n hn => h0 n ((hp n).1 hn)⟩
  · exact Or.inr ⟨h1, h2, (hp _).2 hpF, (hp _).2 hpL, fun n hn => hin n ((hp n).1 hn)⟩

/-- `Typed` does not look at the two boundary entries. -/
theorem Typed.congrEntries {b b' inb inb' : Bucket} (h : Typed b inb)
    (hb : ∀ x, b'.Get x = b.Get x)
    (hg : ∀ x, x ≠ recFirstIdxKey → x ≠ recLastIdxKey → inb'.Get x = inb.Get x) :
    Typed b' inb' := by
  have hnum : ∀ n, inb'.Get (Itoa n) = inb.Get (Itoa n) := fun n =>
    hg _ (Ne.symm (recFirstIdxKey_ne_Itoa n)) (Ne.symm (recLastIdxKey_ne_Itoa n))
  refine ⟨?_, ?_, ?_, ?_, ?_, ?_, ?_⟩
  · intro n k hk
    exact h.slotVal n k (by rw [← hnum]; exact hk)
  · intro k v hk hv
    rw [hg k hk.2.2.2.1 hk.2.2.2.2] at hv
    obtain ⟨n, hn, hback⟩ := h.keyBack k v hk hv
    exact ⟨n, hn, by rw [hnum]; exact hback⟩
  · intro k v hv
    exact h.bKeys k v (by rw [← hb]; exact hv)
  · intro k v hv
    rw [hb] at hv
    have hk := h.bKeys k v hv
    rw [hg k hk.2.2.2.1 hk.2.2.2.2]
    exact h.bIdx k v hv
  · intro k v hk hv
    rw [hg k hk.2.2.2.1 hk.2.2.2.2] at hv
    rw [hb]
    exact h.idxB k v hk hv
  · rw [hg _ (Ne.symm reserved_ne_empty.1) (Ne.symm reserved_ne_empty.2.1)]
    exact h.noEmpty
  · obtain ⟨S, hS, hc⟩ := h.cnt
    refine ⟨S, ?_, ?_⟩
    · intro n; rw [hS n]; simp [Populated, hnum]
    · rw [hg _ (Ne.symm reserved_distinct.2.1) (Ne.symm reserved_distinct.2.2)]
      exact hc

/-- What `repair` leaves: a tight window, every other entry untouched. -/
theorem WF_repair (b inb : Bucket) (F L : Int) (ht : Typed b inb) (hw : Within inb F L) :
    ∃ F' L', WF ⟨b, repairP inb (Itoa F) (Itoa L)⟩ F' L' ∧ Tight inb F' L' ∧
      repairP inb (Itoa F) (Itoa L) =
        (inb.set recFirstIdxKey (Itoa F')).set recLastIdxKey (Itoa L') := by
  obtain ⟨F', L', htight, heq⟩ := repairP_spec inb F L hw
  refine ⟨F', L', ⟨?_, ?_, ?_, ?_⟩, htight, heq⟩
  · refine ht.congrEntries (fun _ => rfl) ?_
    intro x h1 h2
    show (repairP inb (Itoa F) (Itoa L)).Get x = inb.Get x
    rw [heq, Bucket.Get_set_ne _ _ h2, Bucket.Get_set_ne _ _ h1]
  · show (repairP inb (Itoa F) (Itoa L)).Get recFirstIdxKey = _
    rw [heq, Bucket.Get_set_ne _ _ reserved_distinct.1, Bucket.Get_set_same]
  · show (repairP inb (Itoa F) (Itoa L)).Get recLastIdxKey = _
    rw [heq, Bucket.Get_set_same]
  · refine htight.congrSlots ?_
    intro n
    show (repairP inb (Itoa F) (Itoa L)).Get (Itoa n) = _
    rw [heq, Bucket.Get_set_ne _ _ (Ne.symm (recLastIdxKey_ne_Itoa n)),
      Bucket.Get_set_ne _ _ (Ne.symm (recFirstIdxKey_ne_Itoa n))]

/-- On a well-formed partition the repair scans find the pointers already stored. -/
theorem repairP_of_WF {p : Partition} {F L : Int} (h : WF p F L) :
    repairP p.inb (Itoa F) (Itoa L) = p.inb := by
  obtain ⟨F', L', htight, heq⟩ := repairP_spec p.inb F L h.tight.within
  obtain ⟨hF, hL⟩ := h.tight.unique htight
  subst hF; subst hL
  rw [heq, Bucket.set_eq_self _ h.first, Bucket.set_eq_self _ h.last]

/-! ## Deleting one key -/

theorem WF.loose {p : Partition} {F L : Int} (h : WF p F L) : Loose p F L :=
  ⟨h.typed, h.first, h.last, h.tight.within⟩

/-- Absent key: `del` does nothing. -/
theorem delP_absent (b inb : Bucket) (k : String) (h : inb.Get k = none) :
    delP b inb k = (b, inb) := by
  simp [delP, h]

/-- The entries left by `del` of an ordinary key that has an entry. -/
theorem delP_present {b inb : Bucket} (ht : Typed b inb) {k c : String} (hk : Ordinary k)
    (hc : inb.Get k = some c) :
    ∃ n, c = Itoa n ∧ inb.Get (Itoa n) = some k ∧
      (delP b inb k).1 = b.Delete k ∧
      ∀ x, (delP b inb k).2.Get x =
        if x = recCntKey then some (Itoa (Atoi ((inb.Get recCntKey).getD "0") - 1))
        else if x = Itoa n then none
        else if x = k then none
        else inb.Get x := by
  obtain ⟨n, hn, hback⟩ := ht.keyBack k c hk hc
  subst hn
  refine ⟨n, rfl, hback, by simp [delP, hc], ?_⟩
  intro x
  have hcnt : ((inb.Delete k).Delete (Itoa n)).Get recCntKey = inb.Get recCntKey := by
    rw [Bucket.Get_Delete_ne _ (recCntKey_ne_Itoa n), Bucket.Get_Delete_ne _ (Ne.symm hk.2.2.1)]
  simp only [delP, hc, hcnt, Bucket.Get_set, Bucket.Get_Delete]

theorem Typed_delP {b inb : Bucket} (ht : Typed b inb) {k : String}
    (hk : Ordinary k ∨ k = "") : Typed (delP b inb k).1 (delP b inb k).2 := by
  cases hc : inb.Get k with
  | none => rw [delP_absent b inb k hc]; exact ht
  | some c =>
    have hk : Ordinary k := by
      rcases hk with hk | hk
      · exact hk
      · subst hk; rw [ht.noEmpty] at hc; cases hc
    obtain ⟨n, hn, hback, hb, hg⟩ := delP_present ht hk hc
    have hnum : ∀ m, (delP b inb k).2.Get (Itoa m) =
        if m = n then none else inb.Get (Itoa m) := by
      intro m
      rw [hg]
      simp only [Ne.symm (recCntKey_ne_Itoa m), if_false, Ne.symm (hk.ne_Itoa m)]
      by_cases hmn : m = n
      · subst hmn; simp
      · have : Itoa m ≠ Itoa n := fun e => hmn (Itoa_injective e)
        simp [this, hmn]
    refine ⟨?_, ?_, ?_, ?_, ?_, ?_, ?_⟩
    · intro m k' hk'
      rw [hnum] at hk'
      split at hk'
      · cases hk'
      · exact ht.slotVal m k' hk'
    · intro k' v hk' hv
      rw [hg] at hv
      simp only [hk'.2.2.1, if_false, hk'.ne_Itoa n] at hv
      split at hv
      · cases hv
      · rename_i hne
        obtain ⟨m, hm, hmb⟩ := ht.keyBack k' v hk' hv
        refine ⟨m, hm, ?_⟩
        rw [hnum]
        have hmn : m ≠ n := by
          intro e
          subst e
          rw [hback] at hmb
          exact hne (Option.some.inj hmb).symm
        simp [hmn, hmb]
    · intro k' v hv
      rw [hb, Bucket.Get_Delete] at hv
      split at hv
      · cases hv
      · exact ht.bKeys k' v hv
    · intro k' v hv
      rw [hb, Bucket.Get_Delete] at hv
      split at hv
      · cases hv
      · rename_i hne
        have hk' := ht.bKeys k' v hv
        rw [hg]
        simp only [hk'.2.2.1, if_false, hk'.ne_Itoa n, hne]
        exact ht.bIdx k' v hv
    · intro k' v hk' hv
      rw [hg] at hv
      simp only [hk'.2.2.1, if_false, hk'.ne_Itoa n] at hv
      split at hv
      · cases hv
      · rename_i hne
        rw [hb, Bucket.Get_Delete_ne _ hne]
        exact ht.idxB k' v hk' hv
    · rw [hg]
      simp only [Ne.symm reserved_ne_empty.2.2, if_false, Ne.symm (Itoa_ne_empty n),
        Ne.symm hk.1]
      exact ht.noEmpty
    · obtain ⟨S, hS, hcnt⟩ := ht.cnt
      have hmem : n ∈ S := (hS n).2 (by simp [Populated, hback])
      refine ⟨S.erase n, ?_, ?_⟩
      · intro m
        simp only [Finset.mem_erase, hS, Populated, hnum]
        by_cases hmn : m = n <;> simp [hmn]
      · rw [hg]
        simp only [if_true, Option.getD_some, hcnt, Atoi_Itoa]
        congr 1
        rw [Finset.card_erase_of_mem hmem]
        have : 1 ≤ S.card := Finset.card_pos.2 ⟨n, hmem⟩
        omega

theorem Populated_delP {b inb : Bucket} (ht : Typed b inb) {k : String}
    (hk : Ordinary k ∨ k = "") (m : Int) (h : Populated (delP b inb k).2 m) :
    Populated inb m := by
  cases hc : inb.Get k with
  | none => rw [delP_absent b inb k hc] at h; exact h
  | some c =>
    have hk : Ordinary k := by
      rcases hk with hk | hk
      · exact hk
      · subst hk; rw [ht.noEmpty] at hc; cases hc
    obtain ⟨n, hn, hback, hb, hg⟩ := delP_present ht hk hc
    unfold Populated at h ⊢
    rw [hg] at h
    simp only [Ne.symm (recCntKey_ne_Itoa m), if_false, Ne.symm (hk.ne_Itoa m)] at h
    split at h
    · exact absurd rfl h
    · exact h

theorem delP_boundary {b inb : Bucket} (ht : Typed b inb) {k : String}
    (hk : Ordinary k ∨ k = "") :
    (delP b inb k).2.Get recFirstIdxKey = inb.Get recFirstIdxKey ∧
      (delP b inb k).2.Get recLastIdxKey = inb.Get recLastIdxKey := by
  cases hc : inb.Get k with
  | none => rw [delP_absent b inb k hc]; exact ⟨rfl, rfl⟩
  | some c =>
    have hk : Ordinary k := by
      rcases hk with hk | hk
      · exact hk
      · subst hk; rw [ht.noEmpty] at hc; cases hc
    obtain ⟨n, hn, hback, hb, hg⟩ := delP_present ht hk hc
    constructor
    · rw [hg]
      simp [reserved_distinct.2.1, recFirstIdxKey_ne_Itoa n, Ne.symm hk.2.2.2.1]
    · rw [hg]
      simp [reserved_distinct.2.2, recLastIdxKey_ne_Itoa n, Ne.symm hk.2.2.2.2]

theorem Loose_delP {p : Partition} {F L : Int} (h : Loose p F L) {k : String}
    (hk : Ordinary k ∨ k = "") :
    Loose ⟨(delP p.b p.inb k).1, (delP p.b p.inb k).2⟩ F L := by
  refine ⟨Typed_delP h.typed hk, ?_, ?_, ?_⟩
  · show (delP p.b p.inb k).2.Get recFirstIdxKey = _
    rw [(delP_boundary h.typed hk).1]; exact h.first
  · show (delP p.b p.inb k).2.Get recLastIdxKey = _
    rw [(delP_boundary h.typed hk).2]; exact h.last
  · intro m hm
    exact h.within m (Populated_delP h.typed hk m hm)

theorem Loose_delAllP {F L : Int} : ∀ (keys : List String) {p : Partition},
    Loose p F L → (∀ k ∈ keys, Ordinary k ∨ k = "") →
    Loose ⟨(delAllP keys p.b p.inb).1, (delAllP keys p.b p.inb).2⟩ F L := by
  intro keys
  induction keys with
  | nil => intro p h _; exact h
  | cons k rest ih =>
    intro p h hk
    have h1 := Loose_delP h (hk k (List.mem_cons_self _ _))
    exact ih h1 (fun k' hk' => hk k' (List.mem_cons_of_mem _ hk'))

/-! ## Store -/

theorem getOrInit_some {inb : Bucket} {k v : String} (h : inb.Get k = some v) :
    getOrInit inb k = .ok (v, inb) := by
  simp [getOrInit, h]

theorem getOrInit_none {inb : Bucket} {k : String} (h : inb.Get k = none)
    (hk : Accepts k "0") : getOrInit inb k = .ok ("0", inb.set k "0") := by
  simp [getOrInit, h, Bucket.Put_eq _ _ hk]

theorem Typed.b_numeral {b inb : Bucket} (h : Typed b inb) (n : Int) :
    b.Get (Itoa n) = none := by
  cases hb : b.Get (Itoa n) with
  | none => rfl
  | some v => exact absurd rfl ((h.bKeys _ v hb).ne_Itoa n)

/-- The result of `Store` on an initialised partition whose record bucket holds no
numeral key. -/
theorem Store_eq {p : Partition} {F L : Int} {k : String}
    (hf : p.inb.Get recFirstIdxKey = some (Itoa F))
    (hl : p.inb.Get recLastIdxKey = some (Itoa L))
    (hb : p.b.Get (Itoa L) = none) (v : String) (hk : Accepts k v) :
    Store p k v = .ok ⟨p.b.set k v,
      (if F = 0 then
        (((p.inb.set (Itoa (L + 1)) k).set k (Itoa (L + 1))).set recLastIdxKey
          (Itoa (L + 1))).set recFirstIdxKey (Itoa 1)
       else ((p.inb.set (Itoa (L + 1)) k).set k (Itoa (L + 1))).set recLastIdxKey
          (Itoa (L + 1))).set recCntKey (Itoa (storedCount p + 1))⟩ := by
  unfold Store
  simp only [getOrInit_some hl, getOrInit_some hf, hb, Atoi_Itoa, if_true,
    Bucket.Put_eq _ _ hk, Bucket.Put_eq _ _ (accepts_slot _ hk.2.1),
    Bucket.Put_eq _ _ (accepts_key hk _), Bucket.Put_eq _ _ (accepts_first _),
    Bucket.Put_eq _ _ (accepts_last _), Bucket.Put_eq _ _ (accepts_cnt _), bind,
    Except.bind, pure, Except.pure, storedCount]
  by_cases hF : F = 0 <;> simp [hF]

/-- Well-formedness after `Store`, from the entries it leaves. -/
theorem WF_of_store_entries {p p' : Partition} {F L : Int} (h : WF p F L) {k : String}
    (hk : Ordinary k) (v : String) (hb : ∀ x, p'.b.Get x = (p.b.set k v).Get x)
    (hg : ∀ x, p'.inb.Get x =
        if x = recCntKey then some (Itoa (storedCount p + 1))
        else if x = recFirstIdxKey then some (Itoa (if F = 0 then 1 else F))
        else if x = recLastIdxKey then some (Itoa (L + 1))
        else if x = k then some (Itoa (L + 1))
        else if x = Itoa (L + 1) then some k
        else p.inb.Get x) :
    WF p' (if F = 0 then 1 else F) (L + 1) := by
  have hnum : ∀ m, p'.inb.Get (Itoa m) = if m = L + 1 then some k else p.inb.Get (Itoa m) := by
    intro m
    rw [hg]
    simp only [Ne.symm (recCntKey_ne_Itoa m), Ne.symm (recFirstIdxKey_ne_Itoa m),
      Ne.symm (recLastIdxKey_ne_Itoa m), Ne.symm (hk.ne_Itoa m), if_false]
    by_cases hm : m = L + 1
    · subst hm; simp
    · have : Itoa m ≠ Itoa (L + 1) := fun e => hm (Itoa_injective e)
      simp [this, hm]
  have hpop : ∀ m, Populated p'.inb m ↔ (m = L + 1 ∨ Populated p.inb m) := by
    intro m
    unfold Populated
    rw [hnum]
    by_cases hm : m = L + 1 <;> simp [hm]
  have hwin := h.tight.within
  have hLnot : ¬ Populated p.inb (L + 1) := fun hp => by
    have := hwin _ hp; omega
  refine ⟨⟨?_, ?_, ?_, ?_, ?_, ?_, ?_⟩, ?_, ?_, ?_⟩
  · intro m k' hk'
    rw [hnum] at hk'
    split at hk'
    · cases hk'; exact hk
    · exact h.typed.slotVal m k' hk'
  · intro k' v' hk' hv'
    rw [hg] at hv'
    simp only [hk'.2.2.1, hk'.2.2.2.1, hk'.2.2.2.2, if_false] at hv'
    by_cases hkk : k' = k
    · subst hkk
      simp only [if_true] at hv'
      cases hv'
      exact ⟨L + 1, rfl, by rw [hnum]; simp⟩
    · simp only [hkk, if_false, hk'.ne_Itoa (L + 1)] at hv'
      obtain ⟨m, hm, hmb⟩ := h.typed.keyBack k' v' hk' hv'
      refine ⟨m, hm, ?_⟩
      rw [hnum]
      have : m ≠ L + 1 := by
        intro e; subst e
        exact hLnot (by simp [Populated, hmb])
      simp [this, hmb]
  · intro k' v' hv'
    rw [hb, Bucket.Get_set] at hv'
    split at hv'
    · rename_i e; subst e; exact hk
    · exact h.typed.bKeys k' v' hv'
  · intro k' v' hv'
    rw [hb, Bucket.Get_set] at hv'
    rw [hg]
    split at hv'
    · rename_i e; subst e
      simp [hk.2.2.1, hk.2.2.2.1, hk.2.2.2.2]
    · rename_i hne
      have hk' := h.typed.bKeys k' v' hv'
      simp only [hk'.2.2.1, hk'.2.2.2.1, hk'.2.2.2.2, hne, hk'.ne_Itoa (L + 1), if_false]
      exact h.typed.bIdx k' v' hv'
  · intro k' v' hk' hv'
    rw [hb, Bucket.Get_set]
    rw [hg] at hv'
    by_cases hkk : k' = k
    · simp [hkk]
    · simp only [hk'.2.2.1, hk'.2.2.2.1, hk'.2.2.2.2, hkk, hk'.ne_Itoa (L + 1),
        if_false] at hv'
      simp only [hkk, if_false]
      exact h.typed.idxB k' v' hk' hv'
  · rw [hg]
    simp only [Ne.symm reserved_ne_empty.2.2, Ne.symm reserved_ne_empty.1,
      Ne.symm reserved_ne_empty.2.1, Ne.symm hk.1, Ne.symm (Itoa_ne_empty _), if_false]
    exact h.typed.noEmpty
  · obtain ⟨S, hS, hcnt⟩ := h.typed.cnt
    have hmem : L + 1 ∉ S := fun hm => hLnot ((hS _).1 hm)
    refine ⟨insert (L + 1) S, ?_, ?_⟩
    · intro m
      rw [Finset.mem_insert, hS, hpop]
    · rw [hg]
      simp only [if_true, Option.getD_some, storedCount, hcnt, Atoi_Itoa,
        Finset.card_insert_of_not_mem hmem]
      congr 1
  · rw [hg]
    simp [reserved_distinct.2.1]
  · rw [hg]
    simp [reserved_distinct.2.2, Ne.symm reserved_distinct.1]
  · rcases h.tight with ⟨hF, hL, h0⟩ | ⟨h1, h2, hpF, hpL, hin⟩
    · subst hF; subst hL
      refine Or.inr ⟨by simp, by simp, (hpop _).2 (Or.inl (by simp)), (hpop _).2 (Or.inl rfl), ?_⟩
      intro m hm
      rcases (hpop m).1 hm with e | e
      · subst e; simp
      · exact absurd e (h0 m)
    · have hF : F ≠ 0 := by omega
      simp only [hF, if_false]
      refine Or.inr ⟨h1, by omega, (hpop _).2 (Or.inr hpF), (hpop _).2 (Or.inl rfl), ?_⟩
      intro m hm
      rcases (hpop m).1 hm with e | e
      · subst e; omega
      · have := hin m e; omega

/-- The entries `Store` of an ordinary key leaves on a well-formed partition, when the
engine accepts the pair. -/
theorem Store_entries {p : Partition} {F L : Int} (h : WF p F L) {k : String}
    (hk : Ordinary k) (v : String) (ha : Accepts k v) :
    ∃ p', Store p k v = .ok p' ∧ p'.b = p.b.set k v ∧
      (∀ x, p'.inb.Get x =
        if x = recCntKey then some (Itoa (storedCount p + 1))
        else if x = recFirstIdxKey then some (Itoa (if F = 0 then 1 else F))
        else if x = recLastIdxKey then some (Itoa (L + 1))
        else if x = k then some (Itoa (L + 1))
        else if x = Itoa (L + 1) then some k
        else p.inb.Get x) := by
  have heq := Store_eq h.first h.last (h.typed.b_numeral L) v ha
  refine ⟨_, heq, rfl, ?_⟩
  intro x
  by_cases hF : F = 0
  · simp only [hF, if_true, Bucket.Get_set]
  · simp only [hF, if_false, Bucket.Get_set]
    by_cases h1 : x = recCntKey
    · simp [h1]
    · by_cases h2 : x = recFirstIdxKey
      · subst h2
        simp [h1, reserved_distinct.1, Ne.symm hk.2.2.2.1, recFirstIdxKey_ne_Itoa, h.first]
      · simp [h1, h2]

/-- `Store` of an ordinary key on a well-formed partition: the entries it leaves, and
the partition is well formed again with the window extended by the new slot. -/
theorem Store_spec {p : Partition} {F L : Int} (h : WF p F L) {k : String}
    (hk : Ordinary k) (v : String) (ha : Accepts k v) :
    ∃ p', Store p k v = .ok p' ∧ p'.b = p.b.set k v ∧
      (∀ x, p'.inb.Get x =
        if x = recCntKey then some (Itoa (storedCount p + 1))
        else if x = recFirstIdxKey then some (Itoa (if F = 0 then 1 else F))
        else if x = recLastIdxKey then some (Itoa (L + 1))
        else if x = k then some (Itoa (L + 1))
        else if x = Itoa (L + 1) then some k
        else p.inb.Get x) ∧
      WF p' (if F = 0 then 1 else F) (L + 1) := by
  obtain ⟨p', h1, h2, h3⟩ := Store_entries h hk v ha
  exact ⟨p', h1, h2, h3, WF_of_store_entries h hk v (fun x => by rw [h2]) h3⟩

/-- Reading a boundary entry of an initialised bucket. -/
theorem getOrInit_initInb_last (inb : Bucket) :
    ∃ v, getOrInit inb recLastIdxKey =
        .ok (v, if inb.Get recLastIdxKey = none then inb.set recLastIdxKey "0" else inb) ∧
      (if inb.Get recLastIdxKey = none then inb.set recLastIdxKey "0" else inb).Get
        recLastIdxKey = some v := by
  cases h : inb.Get recLastIdxKey with
  | none => exact ⟨"0", by simp [getOrInit_none h accepts_last_zero], by simp⟩
  | some v => exact ⟨v, by simp [getOrInit_some h], by simp [h]⟩

theorem initInb_of_initialised {inb : Bucket} (h1 : inb.Get recFirstIdxKey ≠ none)
    (h2 : inb.Get recLastIdxKey ≠ none) : initInb inb = inb := by
  simp [initInb, h1, h2]

/-- The two boundary reads at the start of `Store` and `StoreOnce` leave the initialised
bucket. -/
theorem getOrInit_pair (inb : Bucket) :
    ∃ l f, getOrInit inb recLastIdxKey = .ok (l, if inb.Get recLastIdxKey = none then
        inb.set recLastIdxKey "0" else inb) ∧
      getOrInit (if inb.Get recLastIdxKey = none then inb.set recLastIdxKey "0" else inb)
        recFirstIdxKey = .ok (f, initInb inb) ∧
      (initInb inb).Get recLastIdxKey = some l ∧
      (initInb inb).Get recFirstIdxKey = some f := by
  obtain ⟨l, hl1, hl2⟩ := getOrInit_initInb_last inb
  refine ⟨l, ?_⟩
  generalize hinb1 : (if inb.Get recLastIdxKey = none then inb.set recLastIdxKey "0"
    else inb) = inb1 at hl1 hl2
  have hinit : initInb inb =
      if inb1.Get recFirstIdxKey = none then inb1.set recFirstIdxKey "0" else inb1 := by
    simp [initInb, hinb1]
  cases hf : inb1.Get recFirstIdxKey with
  | none =>
    refine ⟨"0", hl1, ?_, ?_, ?_⟩
    · rw [hinit, getOrInit_none hf accepts_first_zero]; simp [hf]
    · rw [hinit]; simp [hf, Bucket.Get_set_ne _ _ (Ne.symm reserved_distinct.1), hl2]
    · rw [hinit]; simp [hf]
  | some f =>
    refine ⟨f, hl1, ?_, ?_, ?_⟩
    · rw [hinit, getOrInit_some hf]; simp [hf]
    · rw [hinit]; simp [hf, hl2]
    · rw [hinit]; simp [hf]

theorem initInb_first_ne (inb : Bucket) : (initInb inb).Get recFirstIdxKey ≠ none := by
  obtain ⟨l, f, _, _, _, h4⟩ := getOrInit_pair inb
  simp [h4]

theorem initInb_last_ne (inb : Bucket) : (initInb inb).Get recLastIdxKey ≠ none := by
  obtain ⟨l, f, _, _, h3, _⟩ := getOrInit_pair inb
  simp [h3]

/-- `Store` starts by initialising the boundary entries. -/
theorem Store_initP (p : Partition) (k v : String) : Store (initP p) k v = Store p k v := by
  obtain ⟨l, f, h1, h2, h3, h4⟩ := getOrInit_pair p.inb
  unfold Store
  simp only [initP, getOrInit_some h3, getOrInit_some h4, h1, h2, bind, Except.bind]

/-- `Store` fails when the engine does not accept the pair. -/
theorem Store_fails (p : Partition) {k v : String} (ha : ¬ Accepts k v) :
    ∃ e, Store p k v = .error e := by
  obtain ⟨l, f, h1, h2, _, _⟩ := getOrInit_pair p.inb
  obtain ⟨e, he⟩ := Bucket.Put_error p.b ha
  refine ⟨e, ?_⟩
  unfold Store
  simp only [h1, h2, bind, Except.bind, he]

/-- `Store` of an ordinary key on a well-formed partition fails, or succeeds with the
entries of `Store_spec`. -/
theorem Store_cases {p : Partition} {F L : Int} (h : WF p F L) {k : String}
    (hk : Ordinary k) (v : String) :
    (¬ Accepts k v ∧ ∃ e, Store p k v = .error e) ∨
    (Accepts k v ∧ ∃ p', Store p k v = .ok p' ∧ p'.b = p.b.set k v ∧
      (∀ x, p'.inb.Get x =
        if x = recCntKey then some (Itoa (storedCount p + 1))
        else if x = recFirstIdxKey then some (Itoa (if F = 0 then 1 else F))
        else if x = recLastIdxKey then some (Itoa (L + 1))
        else if x = k then some (Itoa (L + 1))
        else if x = Itoa (L + 1) then some k
        else p.inb.Get x) ∧
      WF p' (if F = 0 then 1 else F) (L + 1)) := by
  by_cases ha : Accepts k v
  · exact Or.inr ⟨ha, Store_spec h hk v ha⟩
  · exact Or.inl ⟨ha, Store_fails p ha⟩

theorem Typed_empty : Typed [] [] := by
  refine ⟨?_, ?_, ?_, ?_, ?_, ?_, ⟨∅, ?_, ?_⟩⟩ <;> simp [Populated, Itoa_zero]

theorem WF_initP_empty : WF (initP Partition.empty) 0 0 := by
  have hinb : (initP Partition.empty).inb =
      [(recLastIdxKey, "0"), (recFirstIdxKey, "0")] := by decide
  have hb : (initP Partition.empty).b = [] := rfl
  have hget : ∀ x, (initP Partition.empty).inb.Get x =
      if x = recLastIdxKey then some "0" else if x = recFirstIdxKey then some "0"
      else none := by
    intro x
    rw [hinb]
    simp only [Bucket.Get]
    by_cases h1 : recLastIdxKey = x
    · simp [h1]
    · by_cases h2 : recFirstIdxKey = x
      · simp [h1, h2, Ne.symm h1]
      · simp [h1, h2, Ne.symm h1, Ne.symm h2]
  have hnum : ∀ n, (initP Partition.empty).inb.Get (Itoa n) = none := by
    intro n
    rw [hget]
    simp [Ne.symm (recLastIdxKey_ne_Itoa n), Ne.symm (recFirstIdxKey_ne_Itoa n)]
  refine ⟨⟨?_, ?_, ?_, ?_, ?_, ?_, ⟨∅, ?_, ?_⟩⟩, ?_, ?_, ?_⟩
  · intro n k hk; rw [hnum] at hk; cases hk
  · intro k v hk hv
    rw [hget] at hv
    simp [hk.2.2.2.1, hk.2.2.2.2] at hv
  · intro k v hv; rw [hb] at hv; simp at hv
  · intro k v hv; rw [hb] at hv; simp at hv
  · intro k v hk hv
    rw [hget] at hv
    simp [hk.2.2.2.1, hk.2.2.2.2] at hv
  · rw [hget]; simp [Ne.symm reserved_ne_empty.1, Ne.symm reserved_ne_empty.2.1]
  · intro n; simp [Populated, hnum]
  · rw [hget]
    simp [reserved_distinct.2.1, reserved_distinct.2.2, Ne.symm reserved_distinct.2.1,
      Ne.symm reserved_distinct.2.2, Itoa_zero]
  · rw [hget]; simp [reserved_distinct.1, Itoa_zero]
  · rw [hget]; simp [Itoa_zero]
  · exact Or.inl ⟨rfl, rfl, fun n => by simp [Populated, hnum]⟩

/-! ## StoreOnce -/

theorem storeLoop_eq : ∀ (data : List ChunkData) (b inb : Bucket) (lstidx c : Int),
    (∀ kv ∈ data, Accepts kv.Key (kv.Value.getD "")) →
    storeLoop data b inb lstidx c =
      .ok ((storeLoopP data b inb lstidx).1, (storeLoopP data b inb lstidx).2,
        lstidx + data.length, c + data.length) := by
  intro data
  induction data with
  | nil => intro b inb lstidx c _; simp [storeLoop, storeLoopP]
  | cons kv rest ih =>
    intro b inb lstidx c hk
    have hkv : Accepts kv.Key (kv.Value.getD "") := hk kv (List.mem_cons_self _ _)
    have hrest : ∀ kv' ∈ rest, Accepts kv'.Key (kv'.Value.getD "") :=
      fun kv' h => hk kv' (List.mem_cons_of_mem _ h)
    simp only [storeLoop, storeLoopP, Bucket.Put_eq _ _ hkv,
      Bucket.Put_eq _ _ (accepts_slot _ hkv.2.1), Bucket.Put_eq _ _ (accepts_key hkv _),
      Bucket.Put_eq _ _ (accepts_last _),
      bind, Except.bind, ih _ _ _ _ hrest, List.length_cons]
    push_cast
    have e1 : lstidx + 1 + (rest.length : Int) = lstidx + ((rest.length : Int) + 1) := by omega
    have e2 : c + 1 + (rest.length : Int) = c + ((rest.length : Int) + 1) := by omega
    rw [e1, e2]

theorem storeLoopP_snoc : ∀ (data : List ChunkData) (kv : ChunkData) (b inb : Bucket)
    (lstidx : Int),
    storeLoopP (data ++ [kv]) b inb lstidx =
      ((storeLoopP data b inb lstidx).1.set kv.Key (kv.Value.getD ""),
       (((storeLoopP data b inb lstidx).2.set (Itoa (lstidx + data.length)) kv.Key).set
          kv.Key (Itoa (lstidx + data.length))).set recLastIdxKey
          (Itoa (lstidx + data.length))) := by
  intro data
  induction data with
  | nil => intro kv b inb lstidx; simp [storeLoopP]
  | cons kv' rest ih =>
    intro kv b inb lstidx
    have e1 : lstidx + 1 + (rest.length : Int) = lstidx + ((rest.length : Int) + 1) := by omega
    show storeLoopP (kv' :: (rest ++ [kv])) b inb lstidx = _
    simp only [storeLoopP]
    rw [ih]
    simp only [List.length_cons]
    push_cast
    rw [e1]

/-- The loop writes only under slot numerals, the keys of the pairs and the last-index
key. -/
theorem storeLoopP_frame : ∀ (data : List ChunkData) (b inb : Bucket) (lstidx : Int)
    (x : String), (∀ kv ∈ data, kv.Key ≠ x) → (∀ n, Itoa n ≠ x) → x ≠ recLastIdxKey →
    (storeLoopP data b inb lstidx).2.Get x = inb.Get x := by
  intro data
  induction data with
  | nil => intro b inb lstidx x _ _ _; rfl
  | cons kv rest ih =>
    intro b inb lstidx x hk hn hl
    simp only [storeLoopP]
    rw [ih _ _ _ x (fun kv' h => hk kv' (List.mem_cons_of_mem _ h)) hn hl,
      Bucket.Get_set_ne _ _ hl,
      Bucket.Get_set_ne _ _ (Ne.symm (hk kv (List.mem_cons_self _ _))),
      Bucket.Get_set_ne _ _ (Ne.symm (hn lstidx))]

theorem storeLoopP_last (data : List ChunkData) (b inb : Bucket) (lstidx : Int) :
    (storeLoopP data b inb lstidx).2.Get recLastIdxKey =
      if data = [] then inb.Get recLastIdxKey
      else some (Itoa (lstidx + data.length - 1)) := by
  induction data using List.reverseRecOn with
  | nil => simp [storeLoopP]
  | append_singleton data kv _ =>
    rw [storeLoopP_snoc]
    simp
    congr 1
    omega

/-- The result of `StoreOnce` on an initialised partition whose record bucket holds no
numeral key, when the engine accepts every pair. -/
theorem StoreOnce_eq {p : Partition} {F L : Int} (data : List ChunkData)
    (hf : p.inb.Get recFirstIdxKey = some (Itoa F))
    (hl : p.inb.Get recLastIdxKey = some (Itoa L))
    (hb : p.b.Get (Itoa L) = none)
    (hk : ∀ kv ∈ data, Accepts kv.Key (kv.Value.getD "")) :
    StoreOnce p data = .ok ⟨(storeLoopP data p.b p.inb (L + 1)).1,
      (if 0 < (data.length : Int) ∧ F = 0 then
        (storeLoopP data p.b p.inb (L + 1)).2.set recFirstIdxKey (Itoa 1)
       else (storeLoopP data p.b p.inb (L + 1)).2).set recCntKey
        (Itoa (storedCount p + data.length))⟩ := by
  unfold StoreOnce
  simp only [getOrInit_some hl, getOrInit_some hf, hb, Atoi_Itoa, if_true,
    storeLoop_eq data _ _ _ _ hk, Bucket.Put_eq _ _ (accepts_first _),
    Bucket.Put_eq _ _ (accepts_cnt _), bind, Except.bind, pure, Except.pure,
    storedCount, zero_add]
  by_cases hF : 0 < (data.length : Int) ∧ F = 0
  · simp [hF]
  · simp only [hF, if_false]

/-- `StoreOnce` starts by initialising the boundary entries. -/
theorem StoreOnce_initP (p : Partition) (data : List ChunkData) :
    StoreOnce (initP p) data = StoreOnce p data := by
  obtain ⟨l, f, h1, h2, h3, h4⟩ := getOrInit_pair p.inb
  unfold StoreOnce
  simp only [initP, getOrInit_some h3, getOrInit_some h4, h1, h2, bind, Except.bind]

theorem storedCount_of_typed {p : Partition} (h : Typed p.b p.inb) :
    ∃ S : Finset Int, (∀ n, n ∈ S ↔ Populated p.inb n) ∧ storedCount p = S.card := by
  obtain ⟨S, hS, hc⟩ := h.cnt
  exact ⟨S, hS, by simp [storedCount, hc, Atoi_Itoa]⟩

/-- Writing the count that is already stored keeps the partition well formed. -/
theorem WF_set_cnt {p : Partition} {F L : Int} (h : WF p F L) :
    WF ⟨p.b, p.inb.set recCntKey (Itoa (storedCount p))⟩ F L := by
  have hget : ∀ x, x ≠ recCntKey →
      (p.inb.set recCntKey (Itoa (storedCount p))).Get x = p.inb.Get x :=
    fun x hx => Bucket.Get_set_ne _ _ hx
  have hnum : ∀ n, (p.inb.set recCntKey (Itoa (storedCount p))).Get (Itoa n) =
      p.inb.Get (Itoa n) := fun n => hget _ (Ne.symm (recCntKey_ne_Itoa n))
  refine ⟨⟨?_, ?_, ?_, ?_, ?_, ?_, ?_⟩, ?_, ?_, ?_⟩
  · intro n k hk
    exact h.typed.slotVal n k (by rw [← hnum]; exact hk)
  · intro k v hk hv
    rw [show (Partition.inb ⟨p.b, p.inb.set recCntKey (Itoa (storedCount p))⟩).Get k =
      p.inb.Get k from hget k hk.2.2.1] at hv
    obtain ⟨n, hn, hb⟩ := h.typed.keyBack k v hk hv
    exact ⟨n, hn, by rw [← hb]; exact hnum n⟩
  · exact h.typed.bKeys
  · intro k v hv
    rw [show (Partition.inb ⟨p.b, p.inb.set recCntKey (Itoa (storedCount p))⟩).Get k =
      p.inb.Get k from hget k (h.typed.bKeys k v hv).2.2.1]
    exact h.typed.bIdx k v hv
  · intro k v hk hv
    rw [show (Partition.inb ⟨p.b, p.inb.set recCntKey (Itoa (storedCount p))⟩).Get k =
      p.inb.Get k from hget k hk.2.2.1] at hv
    exact h.typed.idxB k v hk hv
  · rw [show (Partition.inb ⟨p.b, p.inb.set recCntKey (Itoa (storedCount p))⟩).Get "" =
      p.inb.Get "" from hget _ (Ne.symm reserved_ne_empty.2.2)]
    exact h.typed.noEmpty
  · obtain ⟨S, hS, hc⟩ := storedCount_of_typed h.typed
    refine ⟨S, ?_, ?_⟩
    · intro n; rw [hS]; simp [Populated, hnum]
    · simp [hc]
  · rw [← h.first]; exact hget _ reserved_distinct.2.1
  · rw [← h.last]; exact hget _ reserved_distinct.2.2
  · exact h.tight.congrSlots hnum

theorem so_first_step (n : Nat) (F : Int) :
    (if (if (0 : Int) < (n : Int) ∧ F = 0 then (1 : Int) else F) = 0 then (1 : Int)
      else (if (0 : Int) < (n : Int) ∧ F = 0 then (1 : Int) else F)) =
    if (0 : Int) < (n : Int) + 1 ∧ F = 0 then 1 else F := by
  have hpos : (0 : Int) < (n : Int) + 1 := by positivity
  by_cases hF : F = 0
  · subst hF
    by_cases hn : (0 : Int) < (n : Int)
    · simp [hn, hpos]
    · simp [hn, hpos]
  · simp [hF]

/-- `StoreOnce` of ordinary keys on a well-formed partition, when the engine accepts
every pair: it succeeds, the partition is well formed again, the last index and the count
have advanced by the number of pairs. -/
theorem StoreOnce_spec {p : Partition} {F L : Int} (h : WF p F L) :
    ∀ (data : List ChunkData), (∀ kv ∈ data, Ordinary kv.Key) →
    (∀ kv ∈ data, Accepts kv.Key (kv.Value.getD "")) →
    ∃ q, StoreOnce p data = .ok q ∧
      WF q (if 0 < (data.length : Int) ∧ F = 0 then 1 else F) (L + data.length) ∧
      q.inb.Get recCntKey = some (Itoa (storedCount p + data.length)) ∧
      q.b = (storeLoopP data p.b p.inb (L + 1)).1 ∧
      (∀ x, x ≠ recCntKey → x ≠ recFirstIdxKey →
        q.inb.Get x = (storeLoopP data p.b p.inb (L + 1)).2.Get x) := by
  intro data
  induction data using List.reverseRecOn with
  | nil =>
    intro _ _
    refine ⟨_, StoreOnce_eq [] h.first h.last (h.typed.b_numeral L) (by simp), ?_, ?_, rfl, ?_⟩
    · simpa [storeLoopP] using WF_set_cnt h
    · simp
    · intro x h1 h2
      simp [storeLoopP, Bucket.Get_set_ne _ _ h1]
  | append_singleton data kv ih =>
    intro hk ha
    have hkd : ∀ kv' ∈ data, Ordinary kv'.Key := fun kv' hm =>
      hk kv' (List.mem_append_left _ hm)
    have hkv : Ordinary kv.Key := hk kv (by simp)
    obtain ⟨q0, hq0, hwf0, hc0', hb0, hg0⟩ := ih hkd
      (fun kv' hm => ha kv' (List.mem_append_left _ hm))
    have hc0 : storedCount q0 = storedCount p + data.length := by
      simp [storedCount, hc0', Atoi_Itoa]
    have heq := StoreOnce_eq (data ++ [kv]) h.first h.last (h.typed.b_numeral L) ha
    have hfirst : (storeLoopP data p.b p.inb (L + 1)).2.Get recFirstIdxKey =
        some (Itoa F) := by
      rw [storeLoopP_frame _ _ _ _ _ (fun kv' hm => (hkd kv' hm).2.2.2.1)
        (fun n => Ne.symm (recFirstIdxKey_ne_Itoa n)) reserved_distinct.1]
      exact h.first
    have hlen : ((data ++ [kv]).length : Int) = (data.length : Int) + 1 := by simp
    have hL : L + 1 + (data.length : Int) = L + data.length + 1 := by omega
    rw [hlen] at heq
    rw [hlen, ← so_first_step]
    have hwf := @WF_of_store_entries q0
      ⟨(storeLoopP (data ++ [kv]) p.b p.inb (L + 1)).1,
        (if 0 < (data.length : Int) + 1 ∧ F = 0 then
          (storeLoopP (data ++ [kv]) p.b p.inb (L + 1)).2.set recFirstIdxKey (Itoa 1)
         else (storeLoopP (data ++ [kv]) p.b p.inb (L + 1)).2).set recCntKey
          (Itoa (storedCount p + ((data.length : Int) + 1)))⟩ _ _ hwf0 _ hkv
      (kv.Value.getD "")
      (by intro x; simp only [storeLoopP_snoc, hb0])
      (by
        intro x
        rw [so_first_step]
        simp only [storeLoopP_snoc, hc0, hL]
        by_cases h1 : x = recCntKey
        · subst h1; simp [add_assoc]
        · rw [Bucket.Get_set_ne _ _ h1]
          simp only [h1, if_false]
          by_cases h2 : x = recFirstIdxKey
          · subst h2
            simp only [if_true]
            by_cases hF : (0 : Int) < (data.length : Int) + 1 ∧ F = 0
            · simp only [hF, and_self, if_true, Bucket.Get_set_same]
            · have hpos : (0 : Int) < (data.length : Int) + 1 := by positivity
              have hF0 : F ≠ 0 := fun e => hF ⟨hpos, e⟩
              simp only [hF0, and_false, if_false]
              rw [Bucket.Get_set_ne _ _ reserved_distinct.1,
                Bucket.Get_set_ne _ _ (Ne.symm hkv.2.2.2.1),
                Bucket.Get_set_ne _ _ (recFirstIdxKey_ne_Itoa _), hfirst]
          · simp only [h2, if_false]
            rw [hg0 x h1 h2]
            by_cases hF : (0 : Int) < (data.length : Int) + 1 ∧ F = 0
            · simp only [hF, and_self, if_true, Bucket.Get_set_ne _ _ h2, Bucket.Get_set]
            · simp only [hF, if_false, Bucket.Get_set])
    refine ⟨_, heq, ?_, ?_, rfl, ?_⟩
    · have e2 : L + ((data.length : Int) + 1) = L + data.length + 1 := by omega
      rw [e2]
      exact hwf
    · simp
    · intro x h1 h2
      show (Bucket.set _ recCntKey _).Get x = _
      rw [Bucket.Get_set_ne _ _ h1]
      split
      · rw [Bucket.Get_set_ne _ _ h2]
      · rfl

/-- The loop of `StoreOnce` fails when the engine does not accept one of the pairs. -/
theorem storeLoop_fails : ∀ (data : List ChunkData) (b inb : Bucket) (lstidx c : Int),
    (∃ kv ∈ data, ¬ Accepts kv.Key (kv.Value.getD "")) →
    ∃ e, storeLoop data b inb lstidx c = .error e := by
  intro data
  induction data with
  | nil => intro b inb lstidx c h; simp at h
  | cons kv rest ih =>
    intro b inb lstidx c h
    by_cases hkv : Accepts kv.Key (kv.Value.getD "")
    · have hrest : ∃ kv' ∈ rest, ¬ Accepts kv'.Key (kv'.Value.getD "") := by
        obtain ⟨kv', hm, he⟩ := h
        rcases List.mem_cons.1 hm with e | e
        · subst e; exact absurd hkv he
        · exact ⟨kv', e, he⟩
      obtain ⟨e, he⟩ := ih (b.set kv.Key (kv.Value.getD ""))
        (((inb.set (Itoa lstidx) kv.Key).set kv.Key (Itoa lstidx)).set recLastIdxKey
          (Itoa lstidx)) (lstidx + 1) (c + 1) hrest
      refine ⟨e, ?_⟩
      simp only [storeLoop, Bucket.Put_eq _ _ hkv, Bucket.Put_eq _ _ (accepts_slot _ hkv.2.1),
        Bucket.Put_eq _ _ (accepts_key hkv _), Bucket.Put_eq _ _ (accepts_last _), bind,
        Except.bind, he]
    · obtain ⟨e, he⟩ := Bucket.Put_error b hkv
      exact ⟨e, by simp only [storeLoop, bind, Except.bind, he]⟩

/-- `StoreOnce` fails as a whole when the engine does not accept one of the pairs. -/
theorem StoreOnce_fails (p : Partition) (data : List ChunkData)
    (h : ∃ kv ∈ data, ¬ Accepts kv.Key (kv.Value.getD "")) :
    ∃ e, StoreOnce p data = .error e := by
  obtain ⟨l, f, h1, h2, _, _⟩ := getOrInit_pair p.inb
  obtain ⟨e, he⟩ := storeLoop_fails data p.b (initInb p.inb)
    (if p.b.Get l = none then Atoi l + 1 else Atoi l) 0 h
  refine ⟨e, ?_⟩
  unfold StoreOnce
  simp only [h1, h2, bind, Except.bind, he]

/-- `StoreOnce` of ordinary keys on a well-formed partition fails and writes nothing, or
succeeds with the entries of `StoreOnce_spec`. -/
theorem StoreOnce_cases {p : Partition} {F L : Int} (h : WF p F L) (data : List ChunkData)
    (hk : ∀ kv ∈ data, Ordinary kv.Key) :
    ((∃ kv ∈ data, ¬ Accepts kv.Key (kv.Value.getD "")) ∧
      ∃ e, StoreOnce p data = .error e) ∨
    ((∀ kv ∈ data, Accepts kv.Key (kv.Value.getD "")) ∧
      ∃ q, StoreOnce p data = .ok q ∧
      WF q (if 0 < (data.length : Int) ∧ F = 0 then 1 else F) (L + data.length) ∧
      q.inb.Get recCntKey = some (Itoa (storedCount p + data.length)) ∧
      q.b = (storeLoopP data p.b p.inb (L + 1)).1 ∧
      (∀ x, x ≠ recCntKey → x ≠ recFirstIdxKey →
        q.inb.Get x = (storeLoopP data p.b p.inb (L + 1)).2.Get x)) := by
  by_cases ha : ∀ kv ∈ data, Accepts kv.Key (kv.Value.getD "")
  · exact Or.inr ⟨ha, StoreOnce_spec h data hk ha⟩
  · have ha' : ∃ kv ∈ data, ¬ Accepts kv.Key (kv.Value.getD "") := by
      push_neg at ha
      exact ha
    exact Or.inl ⟨ha', StoreOnce_fails p data ha'⟩

/-! ## The delete family -/

theorem Delete_eq {p : Partition} {t l : String} (hf : p.inb.Get recFirstIdxKey = some t)
    (hl : p.inb.Get recLastIdxKey = some l) (k : String) :
    Delete p k = .ok ⟨(delP p.b p.inb k).1, repairP (delP p.b p.inb k).2 t l⟩ := by
  simp [Delete, hf, hl, del_eq, repair_eq, bind, Except.bind, pure, Except.pure]

theorem DeleteOnce_eq {p : Partition} {t l : String}
    (hf : p.inb.Get recFirstIdxKey = some t) (hl : p.inb.Get recLastIdxKey = some l)
    {keys : List String} (hk : keys ≠ []) :
    DeleteOnce p keys =
      .ok ⟨(delAllP keys p.b p.inb).1, repairP (delAllP keys p.b p.inb).2 t l⟩ := by
  have : keys.length ≠ 0 := by simpa using hk
  simp [DeleteOnce, this, hf, hl, delAll_eq, repair_eq, bind, Except.bind, pure, Except.pure]

theorem FetchDelete_eq {p : Partition} {t l : String}
    (hf : p.inb.Get recFirstIdxKey = some t) (hl : p.inb.Get recLastIdxKey = some l)
    (k : String) :
    FetchDelete p k =
      .ok (p.b.Get k, ⟨(delP p.b p.inb k).1, repairP (delP p.b p.inb k).2 t l⟩) := by
  simp [FetchDelete, hf, hl, del_eq, repair_eq, bind, Except.bind, pure, Except.pure]

theorem slice_eq (p : Partition) (t l idxb : String) {keyb : String}
    (hk : p.inb.Get idxb = some keyb) :
    slice p t l idxb =
      .ok (p.b.Get keyb, ⟨(delP p.b p.inb keyb).1, repairP (delP p.b p.inb keyb).2 t l⟩) := by
  simp [slice, hk, del_eq, repair_eq, bind, Except.bind, pure, Except.pure]

theorem cutFinish_eq (p : Partition) (t l : String) {chunk : List ChunkData}
    (hc : chunk ≠ []) :
    cutFinish p t l chunk =
      .ok (chunk, ⟨(delAllP (chunk.map ChunkData.Key) p.b p.inb).1,
        repairP (delAllP (chunk.map ChunkData.Key) p.b p.inb).2 t l⟩) := by
  have : chunk.length ≠ 0 := by simpa using hc
  simp [cutFinish, this, delAll_eq, repair_eq]

theorem chunkUp_keys (b inb : Bucket) (max : Int) : ∀ (n : Nat) (i c : Int),
    ∀ cd ∈ chunkUp b inb max n i c, ∃ j, inb.Get (Itoa j) = some cd.Key := by
  intro n
  induction n with
  | zero => intro i c cd h; simp [chunkUp] at h
  | succ n ih =>
    intro i c cd h
    simp only [chunkUp] at h
    split at h
    · split at h
      · rename_i keyb hk
        rcases List.mem_cons.1 h with e | e
        · subst e; exact ⟨i, hk⟩
        · exact ih _ _ cd e
      · exact ih _ _ cd h
    · simp at h

theorem cutDown_keys (b inb : Bucket) (max : Int) : ∀ (n : Nat) (i c : Int),
    ∀ cd ∈ cutDown b inb max n i c, (∃ j, inb.Get (Itoa j) = some cd.Key) ∨ cd.Key = "" := by
  intro n
  induction n with
  | zero => intro i c cd h; simp [cutDown] at h
  | succ n ih =>
    intro i c cd h
    simp only [cutDown] at h
    split at h
    · rcases List.mem_cons.1 h with e | e
      · subst e
        cases hk : inb.Get (Itoa i) with
        | none => right; simp
        | some keyb => left; exact ⟨i, by simp [hk]⟩
      · exact ih _ _ cd e
    · simp at h

/-- Every delete-family operation deletes some keys and then repairs the pointers; on a
well-formed partition the result is well formed. -/
theorem WF_delAll_repair {p : Partition} {F L : Int} (h : WF p F L) (keys : List String)
    (hk : ∀ k ∈ keys, Ordinary k ∨ k = "") :
    ∃ F' L', WF ⟨(delAllP keys p.b p.inb).1,
      repairP (delAllP keys p.b p.inb).2 (Itoa F) (Itoa L)⟩ F' L' := by
  have hl := Loose_delAllP keys h.loose hk
  obtain ⟨F', L', hwf, _⟩ := WF_repair _ _ F L hl.typed hl.within
  exact ⟨F', L', hwf⟩

theorem WF_del_repair {p : Partition} {F L : Int} (h : WF p F L) (k : String)
    (hk : Ordinary k ∨ k = "") :
    ∃ F' L', WF ⟨(delP p.b p.inb k).1,
      repairP (delP p.b p.inb k).2 (Itoa F) (Itoa L)⟩ F' L' :=
  WF_delAll_repair h [k] (by simpa using hk)

/-! ## Reads leave the partition alone -/

theorem FetchChunkUp_state (p : Partition) (max offset : Int) :
    commitR p (FetchChunkUp p max offset) = p := by
  unfold FetchChunkUp
  cases p.inb.Get recLastIdxKey with
  | none => rfl
  | some l =>
    simp only
    split <;> split <;> rfl

theorem FetchChunkDown_state (p : Partition) (max offset : Int) :
    commitR p (FetchChunkDown p max offset) = p := by
  unfold FetchChunkDown
  cases p.inb.Get recFirstIdxKey with
  | none => rfl
  | some f =>
    simp only
    cases p.inb.Get recLastIdxKey with
    | none => rfl
    | some l =>
      simp only
      split <;> rfl

/-! ## Reachable partitions are well formed -/

/-- Every operation with ordinary keys keeps a well-formed partition well formed. -/
theorem WF_applyOp {p : Partition} {F L : Int} (h : WF p F L) (op : Op)
    (hop : op.Ordinary) : ∃ F' L', WF (applyOp p op) F' L' := by
  cases op with
  | Store key data =>
    rcases Store_cases h hop data with ⟨_, e, he⟩ | ⟨_, p', h1, _, _, h4⟩
    · exact ⟨F, L, by simpa [applyOp, commit, he] using h⟩
    · exact ⟨_, _, by simpa [applyOp, commit, h1] using h4⟩
  | StoreOnce data =>
    rcases StoreOnce_cases h data hop with ⟨_, e, he⟩ | ⟨_, q, h1, h2, _⟩
    · exact ⟨F, L, by simpa [applyOp, commit, he] using h⟩
    · exact ⟨_, _, by simpa [applyOp, commit, h1] using h2⟩
  | Fetch key => exact ⟨F, L, by simpa [applyOp, commitR, Fetch] using h⟩
  | Delete key =>
    obtain ⟨F', L', hwf⟩ := WF_del_repair h key (Or.inl hop)
    exact ⟨F', L', by simpa [applyOp, commit, Delete_eq h.first h.last] using hwf⟩
  | DeleteOnce keys =>
    by_cases hk : keys = []
    · subst hk
      exact ⟨F, L, by simpa [applyOp, commit, DeleteOnce] using h⟩
    · obtain ⟨F', L', hwf⟩ := WF_delAll_repair h keys (fun k hm => Or.inl (hop k hm))
      exact ⟨F', L', by simpa [applyOp, commit, DeleteOnce_eq h.first h.last hk] using hwf⟩
  | FetchChunkUp max offset =>
    exact ⟨F, L, by simpa [applyOp, FetchChunkUp_state] using h⟩
  | FetchChunkDown max offset =>
    exact ⟨F, L, by simpa [applyOp, FetchChunkDown_state] using h⟩
  | FetchDelete key =>
    obtain ⟨F', L', hwf⟩ := WF_del_repair h key (Or.inl hop)
    exact ⟨F', L', by simpa [applyOp, commitR, FetchDelete_eq h.first h.last] using hwf⟩
  | SliceUp =>
    simp only [applyOp, SliceUp, h.first, h.last]
    cases hk : p.inb.Get (Itoa L) with
    | none => exact ⟨F, L, by simpa [slice, hk, commitR] using h⟩
    | some keyb =>
      obtain ⟨F', L', hwf⟩ := WF_del_repair h keyb (Or.inl (h.typed.slotVal L keyb hk))
      exact ⟨F', L', by simpa [slice_eq p _ _ _ hk, commitR] using hwf⟩
  | SliceDown =>
    simp only [applyOp, SliceDown, h.first, h.last]
    cases hk : p.inb.Get (Itoa F) with
    | none => exact ⟨F, L, by simpa [slice, hk, commitR] using h⟩
    | some keyb =>
      obtain ⟨F', L', hwf⟩ := WF_del_repair h keyb (Or.inl (h.typed.slotVal F keyb hk))
      exact ⟨F', L', by simpa [slice_eq p _ _ _ hk, commitR] using hwf⟩
  | CutChunkUp max =>
    simp only [applyOp, CutChunkUp, h.first, h.last]
    split
    · exact ⟨F, L, by simpa [commitR] using h⟩
    · generalize hch : chunkUp p.b p.inb max (Atoi (Itoa L) + 1).toNat (Atoi (Itoa L)) 0 = chunk
      by_cases hc : chunk = []
      · subst hc
        exact ⟨F, L, by simpa [cutFinish, commitR] using h⟩
      · obtain ⟨F', L', hwf⟩ := WF_delAll_repair h (chunk.map ChunkData.Key) (by
          intro k hm
          obtain ⟨cd, hcd, rfl⟩ := List.mem_map.1 hm
          obtain ⟨j, hj⟩ := chunkUp_keys _ _ _ _ _ _ cd (hch ▸ hcd)
          exact Or.inl (h.typed.slotVal j _ hj))
        exact ⟨F', L', by simpa [cutFinish_eq p _ _ hc, commitR] using hwf⟩
  | CutChunkDown max =>
    simp only [applyOp, CutChunkDown, h.first, h.last]
    split
    · exact ⟨F, L, by simpa [commitR] using h⟩
    · generalize hch : cutDown p.b p.inb max (Atoi (Itoa L) + 1 - Atoi (Itoa F)).toNat
        (Atoi (Itoa F)) 0 = chunk
      by_cases hc : chunk = []
      · subst hc
        exact ⟨F, L, by simpa [cutFinish, commitR] using h⟩
      · obtain ⟨F', L', hwf⟩ := WF_delAll_repair h (chunk.map ChunkData.Key) (by
          intro k hm
          obtain ⟨cd, hcd, rfl⟩ := List.mem_map.1 hm
          rcases cutDown_keys _ _ _ _ _ _ cd (hch ▸ hcd) with ⟨j, hj⟩ | he
          · exact Or.inl (h.typed.slotVal j _ hj)
          · exact Or.inr he)
        exact ⟨F', L', by simpa [cutFinish_eq p _ _ hc, commitR] using hwf⟩
  | Count => exact ⟨F, L, by simpa [applyOp, commitR, Count] using h⟩

/-! ## The never-written partition -/

theorem applyOp_empty (op : Op) (hop : op.Ordinary) :
    applyOp Partition.empty op = Partition.empty ∨
      ∃ F L, WF (applyOp Partition.empty op) F L := by
  cases op with
  | Store key data =>
    rcases Store_cases WF_initP_empty hop data with ⟨_, e, he⟩ | ⟨_, p', h1, _, _, h4⟩
    · rw [Store_initP] at he
      exact Or.inl (by simp [applyOp, commit, he])
    · rw [Store_initP] at h1
      exact Or.inr ⟨_, _, by simpa [applyOp, commit, h1] using h4⟩
  | StoreOnce data =>
    rcases StoreOnce_cases WF_initP_empty data hop with ⟨_, e, he⟩ | ⟨_, q, h1, h2, _⟩
    · rw [StoreOnce_initP] at he
      exact Or.inl (by simp [applyOp, commit, he])
    · rw [StoreOnce_initP] at h1
      exact Or.inr ⟨_, _, by simpa [applyOp, commit, h1] using h2⟩
  | Fetch key => left; rfl
  | Delete key => left; rfl
  | DeleteOnce keys =>
    left
    simp only [applyOp, DeleteOnce]
    split <;> rfl
  | FetchChunkUp max offset => left; rfl
  | FetchChunkDown max offset => left; rfl
  | FetchDelete key => left; rfl
  | SliceUp => left; rfl
  | SliceDown => left; rfl
  | CutChunkUp max => left; rfl
  | CutChunkDown max => left; rfl
  | Count => left; rfl

/-- Operations with ordinary keys lead from a well-formed partition to well-formed
partitions. -/
theorem WF_of_reachFrom {s0 p : Partition} (hr : ReachFrom okOrdinary s0 p) :
    (∃ F L, WF s0 F L) → ∃ F L, WF p F L := by
  intro h0
  induction hr with
  | refl => exact h0
  | step _ hop ih =>
    obtain ⟨F, L, hwf⟩ := ih
    exact WF_applyOp hwf _ hop

/-- A partition reached with ordinary keys was never written or is well formed. -/
theorem Reach.wellFormed {p : Partition} (hr : Reach p) :
    p = Partition.empty ∨ ∃ F L, WF p F L := by
  induction hr with
  | refl => exact Or.inl rfl
  | @step q op _ hop ih =>
    rcases ih with he | ⟨F, L, hwf⟩
    · subst he; exact applyOp_empty op hop
    · exact Or.inr (WF_applyOp hwf op hop)

/-- After a successful `Store` the partition is well formed. -/
theorem ReachStored.wellFormedStored {p : Partition} (hr : ReachStored p) : ∃ F L, WF p F L := by
  obtain ⟨s0, key, data, s1, h0, hk, hs, h1⟩ := hr
  refine WF_of_reachFrom h1 ?_
  rcases h0.wellFormed with he | ⟨F, L, hwf⟩
  · subst he
    rcases Store_cases WF_initP_empty hk data with ⟨_, e, he⟩ | ⟨_, p', e, _, _, h4⟩
    · rw [Store_initP, hs] at he
      cases he
    · rw [Store_initP, hs] at e
      cases e
      exact ⟨_, _, h4⟩
  · rcases Store_cases hwf hk data with ⟨_, e, he⟩ | ⟨_, p', e, _, _, h4⟩
    · rw [hs] at he
      cases he
    · rw [hs] at e
      cases e
      exact ⟨_, _, h4⟩

/-- On a well-formed partition `Delete` of a key without an index entry writes back
what is stored. -/
theorem Delete_absent_of_WF {p : Partition} {F L : Int} (h : WF p F L) {k : String}
    (hk : p.inb.Get k = none) : Delete p k = .ok p := by
  rw [Delete_eq h.first h.last, delP_absent _ _ _ hk]
  simp only [repairP_of_WF h]

/-! ## Partitions without stale entries -/

theorem Typed.absent {b inb : Bucket} (h : Typed b inb) {k : String} (hk : Ordinary k)
    (hb : b.Get k = none) : inb.Get k = none := by
  cases hc : inb.Get k with
  | none => rfl
  | some v => exact absurd hb (h.idxB k v hk hc)

/-- `Exact` after a `Store` of an ordinary key that had no record, from the entries the
store leaves. -/
theorem Exact_of_store_entries {p p' : Partition} {F L : Int} (h : WF p F L)
    (he : Exact p) {k : String} (hk : Ordinary k) (hfresh : p.b.Get k = none) (v : String)
    (hb : ∀ x, p'.b.Get x = (p.b.set k v).Get x)
    (hg : ∀ x, p'.inb.Get x =
        if x = recCntKey then some (Itoa (storedCount p + 1))
        else if x = recFirstIdxKey then some (Itoa (if F = 0 then 1 else F))
        else if x = recLastIdxKey then some (Itoa (L + 1))
        else if x = k then some (Itoa (L + 1))
        else if x = Itoa (L + 1) then some k
        else p.inb.Get x) :
    Exact p' := by
  have hkabs : p.inb.Get k = none := h.typed.absent hk hfresh
  have hord : ∀ x, Ordinary x → p'.inb.Get x =
      if x = k then some (Itoa (L + 1)) else p.inb.Get x := by
    intro x hx
    rw [hg]
    simp only [hx.2.2.1, hx.2.2.2.1, hx.2.2.2.2, hx.ne_Itoa (L + 1), if_false]
  have hnum : ∀ m, p'.inb.Get (Itoa m) = if m = L + 1 then some k else p.inb.Get (Itoa m) := by
    intro m
    rw [hg]
    simp only [Ne.symm (recCntKey_ne_Itoa m), Ne.symm (recFirstIdxKey_ne_Itoa m),
      Ne.symm (recLastIdxKey_ne_Itoa m), Ne.symm (hk.ne_Itoa m), if_false]
    by_cases hm : m = L + 1
    · subst hm; simp
    · have : Itoa m ≠ Itoa (L + 1) := fun e => hm (Itoa_injective e)
      simp [this, hm]
  refine ⟨?_, ?_⟩
  · intro n k' hk'
    rw [hnum] at hk'
    by_cases hn : n = L + 1
    · subst hn
      simp only [if_true] at hk'
      cases hk'
      rw [hord _ hk]; simp
    · simp only [hn, if_false] at hk'
      have hback := he.slotBack n k' hk'
      have hne : k' ≠ k := by
        intro e; subst e; rw [hkabs] at hback; cases hback
      rw [hord _ (h.typed.slotVal n k' hk')]
      simp [hne, hback]
  · obtain ⟨K, hK, hc⟩ := he.cntKeys
    have hnot : k ∉ K := fun hm => (hK k).1 hm hfresh
    refine ⟨insert k K, ?_, ?_⟩
    · intro x
      rw [Finset.mem_insert, hK, hb, Bucket.Get_set]
      by_cases hx : x = k <;> simp [hx]
    · have : p'.inb.Get recCntKey = some (Itoa (storedCount p + 1)) := by
        rw [hg]; simp
      simp only [storedCount, this, Option.getD_some, Atoi_Itoa,
        Finset.card_insert_of_not_mem hnot]
      simp only [storedCount] at hc
      rw [hc]; push_cast; rfl

theorem Exact_delP {p : Partition} (ht : Typed p.b p.inb) (he : Exact p) {k : String}
    (hk : Ordinary k ∨ k = "") : Exact ⟨(delP p.b p.inb k).1, (delP p.b p.inb k).2⟩ := by
  cases hc : p.inb.Get k with
  | none => rw [delP_absent _ _ _ hc]; exact he
  | some c =>
    have hk : Ordinary k := by
      rcases hk with hk | hk
      · exact hk
      · subst hk; rw [ht.noEmpty] at hc; cases hc
    obtain ⟨n, hn, hback, hb, hg⟩ := delP_present ht hk hc
    subst hn
    refine ⟨?_, ?_⟩
    · intro m k' hk'
      show (delP p.b p.inb k).2.Get k' = _
      change (delP p.b p.inb k).2.Get (Itoa m) = some k' at hk'
      rw [hg] at hk'
      simp only [Ne.symm (recCntKey_ne_Itoa m), if_false, Ne.symm (hk.ne_Itoa m)] at hk'
      split at hk'
      · cases hk'
      · rename_i hmn
        have hb' := he.slotBack m k' hk'
        have hord := ht.slotVal m k' hk'
        have hne : k' ≠ k := by
          intro e; subst e
          rw [hc] at hb'
          exact hmn (Option.some.inj hb').symm
        rw [hg]
        simp only [hord.2.2.1, hord.ne_Itoa n, hne, if_false]
        exact hb'
    · obtain ⟨K, hK, hcard⟩ := he.cntKeys
      have hmem : k ∈ K := (hK k).2 (ht.idxB k _ hk hc)
      refine ⟨K.erase k, ?_, ?_⟩
      · intro x
        show _ ↔ (delP p.b p.inb k).1.Get x ≠ none
        rw [Finset.mem_erase, hK, hb, Bucket.Get_Delete]
        by_cases hx : x = k <;> simp [hx]
      · show Atoi (((delP p.b p.inb k).2.Get recCntKey).getD "0") = _
        rw [hg]
        simp only [if_true, Option.getD_some, Atoi_Itoa]
        simp only [storedCount] at hcard
        rw [hcard, Finset.card_erase_of_mem hmem]
        have : 1 ≤ K.card := Finset.card_pos.2 ⟨k, hmem⟩
        omega

theorem Exact_delAllP {F L : Int} : ∀ (keys : List String) {p : Partition},
    Loose p F L → Exact p → (∀ k ∈ keys, Ordinary k ∨ k = "") →
    Exact ⟨(delAllP keys p.b p.inb).1, (delAllP keys p.b p.inb).2⟩ := by
  intro keys
  induction keys with
  | nil => intro p _ he _; exact he
  | cons k rest ih =>
    intro p hl he hk
    have hk0 := hk k (List.mem_cons_self _ _)
    exact ih (Loose_delP hl hk0) (Exact_delP hl.typed he hk0)
      (fun k' hk' => hk k' (List.mem_cons_of_mem _ hk'))

/-- `Exact` looks only at the records, the slot entries, the entries of ordinary keys
and the count. -/
theorem Exact_congr {p q : Partition} (he : Exact p) (hb : ∀ x, q.b.Get x = p.b.Get x)
    (hnum : ∀ n, q.inb.Get (Itoa n) = p.inb.Get (Itoa n))
    (hkey : ∀ k, Ordinary k → q.inb.Get k = p.inb.Get k)
    (hcnt : storedCount q = storedCount p)
    (hord : ∀ n k, p.inb.Get (Itoa n) = some k → Ordinary k) : Exact q := by
  refine ⟨?_, ?_⟩
  · intro n k hk
    rw [hnum] at hk
    rw [hkey k (hord n k hk)]
    exact he.slotBack n k hk
  · obtain ⟨K, hK, hc⟩ := he.cntKeys
    refine ⟨K, ?_, ?_⟩
    · intro x; rw [hK, hb]
    · rw [hcnt]; exact hc

/-- The delete family keeps a well-formed partition without stale entries in that
state. -/
theorem Exact_delAll_repair {p : Partition} {F L : Int} (h : WF p F L) (he : Exact p)
    (keys : List String) (hk : ∀ k ∈ keys, Ordinary k ∨ k = "") :
    Exact ⟨(delAllP keys p.b p.inb).1,
      repairP (delAllP keys p.b p.inb).2 (Itoa F) (Itoa L)⟩ := by
  have hl := Loose_delAllP keys h.loose hk
  have he' := Exact_delAllP keys h.loose he hk
  obtain ⟨F', L', _, _, heq⟩ := WF_repair _ _ F L hl.typed hl.within
  have hg : ∀ x, x ≠ recFirstIdxKey → x ≠ recLastIdxKey →
      (repairP (delAllP keys p.b p.inb).2 (Itoa F) (Itoa L)).Get x =
        (delAllP keys p.b p.inb).2.Get x := by
    intro x h1 h2
    rw [heq, Bucket.Get_set_ne _ _ h2, Bucket.Get_set_ne _ _ h1]
  refine Exact_congr he' (fun _ => rfl)
    (fun n => hg _ (Ne.symm (recFirstIdxKey_ne_Itoa n)) (Ne.symm (recLastIdxKey_ne_Itoa n)))
    (fun k hk' => hg k hk'.2.2.2.1 hk'.2.2.2.2) ?_ hl.typed.slotVal
  show Atoi ((Bucket.Get _ recCntKey).getD "0") = Atoi ((Bucket.Get _ recCntKey).getD "0")
  rw [hg _ (Ne.symm reserved_distinct.2.1) (Ne.symm reserved_distinct.2.2)]

theorem Exact_del_repair {p : Partition} {F L : Int} (h : WF p F L) (he : Exact p)
    (k : String) (hk : Ordinary k ∨ k = "") :
    Exact ⟨(delP p.b p.inb k).1, repairP (delP p.b p.inb k).2 (Itoa F) (Itoa L)⟩ :=
  Exact_delAll_repair h he [k] (by simpa using hk)

/-! ## StoreOnce, one pair at a time -/

theorem storeLoopP_b_frame : ∀ (data : List ChunkData) (b inb : Bucket) (lstidx : Int)
    (x : String), (∀ kv ∈ data, kv.Key ≠ x) →
    (storeLoopP data b inb lstidx).1.Get x = b.Get x := by
  intro data
  induction data with
  | nil => intro b inb lstidx x _; rfl
  | cons kv rest ih =>
    intro b inb lstidx x hk
    simp only [storeLoopP]
    rw [ih _ _ _ x (fun kv' h => hk kv' (List.mem_cons_of_mem _ h)),
      Bucket.Get_set_ne _ _ (Ne.symm (hk kv (List.mem_cons_self _ _)))]

/-- `StoreOnce` of one more pair relates to `StoreOnce` without it as `Store` of the
pair relates to the partition before it. -/
theorem StoreOnce_snoc {p : Partition} {F L : Int} (h : WF p F L) (data : List ChunkData)
    (kv : ChunkData) (hk : ∀ kv' ∈ data ++ [kv], Ordinary kv'.Key)
    (ha : ∀ kv' ∈ data ++ [kv], Accepts kv'.Key (kv'.Value.getD "")) :
    ∃ q0 q1 F0, StoreOnce p data = .ok q0 ∧ StoreOnce p (data ++ [kv]) = .ok q1 ∧
      WF q0 F0 (L + data.length) ∧
      q0.b = (storeLoopP data p.b p.inb (L + 1)).1 ∧
      (∀ x, q1.b.Get x = (q0.b.set kv.Key (kv.Value.getD "")).Get x) ∧
      (∀ x, q1.inb.Get x =
        if x = recCntKey then some (Itoa (storedCount q0 + 1))
        else if x = recFirstIdxKey then some (Itoa (if F0 = 0 then 1 else F0))
        else if x = recLastIdxKey then some (Itoa (L + data.length + 1))
        else if x = kv.Key then some (Itoa (L + data.length + 1))
        else if x = Itoa (L + data.length + 1) then some kv.Key
        else q0.inb.Get x) := by
  have hkd : ∀ kv' ∈ data, Ordinary kv'.Key := fun kv' hm =>
    hk kv' (List.mem_append_left _ hm)
  obtain ⟨q0, hq0, hwf0, hc0, hb0, hg0⟩ := StoreOnce_spec h data hkd
    (fun kv' hm => ha kv' (List.mem_append_left _ hm))
  obtain ⟨q1, hq1, hwf1, hc1, hb1, hg1⟩ := StoreOnce_spec h (data ++ [kv]) hk ha
  refine ⟨q0, q1, _, hq0, hq1, hwf0, hb0, ?_, ?_⟩
  · intro x
    rw [hb1, hb0, storeLoopP_snoc]
  · intro x
    have hlen : ((data ++ [kv]).length : Int) = (data.length : Int) + 1 := by simp
    have hL : L + 1 + (data.length : Int) = L + data.length + 1 := by omega
    by_cases h1 : x = recCntKey
    · subst h1
      rw [hc1]
      simp only [if_true, storedCount, hc0, Option.getD_some, Atoi_Itoa, hlen]
      congr 2
      omega
    · by_cases h2 : x = recFirstIdxKey
      · subst h2
        rw [hwf1.first, so_first_step, hlen]
        simp [h1]
      · simp only [h1, h2, if_false]
        rw [hg1 x h1 h2, storeLoopP_snoc, hL]
        simp only [Bucket.Get_set]
        rw [hg0 x h1 h2]

theorem Exact_StoreOnce {p : Partition} {F L : Int} (h : WF p F L) (he : Exact p) :
    ∀ (data : List ChunkData), (∀ kv ∈ data, Ordinary kv.Key) →
    (∀ kv ∈ data, Accepts kv.Key (kv.Value.getD "")) →
    (data.map ChunkData.Key).Nodup → (∀ kv ∈ data, p.b.Get kv.Key = none) →
    ∀ q, StoreOnce p data = .ok q → Exact q := by
  intro data
  induction data using List.reverseRecOn with
  | nil =>
    intro _ _ _ _ q hq
    obtain ⟨q', hq', hwf, hc, hb, hg⟩ := StoreOnce_spec h [] (by simp) (by simp)
    rw [hq] at hq'
    cases hq'
    refine Exact_congr he (fun x => by rw [hb]; rfl)
      (fun n => hg _ (Ne.symm (recCntKey_ne_Itoa n)) (Ne.symm (recFirstIdxKey_ne_Itoa n)))
      (fun k hk => hg k hk.2.2.1 hk.2.2.2.1) ?_ h.typed.slotVal
    simp [storedCount, hc, Atoi_Itoa]
  | append_singleton data kv ih =>
    intro hk ha hnd habs q hq
    have hkd : ∀ kv' ∈ data, Ordinary kv'.Key := fun kv' hm =>
      hk kv' (List.mem_append_left _ hm)
    have hkv : Ordinary kv.Key := hk kv (by simp)
    obtain ⟨q0, q1, F0, hq0, hq1, hwf0, hb0, hb, hg⟩ := StoreOnce_snoc h data kv hk ha
    rw [hq] at hq1
    cases hq1
    rw [List.map_append, List.nodup_append] at hnd
    have he0 := ih hkd (fun kv' hm => ha kv' (List.mem_append_left _ hm)) hnd.1
      (fun kv' hm => habs kv' (List.mem_append_left _ hm)) q0 hq0
    have hfresh : q0.b.Get kv.Key = none := by
      rw [hb0, storeLoopP_b_frame]
      · exact habs kv (by simp)
      · intro kv' hm e
        exact hnd.2.2 (List.mem_map.2 ⟨kv', hm, rfl⟩) (by simp [e])
    have hLL : L + (data.length : Int) + 1 = L + data.length + 1 := rfl
    exact Exact_of_store_entries hwf0 he0 hkv hfresh _ hb hg

theorem Exact_initP_empty : Exact (initP Partition.empty) := by
  refine ⟨?_, ⟨∅, ?_, ?_⟩⟩
  · intro n k hk
    have := WF_initP_empty.tight
    rcases this with ⟨_, _, h0⟩ | ⟨h1, _⟩
    · exact absurd (by simp [Populated, hk]) (h0 n)
    · omega
  · intro k; simp [initP, Partition.empty]
  · decide

/-- Every operation with ordinary keys that stores no key that has a record keeps a
well-formed partition free of stale entries. -/
theorem Exact_applyOp {p : Partition} {F L : Int} (h : WF p F L) (he : Exact p) (op : Op)
    (hop : op.Ordinary) (hfr : op.Fresh p) : Exact (applyOp p op) := by
  cases op with
  | Store key data =>
    rcases Store_cases h hop data with ⟨_, e, hf⟩ | ⟨_, p', h1, h2, h3, _⟩
    · simpa [applyOp, commit, hf] using he
    · have := Exact_of_store_entries h he hop hfr data (fun x => by rw [h2]) h3
      simpa [applyOp, commit, h1] using this
  | StoreOnce data =>
    rcases StoreOnce_cases h data hop with ⟨_, e, hf⟩ | ⟨ha, q, h1, _⟩
    · simpa [applyOp, commit, hf] using he
    · have := Exact_StoreOnce h he data hop ha hfr.1 hfr.2 q h1
      simpa [applyOp, commit, h1] using this
  | Fetch key => simpa [applyOp, commitR, Fetch] using he
  | Delete key =>
    simpa [applyOp, commit, Delete_eq h.first h.last] using
      Exact_del_repair h he key (Or.inl hop)
  | DeleteOnce keys =>
    by_cases hk : keys = []
    · subst hk
      simpa [applyOp, commit, DeleteOnce] using he
    · simpa [applyOp, commit, DeleteOnce_eq h.first h.last hk] using
        Exact_delAll_repair h he keys (fun k hm => Or.inl (hop k hm))
  | FetchChunkUp max offset => simpa [applyOp, FetchChunkUp_state] using he
  | FetchChunkDown max offset => simpa [applyOp, FetchChunkDown_state] using he
  | FetchDelete key =>
    simpa [applyOp, commitR, FetchDelete_eq h.first h.last] using
      Exact_del_repair h he key (Or.inl hop)
  | SliceUp =>
    simp only [applyOp, SliceUp, h.first, h.last]
    cases hk : p.inb.Get (Itoa L) with
    | none => simpa [slice, hk, commitR] using he
    | some keyb =>
      simpa [slice_eq p _ _ _ hk, commitR] using
        Exact_del_repair h he keyb (Or.inl (h.typed.slotVal L keyb hk))
  | SliceDown =>
    simp only [applyOp, SliceDown, h.first, h.last]
    cases hk : p.inb.Get (Itoa F) with
    | none => simpa [slice, hk, commitR] using he
    | some keyb =>
      simpa [slice_eq p _ _ _ hk, commitR] using
        Exact_del_repair h he keyb (Or.inl (h.typed.slotVal F keyb hk))
  | CutChunkUp max =>
    simp only [applyOp, CutChunkUp, h.first, h.last]
    split
    · simpa [commitR] using he
    · generalize hch : chunkUp p.b p.inb max (Atoi (Itoa L) + 1).toNat (Atoi (Itoa L)) 0 = chunk
      by_cases hc : chunk = []
      · subst hc
        simpa [cutFinish, commitR] using he
      · have := Exact_delAll_repair h he (chunk.map ChunkData.Key) (by
          intro k hm
          obtain ⟨cd, hcd, rfl⟩ := List.mem_map.1 hm
          obtain ⟨j, hj⟩ := chunkUp_keys _ _ _ _ _ _ cd (hch ▸ hcd)
          exact Or.inl (h.typed.slotVal j _ hj))
        simpa [cutFinish_eq p _ _ hc, commitR] using this
  | CutChunkDown max =>
    simp only [applyOp, CutChunkDown, h.first, h.last]
    split
    · simpa [commitR] using he
    · generalize hch : cutDown p.b p.inb max (Atoi (Itoa L) + 1 - Atoi (Itoa F)).toNat
        (Atoi (Itoa F)) 0 = chunk
      by_cases hc : chunk = []
      · subst hc
        simpa [cutFinish, commitR] using he
      · have := Exact_delAll_repair h he (chunk.map ChunkData.Key) (by
          intro k hm
          obtain ⟨cd, hcd, rfl⟩ := List.mem_map.1 hm
          rcases cutDown_keys _ _ _ _ _ _ cd (hch ▸ hcd) with ⟨j, hj⟩ | he
          · exact Or.inl (h.typed.slotVal j _ hj)
          · exact Or.inr he)
        simpa [cutFinish_eq p _ _ hc, commitR] using this
  | Count => simpa [applyOp, commitR, Count] using he

theorem applyOp_empty_exact (op : Op) (hop : op.Ordinary) (hfr : op.Fresh Partition.empty) :
    applyOp Partition.empty op = Partition.empty ∨ Exact (applyOp Partition.empty op) := by
  cases op with
  | Store key data =>
    rcases Store_cases WF_initP_empty hop data with ⟨_, e, hf⟩ | ⟨_, p', h1, h2, h3, _⟩
    · rw [Store_initP] at hf
      exact Or.inl (by simp [applyOp, commit, hf])
    · right
      have := Exact_of_store_entries WF_initP_empty Exact_initP_empty hop
        (by simp [initP, Partition.empty]) data (fun x => by rw [h2]) h3
      rw [Store_initP] at h1
      simpa [applyOp, commit, h1] using this
  | StoreOnce data =>
    rcases StoreOnce_cases WF_initP_empty data hop with ⟨_, e, hf⟩ | ⟨ha, q, h1, _⟩
    · rw [StoreOnce_initP] at hf
      exact Or.inl (by simp [applyOp, commit, hf])
    · right
      have := Exact_StoreOnce WF_initP_empty Exact_initP_empty data hop ha hfr.1
        (by intro kv _; simp [initP, Partition.empty]) q h1
      rw [StoreOnce_initP] at h1
      simpa [applyOp, commit, h1] using this
  | Fetch key => left; rfl
  | Delete key => left; rfl
  | DeleteOnce keys =>
    left
    simp only [applyOp, DeleteOnce]
    split <;> rfl
  | FetchChunkUp max offset => left; rfl
  | FetchChunkDown max offset => left; rfl
  | FetchDelete key => left; rfl
  | SliceUp => left; rfl
  | SliceDown => left; rfl
  | CutChunkUp max => left; rfl
  | CutChunkDown max => left; rfl
  | Count => left; rfl

theorem ReachFresh.reach {p : Partition} (hr : ReachFresh p) : Reach p := by
  induction hr with
  | refl => exact ReachFrom.refl
  | step _ hop ih => exact ReachFrom.step ih hop.1

/-- A partition reached with ordinary keys and without storing a key twice was never
written, or is well formed and free of stale entries. -/
theorem ReachFresh.wellFormedFresh {p : Partition} (hr : ReachFresh p) :
    p = Partition.empty ∨ ∃ F L, WF p F L ∧ Exact p := by
  induction hr with
  | refl => exact Or.inl rfl
  | @step q op _ hop ih =>
    rcases ih with he | ⟨F, L, hwf, hex⟩
    · subst he
      rcases applyOp_empty op hop.1 with e | ⟨F, L, hwf⟩
      · exact Or.inl e
      · rcases applyOp_empty_exact op hop.1 hop.2 with e | hex
        · exact Or.inl e
        · exact Or.inr ⟨F, L, hwf, hex⟩
    · obtain ⟨F', L', hwf'⟩ := WF_applyOp hwf op hop.1
      exact Or.inr ⟨F', L', hwf', Exact_applyOp hwf hex op hop.1 hop.2⟩

/-! ## Slot entries under the operations -/

theorem delP_slot {b inb : Bucket} (ht : Typed b inb) {k : String}
    (hk : Ordinary k ∨ k = "") (m : Int) (k' : String)
    (h : (delP b inb k).2.Get (Itoa m) = some k') : inb.Get (Itoa m) = some k' := by
  cases hc : inb.Get k with
  | none => rw [delP_absent b inb k hc] at h; exact h
  | some c =>
    have hk : Ordinary k := by
      rcases hk with hk | hk
      · exact hk
      · subst hk; rw [ht.noEmpty] at hc; cases hc
    obtain ⟨n, hn, hback, hb, hg⟩ := delP_present ht hk hc
    rw [hg] at h
    simp only [Ne.symm (recCntKey_ne_Itoa m), if_false, Ne.symm (hk.ne_Itoa m)] at h
    split at h
    · cases h
    · exact h

theorem delAllP_slot {F L : Int} : ∀ (keys : List String) {p : Partition},
    Loose p F L → (∀ k ∈ keys, Ordinary k ∨ k = "") → ∀ (m : Int) (k' : String),
    (delAllP keys p.b p.inb).2.Get (Itoa m) = some k' → p.inb.Get (Itoa m) = some k' := by
  intro keys
  induction keys with
  | nil => intro p _ _ m k' h; exact h
  | cons k rest ih =>
    intro p hl hk m k' h
    have hk0 := hk k (List.mem_cons_self _ _)
    have h1 := ih (Loose_delP hl hk0) (fun x hx => hk x (List.mem_cons_of_mem _ hx)) m k' h
    exact delP_slot hl.typed hk0 m k' h1

theorem repairP_slot (inb : Bucket) (t l : String) (m : Int) :
    (repairP inb t l).Get (Itoa m) = inb.Get (Itoa m) := by
  unfold repairP abidxP atidxP
  rw [Bucket.Get_set_ne _ _ (Ne.symm (recLastIdxKey_ne_Itoa m)),
    Bucket.Get_set_ne _ _ (Ne.symm (recFirstIdxKey_ne_Itoa m))]

/-- The delete family only removes slot entries. -/
theorem delAll_repair_slot {p : Partition} {F L : Int} (h : WF p F L) (keys : List String)
    (hk : ∀ k ∈ keys, Ordinary k ∨ k = "") (t l : String) (m : Int) (k' : String)
    (hm : (repairP (delAllP keys p.b p.inb).2 t l).Get (Itoa m) = some k') :
    p.inb.Get (Itoa m) = some k' := by
  rw [repairP_slot] at hm
  exact delAllP_slot keys h.loose hk m k' hm

/-- The loop of `StoreOnce` leaves the slots below the first one it hands out. -/
theorem storeLoopP_slot_frame : ∀ (data : List ChunkData) (b inb : Bucket) (lstidx : Int)
    (m : Int), (∀ kv ∈ data, Ordinary kv.Key) → m < lstidx →
    (storeLoopP data b inb lstidx).2.Get (Itoa m) = inb.Get (Itoa m) := by
  intro data
  induction data with
  | nil => intro b inb lstidx m _ _; rfl
  | cons kv rest ih =>
    intro b inb lstidx m hk hm
    simp only [storeLoopP]
    have hkv := hk kv (List.mem_cons_self _ _)
    rw [ih _ _ _ m (fun kv' h => hk kv' (List.mem_cons_of_mem _ h)) (by omega),
      Bucket.Get_set_ne _ _ (Ne.symm (recLastIdxKey_ne_Itoa m)),
      Bucket.Get_set_ne _ _ (Ne.symm (hkv.ne_Itoa m)),
      Bucket.Get_set_ne _ _ (fun e => by have := Itoa_injective e; omega)]

/-- On a well-formed partition no operation with ordinary keys changes the key of a
populated slot. -/
theorem slot_kept_of_WF {p : Partition} {F L : Int} (h : WF p F L) (op : Op)
    (hop : op.Ordinary) (n : Int) (k k' : String) (hn : p.inb.Get (Itoa n) = some k)
    (hn' : (applyOp p op).inb.Get (Itoa n) = some k') : k' = k := by
  have hle : n ≤ L := (h.tight.within n (by simp [Populated, hn])).2.2
  have hdel : ∀ (keys : List String), (∀ x ∈ keys, Ordinary x ∨ x = "") →
      (repairP (delAllP keys p.b p.inb).2 (Itoa F) (Itoa L)).Get (Itoa n) = some k' →
      k' = k := by
    intro keys hk hm
    have := delAll_repair_slot h keys hk _ _ n k' hm
    rw [hn] at this
    exact (Option.some.inj this).symm
  have hsame : p.inb.Get (Itoa n) = some k' → k' = k := by
    intro e; rw [hn] at e; exact (Option.some.inj e).symm
  cases op with
  | Store key data =>
    rcases Store_cases h hop data with ⟨_, e, hf⟩ | ⟨_, p', h1, _, h3, _⟩
    · exact hsame (by simpa [applyOp, commit, hf] using hn')
    · simp only [applyOp, commit, h1] at hn'
      rw [h3] at hn'
      simp only [Ne.symm (recCntKey_ne_Itoa n), Ne.symm (recFirstIdxKey_ne_Itoa n),
        Ne.symm (recLastIdxKey_ne_Itoa n), Ne.symm (Ordinary.ne_Itoa hop n), if_false] at hn'
      have hne : Itoa n ≠ Itoa (L + 1) := fun e => by have := Itoa_injective e; omega
      simp only [hne, if_false] at hn'
      exact hsame hn'
  | StoreOnce data =>
    rcases StoreOnce_cases h data hop with ⟨_, e, hf⟩ | ⟨ha, q, h1, hrest⟩
    · exact hsame (by simpa [applyOp, commit, hf] using hn')
    · obtain ⟨q', h1', _, _, _, hg⟩ := StoreOnce_spec h data hop ha
      rw [h1] at h1'
      cases h1'
      simp only [applyOp, commit, h1] at hn'
      rw [hg _ (Ne.symm (recCntKey_ne_Itoa n)) (Ne.symm (recFirstIdxKey_ne_Itoa n)),
        storeLoopP_slot_frame _ _ _ _ _ hop (by omega)] at hn'
      exact hsame hn'
  | Fetch key => exact hsame (by simpa [applyOp, commitR, Fetch] using hn')
  | Delete key =>
    simp only [applyOp, commit, Delete_eq h.first h.last] at hn'
    exact hdel [key] (by simpa using Or.inl hop) hn'
  | DeleteOnce keys =>
    by_cases hk : keys = []
    · subst hk
      exact hsame (by simpa [applyOp, commit, DeleteOnce] using hn')
    · simp only [applyOp, commit, DeleteOnce_eq h.first h.last hk] at hn'
      exact hdel keys (fun x hx => Or.inl (hop x hx)) hn'
  | FetchChunkUp max offset =>
    exact hsame (by simpa [applyOp, FetchChunkUp_state] using hn')
  | FetchChunkDown max offset =>
    exact hsame (by simpa [applyOp, FetchChunkDown_state] using hn')
  | FetchDelete key =>
    simp only [applyOp, commitR, FetchDelete_eq h.first h.last] at hn'
    exact hdel [key] (by simpa using Or.inl hop) hn'
  | SliceUp =>
    simp only [applyOp, SliceUp, h.first, h.last] at hn'
    cases hk : p.inb.Get (Itoa L) with
    | none => exact hsame (by simpa [slice, hk, commitR] using hn')
    | some keyb =>
      simp only [slice_eq p _ _ _ hk, commitR] at hn'
      exact hdel [keyb] (by simpa using Or.inl (h.typed.slotVal L keyb hk)) hn'
  | SliceDown =>
    simp only [applyOp, SliceDown, h.first, h.last] at hn'
    cases hk : p.inb.Get (Itoa F) with
    | none => exact hsame (by simpa [slice, hk, commitR] using hn')
    | some keyb =>
      simp only [slice_eq p _ _ _ hk, commitR] at hn'
      exact hdel [keyb] (by simpa using Or.inl (h.typed.slotVal F keyb hk)) hn'
  | CutChunkUp max =>
    simp only [applyOp, CutChunkUp, h.first, h.last] at hn'
    split at hn'
    · exact hsame (by simpa [commitR] using hn')
    · generalize hch : chunkUp p.b p.inb max (Atoi (Itoa L) + 1).toNat (Atoi (Itoa L)) 0 =
        chunk at hn'
      by_cases hc : chunk = []
      · subst hc
        exact hsame (by simpa [cutFinish, commitR] using hn')
      · simp only [cutFinish_eq p _ _ hc, commitR] at hn'
        refine hdel (chunk.map ChunkData.Key) ?_ hn'
        intro x hm
        obtain ⟨cd, hcd, rfl⟩ := List.mem_map.1 hm
        obtain ⟨j, hj⟩ := chunkUp_keys _ _ _ _ _ _ cd (hch ▸ hcd)
        exact Or.inl (h.typed.slotVal j _ hj)
  | CutChunkDown max =>
    simp only [applyOp, CutChunkDown, h.first, h.last] at hn'
    split at hn'
    · exact hsame (by simpa [commitR] using hn')
    · generalize hch : cutDown p.b p.inb max (Atoi (Itoa L) + 1 - Atoi (Itoa F)).toNat
        (Atoi (Itoa F)) 0 = chunk at hn'
      by_cases hc : chunk = []
      · subst hc
        exact hsame (by simpa [cutFinish, commitR] using hn')
      · simp only [cutFinish_eq p _ _ hc, commitR] at hn'
        refine hdel (chunk.map ChunkData.Key) ?_ hn'
        intro x hm
        obtain ⟨cd, hcd, rfl⟩ := List.mem_map.1 hm
        rcases cutDown_keys _ _ _ _ _ _ cd (hch ▸ hcd) with ⟨j, hj⟩ | he
        · exact Or.inl (h.typed.slotVal j _ hj)
        · exact Or.inr he
  | Count => exact hsame (by simpa [applyOp, commitR, Count] using hn')

/-! ## Partitions without records -/

theorem delP_b_sub (b inb : Bucket) (k x v : String)
    (h : (delP b inb k).1.Get x = some v) : b.Get x = some v := by
  unfold delP at h
  cases hc : inb.Get k with
  | none => simpa [hc] using h
  | some c =>
    simp only [hc, Bucket.Get_Delete] at h
    split at h
    · cases h
    · exact h

theorem delAllP_b_sub : ∀ (keys : List String) (b inb : Bucket) (x v : String),
    (delAllP keys b inb).1.Get x = some v → b.Get x = some v := by
  intro keys
  induction keys with
  | nil => intro b inb x v h; exact h
  | cons k rest ih =>
    intro b inb x v h
    exact delP_b_sub b inb k x v (ih _ _ x v h)

theorem delP_b_removed {b inb : Bucket} (ht : Typed b inb) (k : String) :
    (delP b inb k).1.Get k = none := by
  cases hc : inb.Get k with
  | none =>
    rw [delP_absent _ _ _ hc]
    cases hb : b.Get k with
    | none => rfl
    | some v => exact absurd hc (ht.bIdx k v hb)
  | some c => simp [delP, hc]

theorem delAllP_b_removed {F L : Int} : ∀ (keys : List String) {p : Partition},
    Loose p F L → (∀ k ∈ keys, Ordinary k ∨ k = "") →
    ∀ k ∈ keys, (delAllP keys p.b p.inb).1.Get k = none := by
  intro keys
  induction keys with
  | nil => intro p _ _ k hk; simp at hk
  | cons k0 rest ih =>
    intro p hl hk k hmem
    have hk0 := hk k0 (List.mem_cons_self _ _)
    have hl1 := Loose_delP hl hk0
    by_cases hin : k ∈ rest
    · exact ih hl1 (fun x hx => hk x (List.mem_cons_of_mem _ hx)) k hin
    · have hk' : k = k0 := by
        rcases List.mem_cons.1 hmem with e | e
        · exact e
        · exact absurd e hin
      subst hk'
      cases hg : (delAllP (k :: rest) p.b p.inb).1.Get k with
      | none => rfl
      | some v =>
        have := delAllP_b_sub rest _ _ k v hg
        rw [delP_b_removed hl.typed k] at this
        cases this

/-- A well-formed partition without stale entries and without records has both pointers
and the count at `0` and no populated slot. -/
theorem drained_of_no_records {p : Partition} {F L : Int} (h : WF p F L) (he : Exact p)
    (hb : ∀ x, p.b.Get x = none) :
    F = 0 ∧ L = 0 ∧ storedCount p = 0 ∧ ∀ n, ¬ Populated p.inb n := by
  have hnone : ∀ n, ¬ Populated p.inb n := by
    intro n hn
    cases hk : p.inb.Get (Itoa n) with
    | none => exact hn hk
    | some k =>
      have hback := he.slotBack n k hk
      exact h.typed.idxB k _ (h.typed.slotVal n k hk) hback (hb k)
  have hcnt : storedCount p = 0 := by
    obtain ⟨K, hK, hc⟩ := he.cntKeys
    have : K = ∅ := by
      apply Finset.eq_empty_of_forall_not_mem
      intro k hk
      exact (hK k).1 hk (hb k)
    rw [hc, this]; simp
  rcases h.tight with ⟨hF, hL, _⟩ | ⟨_, _, hpF, _⟩
  · exact ⟨hF, hL, hcnt, hnone⟩
  · exact absurd hpF (hnone F)

/-- A well-formed partition whose pointers are both `0` has no record and no stale
entry. -/
theorem exact_of_zero_window {p : Partition} (h : WF p 0 0) :
    Exact p ∧ ∀ x, p.b.Get x = none := by
  have hnone : ∀ n, ¬ Populated p.inb n := by
    rcases h.tight with ⟨_, _, h0⟩ | ⟨h1, _⟩
    · exact h0
    · omega
  have hb : ∀ x, p.b.Get x = none := by
    intro x
    cases hx : p.b.Get x with
    | none => rfl
    | some v =>
      have hord := h.typed.bKeys x v hx
      cases hi : p.inb.Get x with
      | none => exact absurd hi (h.typed.bIdx x v hx)
      | some c =>
        obtain ⟨n, _, hn⟩ := h.typed.keyBack x c hord hi
        exact absurd (by simp [Populated, hn]) (hnone n)
  refine ⟨⟨?_, ⟨∅, ?_, ?_⟩⟩, hb⟩
  · intro n k hk
    exact absurd (by simp [Populated, hk]) (hnone n)
  · intro k; simp [hb k]
  · obtain ⟨S, hS, hc⟩ := storedCount_of_typed h.typed
    have : S = ∅ := by
      apply Finset.eq_empty_of_forall_not_mem
      intro n hn
      exact hnone n ((hS n).1 hn)
    rw [hc, this]; simp

/-- What the reads return on a well-formed partition without stale entries and without
records. -/
theorem drained_results {r : Partition} {F L : Int} (h : WF r F L) (he : Exact r)
    (hb : ∀ x, r.b.Get x = none) :
    Count r = .ok (0, r) ∧ r.inb.Get recFirstIdxKey = some (Itoa 0) ∧
      r.inb.Get recLastIdxKey = some (Itoa 0) ∧ FetchChunkUp r 0 0 = .ok ([], r) := by
  obtain ⟨hF, hL, hcnt, hnone⟩ := drained_of_no_records h he hb
  subst hF; subst hL
  refine ⟨?_, h.first, h.last, ?_⟩
  · simp only [Count]
    simp only [storedCount] at hcnt
    rw [hcnt]
  · have h0 : r.inb.Get (Itoa 0) = none := by
      have := hnone 0
      simpa [Populated] using this
    simp only [FetchChunkUp, h.last, Atoi_Itoa]
    simp [chunkUp, h0]

/-! ## Records at consecutive slots -/

theorem Chain_congr {p p' : Partition} : ∀ (l : List (String × String)) (n : Int),
    Chain p l n →
    (∀ m k, n ≤ m → m < n + l.length → p.inb.Get (Itoa m) = some k →
      p'.inb.Get (Itoa m) = some k ∧ p'.b.Get k = p.b.Get k) →
    Chain p' l n := by
  intro l
  induction l with
  | nil => intro n _ _; trivial
  | cons kv rest ih =>
    intro n hc hf
    obtain ⟨h1, h2, h3⟩ := hc
    obtain ⟨g1, g2⟩ := hf n kv.1 (le_refl _) (by simp only [List.length_cons]; push_cast; omega) h1
    refine ⟨g1, by rw [g2]; exact h2, ih (n + 1) h3 ?_⟩
    intro m k hm1 hm2 hm
    exact hf m k (by omega) (by simp only [List.length_cons]; push_cast; omega) hm

theorem Chain_append {p : Partition} : ∀ (l : List (String × String)) (kv : String × String)
    (n : Int), Chain p (l ++ [kv]) n ↔
      (Chain p l n ∧ p.inb.Get (Itoa (n + l.length)) = some kv.1 ∧
        p.b.Get kv.1 = some kv.2) := by
  intro l
  induction l with
  | nil => intro kv n; simp [Chain]
  | cons x rest ih =>
    intro kv n
    have e : n + 1 + (rest.length : Int) = n + ((rest.length : Int) + 1) := by omega
    show Chain p (x :: (rest ++ [kv])) n ↔ _
    simp only [Chain, ih, List.length_cons, Nat.cast_add, Nat.cast_one, e]
    tauto

theorem Chain_slot {p : Partition} : ∀ (l : List (String × String)) (n m : Int),
    Chain p l n → n ≤ m → m < n + l.length → ∃ kv ∈ l, p.inb.Get (Itoa m) = some kv.1 := by
  intro l
  induction l with
  | nil => intro n m _ h1 h2; simp at h2; omega
  | cons x rest ih =>
    intro n m hc h1 h2
    obtain ⟨c1, _, c3⟩ := hc
    by_cases hm : m = n
    · subst hm; exact ⟨x, List.mem_cons_self _ _, c1⟩
    · obtain ⟨kv, hkv, hg⟩ := ih (n + 1) m c3 (by omega)
        (by simp only [List.length_cons] at h2; push_cast at h2; omega)
      exact ⟨kv, List.mem_cons_of_mem _ hkv, hg⟩

theorem Tight_of_chain {p : Partition} (l : List (String × String)) (n : Int)
    (hc : Chain p l n) (hn : 1 ≤ n)
    (hw : ∀ m, Populated p.inb m → n ≤ m ∧ m < n + l.length) :
    Tight p.inb (if l = [] then 0 else n) (if l = [] then 0 else n + l.length - 1) := by
  by_cases hl : l = []
  · subst hl
    left
    refine ⟨by simp, by simp, ?_⟩
    intro m hm
    have := hw m hm
    simp at this
    omega
  · right
    have hpos : 0 < l.length := List.length_pos.2 hl
    simp only [hl, if_false]
    obtain ⟨kv1, _, h1⟩ := Chain_slot l n n hc (le_refl _) (by omega)
    obtain ⟨kv2, _, h2⟩ := Chain_slot l n (n + l.length - 1) hc (by omega) (by omega)
    refine ⟨hn, by omega, by simp [Populated, h1], by simp [Populated, h2], ?_⟩
    intro m hm
    have := hw m hm
    omega

/-- `Holds` from any well-formed window: the tight window is determined by the slots. -/
theorem Holds_of {p : Partition} {F' L' : Int} (h : WF p F' L') (he : Exact p)
    (l : List (String × String)) (n : Int) (hn : 1 ≤ n) (hc : Chain p l n)
    (hw : ∀ m, Populated p.inb m → n ≤ m ∧ m < n + l.length) : Holds p l n := by
  have ht := Tight_of_chain l n hc hn hw
  obtain ⟨e1, e2⟩ := h.tight.unique ht
  subst e1; subst e2
  exact ⟨h, he, hn, hc⟩

theorem Holds.window {p : Partition} {l : List (String × String)} {F : Int}
    (h : Holds p l F) : ∀ m, Populated p.inb m → F ≤ m ∧ m < F + l.length := by
  intro m hm
  rcases h.wf.tight with ⟨_, _, h0⟩ | ⟨_, _, _, _, hin⟩
  · exact absurd hm (h0 m)
  · by_cases hl : l = []
    · simp only [hl, if_true] at hin
      have := hin m hm
      have := h.pos
      have := (h.wf.tight.within m hm).1
      omega
    · simp only [hl, if_false] at hin
      have := hin m hm
      omega

/-- The keys with a record are the keys of the list. -/
theorem Holds.keys {p : Partition} {l : List (String × String)} {F : Int}
    (h : Holds p l F) (x : String) (hx : p.b.Get x ≠ none) : x ∈ l.map Prod.fst := by
  cases hb : p.b.Get x with
  | none => exact absurd hb hx
  | some v =>
    have hord := h.wf.typed.bKeys x v hb
    cases hi : p.inb.Get x with
    | none => exact absurd hi (h.wf.typed.bIdx x v hb)
    | some c =>
      obtain ⟨m, _, hm⟩ := h.wf.typed.keyBack x c hord hi
      obtain ⟨hm1, hm2⟩ := h.window m (by simp [Populated, hm])
      obtain ⟨kv, hkv, hg⟩ := Chain_slot l F m h.chain hm1 hm2
      rw [hm] at hg
      cases hg
      exact List.mem_map.2 ⟨kv, hkv, rfl⟩

theorem Holds_initP_empty : Holds (initP Partition.empty) [] 1 :=
  ⟨by simpa using WF_initP_empty, Exact_initP_empty, le_refl _, trivial⟩

/-- `Store` of an ordinary key without record appends its pair at the end. -/
theorem Holds_store {p : Partition} {l : List (String × String)} {F : Int}
    (h : Holds p l F) {k : String} (hk : Ordinary k) (hnew : k ∉ l.map Prod.fst)
    (v : String) (ha : Accepts k v) :
    ∃ p', Store p k v = .ok p' ∧ Holds p' (l ++ [(k, v)]) (if l = [] then 1 else F) := by
  have hfresh : p.b.Get k = none := by
    by_contra hne
    exact hnew (h.keys k hne)
  have hkabs : p.inb.Get k = none := h.wf.typed.absent hk hfresh
  obtain ⟨p', hst, hb, hg, hwf⟩ := Store_spec h.wf hk v ha
  have hex := Exact_of_store_entries h.wf h.exact hk hfresh v (fun x => by rw [hb]) hg
  refine ⟨p', hst, ?_⟩
  have hnum : ∀ m, p'.inb.Get (Itoa m) =
      if m = (if l = [] then 0 else F + l.length - 1) + 1 then some k
      else p.inb.Get (Itoa m) := by
    intro m
    rw [hg]
    simp only [Ne.symm (recCntKey_ne_Itoa m), Ne.symm (recFirstIdxKey_ne_Itoa m),
      Ne.symm (recLastIdxKey_ne_Itoa m), Ne.symm (hk.ne_Itoa m), if_false]
    by_cases hm : m = (if l = [] then 0 else F + l.length - 1) + 1
    · rw [← hm]; simp
    · have : Itoa m ≠ Itoa ((if l = [] then 0 else F + l.length - 1) + 1) :=
        fun e => hm (Itoa_injective e)
      simp [this, hm]
  have hF := h.pos
  have hlast : (if l = [] then (0 : Int) else F + l.length - 1) + 1 =
      (if l = [] then 1 else F) + l.length := by
    by_cases hl : l = []
    · subst hl; simp
    · simp only [hl, if_false]; omega
  refine Holds_of hwf hex _ _ (by split <;> omega) ?_ ?_
  · rw [Chain_append]
    refine ⟨?_, ?_, ?_⟩
    · by_cases hl : l = []
      · subst hl; trivial
      · simp only [hl, if_false]
        refine Chain_congr l F h.chain ?_
        intro m k' hm1 hm2 hm
        have hne : k' ≠ k := by
          intro e; subst e
          rw [h.exact.slotBack m k' hm] at hkabs
          cases hkabs
        constructor
        · rw [hnum]
          simp only [hl, if_false]
          have : ¬ (m = F + (l.length : Int) - 1 + 1) := by omega
          rw [if_neg this]
          exact hm
        · rw [hb, Bucket.Get_set_ne _ _ hne]
    · rw [← hlast, hnum]; simp
    · rw [hb]; simp
  · intro m hm
    have hm' : m = (if l = [] then 0 else F + l.length - 1) + 1 ∨ Populated p.inb m := by
      unfold Populated at hm ⊢
      rw [hnum] at hm
      by_cases e : m = (if l = [] then 0 else F + l.length - 1) + 1
      · exact Or.inl e
      · right; simpa [e] using hm
    simp only [List.length_append, List.length_singleton]
    push_cast
    rcases hm' with e | e
    · rw [hlast] at e
      by_cases hl : l = []
      · subst hl; simp at e ⊢; omega
      · simp only [hl, if_false] at e ⊢; omega
    · have := h.window m e
      by_cases hl : l = []
      · subst hl; simp at this; omega
      · simp only [hl, if_false]; omega

/-- Deleting the key of slot `n` and repairing: the other slot entries and the other
records stay. -/
theorem del_repair_frame {p : Partition} {F L : Int} (h : WF p F L) (he : Exact p)
    {n : Int} {k : String} (hn : p.inb.Get (Itoa n) = some k) :
    (∀ m, m ≠ n → (repairP (delP p.b p.inb k).2 (Itoa F) (Itoa L)).Get (Itoa m) =
      p.inb.Get (Itoa m)) ∧
    (repairP (delP p.b p.inb k).2 (Itoa F) (Itoa L)).Get (Itoa n) = none ∧
    (∀ x, x ≠ k → (delP p.b p.inb k).1.Get x = p.b.Get x) := by
  have hk := h.typed.slotVal n k hn
  have hback := he.slotBack n k hn
  obtain ⟨n', hn', _, hb, hg⟩ := delP_present h.typed hk hback
  have e := Itoa_injective hn'
  subst e
  refine ⟨?_, ?_, ?_⟩
  · intro m hm
    rw [repairP_slot, hg]
    have : Itoa m ≠ Itoa n := fun e => hm (Itoa_injective e)
    simp [Ne.symm (recCntKey_ne_Itoa m), this, Ne.symm (hk.ne_Itoa m)]
  · rw [repairP_slot, hg]
    simp [Ne.symm (recCntKey_ne_Itoa n)]
  · intro x hx
    rw [hb, Bucket.Get_Delete_ne _ hx]

/-- `SliceDown` pops the first pair. -/
theorem Holds_sliceDown {p : Partition} {k v : String} {l : List (String × String)}
    {F : Int} (h : Holds p ((k, v) :: l) F) :
    ∃ p', SliceDown p = .ok (some v, p') ∧ Holds p' l (F + 1) := by
  obtain ⟨c1, c2, c3⟩ := h.chain
  have hwf := h.wf
  simp only [List.cons_ne_nil, if_false] at hwf
  have hfirst := hwf.first
  have hlast := hwf.last
  have hsl : SliceDown p = .ok (p.b.Get k, ⟨(delP p.b p.inb k).1,
      repairP (delP p.b p.inb k).2 (Itoa F) (Itoa (F + ((k, v) :: l).length - 1))⟩) := by
    simp only [SliceDown, hfirst, hlast]
    exact slice_eq p _ _ _ c1
  obtain ⟨hf1, hf2, hf3⟩ := del_repair_frame hwf h.exact c1
  obtain ⟨F', L', hwf'⟩ := WF_del_repair hwf k (Or.inl (hwf.typed.slotVal F k c1))
  have hex' := Exact_del_repair hwf h.exact k (Or.inl (hwf.typed.slotVal F k c1))
  refine ⟨_, by rw [hsl, c2], ?_⟩
  refine Holds_of hwf' hex' l (F + 1) (by have := h.pos; omega) ?_ ?_
  · refine Chain_congr l (F + 1) c3 ?_
    intro m k' hm1 hm2 hm
    refine ⟨by rw [← hm]; exact hf1 m (by omega), hf3 k' ?_⟩
    intro e; subst e
    have h1 := h.exact.slotBack m k' hm
    have h2 := h.exact.slotBack F k' c1
    rw [h1] at h2
    have := Itoa_injective (Option.some.inj h2)
    omega
  · intro m hm
    by_cases hmF : m = F
    · subst hmF
      exact absurd hf2 hm
    · have hp : Populated p.inb m := by
        unfold Populated at hm ⊢
        rw [← hf1 m hmF]; exact hm
      have := h.window m hp
      simp only [List.length_cons] at this
      push_cast at this
      omega

/-- `SliceUp` pops the last pair. -/
theorem Holds_sliceUp {p : Partition} {k v : String} {l : List (String × String)}
    {F : Int} (h : Holds p (l ++ [(k, v)]) F) :
    ∃ p', SliceUp p = .ok (some v, p') ∧ Holds p' l F := by
  obtain ⟨c3, c1, c2⟩ := (Chain_append l (k, v) F).1 h.chain
  have hwf := h.wf
  have hne : l ++ [(k, v)] ≠ [] := by simp
  simp only [hne, if_false] at hwf
  have hlen : F + ((l ++ [(k, v)]).length : Int) - 1 = F + l.length := by
    simp only [List.length_append, List.length_singleton]; push_cast; omega
  rw [hlen] at hwf
  have hfirst := hwf.first
  have hlast := hwf.last
  have hsl : SliceUp p = .ok (p.b.Get k, ⟨(delP p.b p.inb k).1,
      repairP (delP p.b p.inb k).2 (Itoa F) (Itoa (F + l.length))⟩) := by
    simp only [SliceUp, hfirst, hlast]
    exact slice_eq p _ _ _ c1
  obtain ⟨hf1, hf2, hf3⟩ := del_repair_frame hwf h.exact c1
  obtain ⟨F', L', hwf'⟩ := WF_del_repair hwf k (Or.inl (hwf.typed.slotVal _ k c1))
  have hex' := Exact_del_repair hwf h.exact k (Or.inl (hwf.typed.slotVal _ k c1))
  refine ⟨_, by rw [hsl, c2], ?_⟩
  refine Holds_of hwf' hex' l F h.pos ?_ ?_
  · refine Chain_congr l F c3 ?_
    intro m k' hm1 hm2 hm
    refine ⟨by rw [← hm]; exact hf1 m (by omega), hf3 k' ?_⟩
    intro e; subst e
    have h1 := h.exact.slotBack m k' hm
    have h2 := h.exact.slotBack _ k' c1
    rw [h1] at h2
    have := Itoa_injective (Option.some.inj h2)
    omega
  · intro m hm
    by_cases hmL : m = F + l.length
    · subst hmL
      exact absurd hf2 hm
    · have hp : Populated p.inb m := by
        unfold Populated at hm ⊢
        rw [← hf1 m hmL]; exact hm
      have := h.window m hp
      simp only [List.length_append, List.length_singleton] at this
      push_cast at this
      omega

/-- Successive stores of fresh ordinary keys append their pairs in order. -/
theorem storeAll_holds : ∀ (rest l : List (String × String)) (p : Partition) (F : Int),
    Holds p l F → (∀ kv ∈ rest, Ordinary kv.1) → (∀ kv ∈ rest, Accepts kv.1 kv.2) →
    (rest.map Prod.fst).Nodup → (∀ kv ∈ rest, kv.1 ∉ l.map Prod.fst) →
    ∃ q F', storeAll p rest = .ok q ∧ Holds q (l ++ rest) F' := by
  intro rest
  induction rest with
  | nil => intro l p F h _ _ _ _; exact ⟨p, F, rfl, by simpa using h⟩
  | cons kv rest ih =>
    intro l p F h hk ha hnd hdis
    obtain ⟨k, v⟩ := kv
    obtain ⟨p1, hst, h1⟩ := Holds_store h (hk (k, v) (List.mem_cons_self _ _))
      (hdis (k, v) (List.mem_cons_self _ _)) v (ha (k, v) (List.mem_cons_self _ _))
    rw [List.map_cons, List.nodup_cons] at hnd
    obtain ⟨q, F', hq, hq'⟩ := ih (l ++ [(k, v)]) p1 _ h1
      (fun kv hm => hk kv (List.mem_cons_of_mem _ hm))
      (fun kv hm => ha kv (List.mem_cons_of_mem _ hm)) hnd.2 (by
        intro kv hm
        rw [List.map_append, List.mem_append]
        rintro (h2 | h2)
        · exact hdis kv (List.mem_cons_of_mem _ hm) h2
        · simp only [List.map_cons, List.map_nil, List.mem_singleton] at h2
          exact hnd.1 (h2 ▸ List.mem_map.2 ⟨kv, hm, rfl⟩))
    refine ⟨q, F', ?_, by simpa using hq'⟩
    simp only [storeAll, hst, hq]

theorem drainDown_holds : ∀ (l : List (String × String)) (p : Partition) (F : Int),
    Holds p l F → ∃ q, drainDown l.length p = .ok (l.map (fun kv => some kv.2), q) := by
  intro l
  induction l with
  | nil => intro p F _; exact ⟨p, rfl⟩
  | cons kv rest ih =>
    intro p F h
    obtain ⟨k, v⟩ := kv
    obtain ⟨p', hs, h'⟩ := Holds_sliceDown h
    obtain ⟨q, hq⟩ := ih p' _ h'
    exact ⟨q, by simp [drainDown, hs, hq]⟩

theorem drainUp_holds : ∀ (l : List (String × String)) (p : Partition) (F : Int),
    Holds p l F →
    ∃ q, drainUp l.length p = .ok (l.reverse.map (fun kv => some kv.2), q) := by
  intro l
  induction l using List.reverseRecOn with
  | nil => intro p F _; exact ⟨p, rfl⟩
  | append_singleton rest kv ih =>
    intro p F h
    obtain ⟨k, v⟩ := kv
    obtain ⟨p', hs, h'⟩ := Holds_sliceUp h
    obtain ⟨q, hq⟩ := ih p' _ h'
    exact ⟨q, by simp [drainUp, hs, hq]⟩

/-! ## A pair with the empty key makes StoreOnce fail -/

theorem storeLoop_error (data : List ChunkData) (b inb : Bucket) (lstidx c : Int)
    (h : ∃ kv ∈ data, kv.Key = "") : ∃ e, storeLoop data b inb lstidx c = .error e := by
  obtain ⟨kv, hm, he⟩ := h
  exact storeLoop_fails data b inb lstidx c ⟨kv, hm, fun ha => ha.1 he⟩

theorem StoreOnce_error (p : Partition) (data : List ChunkData)
    (h : ∃ kv ∈ data, kv.Key = "") : ∃ e, StoreOnce p data = .error e := by
  obtain ⟨kv, hm, he⟩ := h
  exact StoreOnce_fails p data ⟨kv, hm, fun ha => ha.1 he⟩

/-- The round trip when every pair is accepted: both operations succeed. -/
theorem round_trip_ok (p : Partition) (data : List ChunkData)
    (hr : Reach p) (hF : firstSlot p = 0) (hL : lastSlot p = 0) (hne : data ≠ [])
    (hnd : (data.map ChunkData.Key).Nodup) (hk : ∀ kv ∈ data, Ordinary kv.Key)
    (ha : ∀ kv ∈ data, Accepts kv.Key (kv.Value.getD "")) :
    ∃ q r, StoreOnce p data = .ok q ∧ DeleteOnce q (data.map ChunkData.Key) = .ok r ∧
      Count r = .ok (0, r) ∧
      r.inb.Get recFirstIdxKey = some (Itoa 0) ∧ r.inb.Get recLastIdxKey = some (Itoa 0) ∧
      FetchChunkUp r 0 0 = .ok ([], r) := by
  -- an initialised well-formed partition with the same `StoreOnce` result
  obtain ⟨p0, hp0, hso⟩ : ∃ p0, WF p0 0 0 ∧ StoreOnce p0 data = StoreOnce p data := by
    rcases hr.wellFormed with he | ⟨F, L, hwf⟩
    · subst he
      exact ⟨_, WF_initP_empty, StoreOnce_initP _ _⟩
    · have h1 : F = 0 := by simpa [firstSlot, hwf.first, Atoi_Itoa] using hF
      have h2 : L = 0 := by simpa [lastSlot, hwf.last, Atoi_Itoa] using hL
      subst h1; subst h2
      exact ⟨p, hwf, rfl⟩
  obtain ⟨hex0, hb0⟩ := exact_of_zero_window hp0
  obtain ⟨q, hq, hwfq, _, hbq, _⟩ := StoreOnce_spec hp0 data hk ha
  have hexq := Exact_StoreOnce hp0 hex0 data hk ha hnd (fun kv _ => hb0 kv.Key) q hq
  rw [hso] at hq
  have hkeys : data.map ChunkData.Key ≠ [] := by simpa using hne
  have hord : ∀ k ∈ data.map ChunkData.Key, Ordinary k ∨ k = "" := by
    intro k hm
    obtain ⟨kv, hkv, rfl⟩ := List.mem_map.1 hm
    exact Or.inl (hk kv hkv)
  have hdel := DeleteOnce_eq hwfq.first hwfq.last hkeys
  obtain ⟨F', L', hwfr⟩ := WF_delAll_repair hwfq (data.map ChunkData.Key) hord
  have hexr := Exact_delAll_repair hwfq hexq (data.map ChunkData.Key) hord
  have hbr : ∀ x, (delAllP (data.map ChunkData.Key) q.b q.inb).1.Get x = none := by
    intro x
    by_cases hx : x ∈ data.map ChunkData.Key
    · exact delAllP_b_removed _ hwfq.loose hord x hx
    · cases hg : (delAllP (data.map ChunkData.Key) q.b q.inb).1.Get x with
      | none => rfl
      | some v =>
        have := delAllP_b_sub _ _ _ x v hg
        rw [hbq, storeLoopP_b_frame _ _ _ _ _
          (fun kv hkv e => hx (List.mem_map.2 ⟨kv, hkv, e⟩)), hb0] at this
        cases this
  exact ⟨q, _, hq, hdel, drained_results hwfr hexr hbr⟩


/-! ## The collecting loops as windows -/

theorem chunkUp_eq (p : Partition) (max : Int) : ∀ (n : Nat) (i c : Int), 0 ≤ c →
    chunkUp p.b p.inb max n i c =
      if max = 0 then (walkDown n i).filterMap (recordAt p)
      else ((walkDown n i).filterMap (recordAt p)).take (max - c).toNat := by
  intro n
  induction n with
  | zero => intro i c _; simp [chunkUp, walkDown]
  | succ n ih =>
    intro i c hc
    simp only [chunkUp, walkDown, List.filterMap_cons, recordAt]
    by_cases hm : max = 0
    · subst hm
      simp only [or_true, if_true]
      cases hk : p.inb.Get (Itoa i) with
      | none => simpa [recordAt] using ih (i - 1) c hc
      | some k => simpa [recordAt] using ih (i - 1) (c + 1) (by omega)
    · simp only [hm, or_false, if_false]
      by_cases hlt : c < max
      · simp only [hlt, if_true]
        cases hk : p.inb.Get (Itoa i) with
        | none => simpa [hm, recordAt] using ih (i - 1) c hc
        | some k =>
          have e : (max - c).toNat = (max - (c + 1)).toNat + 1 := by omega
          simp only [e, List.take_succ_cons]
          have := ih (i - 1) (c + 1) (by omega)
          simp only [hm, if_false] at this
          rw [this]
      · simp only [hlt, if_false]
        have e : (max - c).toNat = 0 := by omega
        simp [e]

theorem chunkDown_eq (p : Partition) (max : Int) : ∀ (n : Nat) (i c : Int), 0 ≤ c →
    chunkDown p.b p.inb max n i c =
      if max = 0 then (walkUp n i).filterMap (recordAt p)
      else ((walkUp n i).filterMap (recordAt p)).take (max - c).toNat := by
  intro n
  induction n with
  | zero => intro i c _; simp [chunkDown, walkUp]
  | succ n ih =>
    intro i c hc
    simp only [chunkDown, walkUp, List.filterMap_cons, recordAt]
    by_cases hm : max = 0
    · subst hm
      simp only [or_true, if_true]
      cases hk : p.inb.Get (Itoa i) with
      | none => simpa [recordAt] using ih (i + 1) c hc
      | some k => simpa [recordAt] using ih (i + 1) (c + 1) (by omega)
    · simp only [hm, or_false, if_false]
      by_cases hlt : c < max
      · simp only [hlt, if_true]
        cases hk : p.inb.Get (Itoa i) with
        | none => simpa [hm, recordAt] using ih (i + 1) c hc
        | some k =>
          have e : (max - c).toNat = (max - (c + 1)).toNat + 1 := by omega
          simp only [e, List.take_succ_cons]
          have := ih (i + 1) (c + 1) (by omega)
          simp only [hm, if_false] at this
          rw [this]
      · simp only [hlt, if_false]
        have e : (max - c).toNat = 0 := by omega
        simp [e]

theorem chunkUp_window (p : Partition) (max : Int) (n : Nat) (i : Int) :
    chunkUp p.b p.inb max n i 0 = limit max ((walkDown n i).filterMap (recordAt p)) := by
  rw [chunkUp_eq p max n i 0 (le_refl _)]
  simp [limit]

theorem chunkDown_window (p : Partition) (max : Int) (n : Nat) (i : Int) :
    chunkDown p.b p.inb max n i 0 = limit max ((walkUp n i).filterMap (recordAt p)) := by
  rw [chunkDown_eq p max n i 0 (le_refl _)]
  simp [limit]

theorem mem_walkDown : ∀ (n : Nat) (i s : Int), s ∈ walkDown n i ↔ (s ≤ i ∧ i < s + n) := by
  intro n
  induction n with
  | zero => intro i s; simp [walkDown]
  | succ n ih =>
    intro i s
    simp only [walkDown, List.mem_cons, ih]
    push_cast
    omega

theorem mem_walkUp : ∀ (n : Nat) (i s : Int), s ∈ walkUp n i ↔ (i ≤ s ∧ s < i + n) := by
  intro n
  induction n with
  | zero => intro i s; simp [walkUp]
  | succ n ih =>
    intro i s
    simp only [walkUp, List.mem_cons, ih]
    push_cast
    omega

theorem walkUp_pairwise : ∀ (n : Nat) (i : Int), (walkUp n i).Pairwise (· < ·) := by
  intro n
  induction n with
  | zero => intro i; simp [walkUp]
  | succ n ih =>
    intro i
    simp only [walkUp, List.pairwise_cons]
    refine ⟨?_, ih (i + 1)⟩
    intro s hs
    have := (mem_walkUp n (i + 1) s).1 hs
    omega

theorem walkDown_pairwise : ∀ (n : Nat) (i : Int), (walkDown n i).Pairwise (· > ·) := by
  intro n
  induction n with
  | zero => intro i; simp [walkDown]
  | succ n ih =>
    intro i
    simp only [walkDown, List.pairwise_cons]
    refine ⟨?_, ih (i - 1)⟩
    intro s hs
    have := (mem_walkDown n (i - 1) s).1 hs
    omega

theorem walkUp_append : ∀ (n m : Nat) (i : Int),
    walkUp (n + m) i = walkUp n i ++ walkUp m (i + n) := by
  intro n
  induction n with
  | zero => intro m i; simp [walkUp]
  | succ n ih =>
    intro m i
    have e : n + 1 + m = (n + m) + 1 := by omega
    rw [e]
    simp only [walkUp, List.cons_append, ih]
    have e2 : i + 1 + (n : Int) = i + ((n + 1 : Nat) : Int) := by push_cast; omega
    rw [e2]

/-- Walking down from the top visits the slots of walking up, in reverse. -/
theorem walkDown_eq_reverse : ∀ (n : Nat) (i : Int),
    walkDown n (i + n - 1) = (walkUp n i).reverse := by
  intro n
  induction n with
  | zero => intro i; simp [walkUp, walkDown]
  | succ n ih =>
    intro i
    have h1 : walkUp (n + 1) i = walkUp n i ++ [i + n] := by
      rw [walkUp_append n 1 i]; simp [walkUp]
    rw [h1, List.reverse_append]
    simp only [walkDown, List.reverse_cons, List.reverse_nil, List.nil_append,
      List.singleton_append]
    have e1 : i + ((n + 1 : Nat) : Int) - 1 = i + n := by push_cast; omega
    have e2 : i + (n : Int) - 1 = i + n - 1 := rfl
    rw [e1]
    congr 1
    rw [← ih i]

theorem recordAt_isSome (p : Partition) (s : Int) :
    (recordAt p s).isSome ↔ Populated p.inb s := by
  unfold recordAt Populated
  cases p.inb.Get (Itoa s) <;> simp

theorem recordAt_key (p : Partition) (s : Int) (cd : ChunkData)
    (h : recordAt p s = some cd) : p.inb.Get (Itoa s) = some cd.Key ∧
      cd.Value = p.b.Get cd.Key := by
  unfold recordAt at h
  cases hk : p.inb.Get (Itoa s) with
  | none => simp [hk] at h
  | some k =>
    simp only [hk, Option.some.injEq] at h
    subst h
    exact ⟨rfl, rfl⟩

/-- Within the 64-bit range the wrap-around changes nothing. -/
theorem wrap64_eq {x : Int} (h1 : -(2 : Int) ^ 63 ≤ x) (h2 : x < 2 ^ 63) : wrap64 x = x := by
  unfold wrap64
  norm_num at h1 h2 ⊢
  omega

/-- `FetchChunkUp` as a window: the start is the last index lowered by an offset that
does not exceed it. -/
theorem FetchChunkUp_window {p : Partition} {l : String}
    (hl : p.inb.Get recLastIdxKey = some l) (max offset : Int)
    (hoff : 0 ≤ offset) (hL : 0 ≤ Atoi l) (hw : offset = 0 ∨ Atoi l < 2 ^ 63) :
    FetchChunkUp p max offset =
      .ok (windowTail p max (if offset ≤ Atoi l then Atoi l - offset else Atoi l), p) := by
  have e : (if offset ≠ 0 ∧ offset ≤ Atoi l then wrap64 (Atoi l - offset) else Atoi l) =
      (if offset ≤ Atoi l then Atoi l - offset else Atoi l) := by
    by_cases h0 : offset = 0
    · subst h0; simp [hL]
    · by_cases h1 : offset ≤ Atoi l
      · have h2 : Atoi l < 2 ^ 63 := by
          rcases hw with hw | hw
          · exact absurd hw h0
          · exact hw
        simp only [h0, h1, ne_eq, not_false_eq_true, and_self, if_true]
        exact wrap64_eq (by norm_num; omega) (by omega)
      · simp [h1]
  have hs : ¬ ((if offset ≤ Atoi l then Atoi l - offset else Atoi l) < 0 ∨
      (Atoi l < (if offset ≤ Atoi l then Atoi l - offset else Atoi l) ∧
        MaxSliceCap < (if offset ≤ Atoi l then Atoi l - offset else Atoi l))) := by
    split <;> omega
  unfold FetchChunkUp
  simp only [hl, e, hs, if_false, chunkUp_window, windowTail]

/-- `FetchChunkDown` as a window: the start is the first index raised by an offset that
exceeds it. -/
theorem FetchChunkDown_window {p : Partition} {t l : String}
    (hf : p.inb.Get recFirstIdxKey = some t) (hl : p.inb.Get recLastIdxKey = some l)
    (max offset : Int) (hmax : 0 ≤ max) (hcap : max ≤ MaxSliceCap)
    (hw : offset = 0 ∨ (-(2 : Int) ^ 63 ≤ Atoi t + offset ∧ Atoi t + offset < 2 ^ 63)) :
    FetchChunkDown p max offset =
      .ok (windowHead p max (if offset > Atoi t then Atoi t + offset else Atoi t) (Atoi l),
        p) := by
  have e : (if offset ≠ 0 ∧ offset > Atoi t then wrap64 (Atoi t + offset) else Atoi t) =
      (if offset > Atoi t then Atoi t + offset else Atoi t) := by
    by_cases h0 : offset = 0
    · subst h0; simp
    · by_cases h1 : offset > Atoi t
      · have h2 : -(2 : Int) ^ 63 ≤ Atoi t + offset ∧ Atoi t + offset < 2 ^ 63 := by
          rcases hw with hw | hw
          · exact absurd hw h0
          · exact hw
        simp only [h0, h1, ne_eq, not_false_eq_true, and_self, if_true]
        exact wrap64_eq h2.1 h2.2
      · simp [h1]
  have hm : ¬ (max < 0 ∨ MaxSliceCap < max) := by omega
  unfold FetchChunkDown
  simp only [hf, hl, e, hm, if_false, chunkDown_window, windowHead]

/-! ## The operations on an arbitrary partition -/

theorem Bucket.Get_set_ne_none (b : Bucket) (k v : String) {x : String}
    (h : b.Get x ≠ none) : (b.set k v).Get x ≠ none := by
  rw [Bucket.Get_set]
  split
  · simp
  · exact h

/-- `Store` of a pair the engine accepts succeeds on a partition whose last-slot entry
the engine accepts as a key, writes the record and leaves the partition initialised. -/
theorem Store_ok (p : Partition) (hb : p.b.Get "" = none)
    (hfit : ∀ l, p.inb.Get recLastIdxKey = some l → KeyFits l) {k v : String}
    (ha : Accepts k v) :
    ∃ q, Store p k v = .ok q ∧ q.b = p.b.set k v ∧ Initialised q := by
  obtain ⟨l, f, h1, h2, h3, h4⟩ := getOrInit_pair p.inb
  have hl : (initInb p.inb).Get recLastIdxKey ≠ none := by simp [h3]
  have hf : (initInb p.inb).Get recFirstIdxKey ≠ none := by simp [h4]
  have hlfit : KeyFits l := by
    cases hg : p.inb.Get recLastIdxKey with
    | none =>
      have : (initInb p.inb).Get recLastIdxKey = some "0" := by
        simp only [initInb, hg, if_true]
        split <;> simp [Bucket.Get_set, reserved_distinct]
      rw [h3] at this
      cases this
      exact Or.inr (by decide)
    | some l0 =>
      have : (initInb p.inb).Get recLastIdxKey = some l0 := by
        simp only [initInb, hg, reduceCtorEq, if_false]
        split <;> simp [Bucket.Get_set, reserved_distinct, Ne.symm reserved_distinct.1, hg]
      rw [h3] at this
      cases this
      exact hfit _ hg
  have hnum : (if p.b.Get l = none then Itoa (Atoi l + 1) else l) ≠ "" := by
    split
    · exact Itoa_ne_empty _
    · intro e
      subst e
      contradiction
  have hN : KeyFits (if p.b.Get l = none then Itoa (Atoi l + 1) else l) := by
    split
    · exact keyFits_Itoa _
    · exact hlfit
  unfold Store
  simp only [h1, h2, bind, Except.bind, Bucket.Put_eq _ _ ha]
  generalize (if p.b.Get l = none then Itoa (Atoi l + 1) else l) = N at hnum hN
  simp only [Bucket.Put_eq _ _ (show Accepts N k from ⟨hnum, hN, valueFits_of_keyFits ha.2.1⟩),
    Bucket.Put_eq _ _ (show Accepts k N from ⟨ha.1, ha.2.1, valueFits_of_keyFits hN⟩),
    Bucket.Put_eq _ _ (show Accepts recLastIdxKey N from
      ⟨reserved_ne_empty.2.1, keyFits_reserved.2.1, valueFits_of_keyFits hN⟩),
    Bucket.Put_eq _ _ (accepts_first 1), Bucket.Put_eq _ _ (accepts_cnt _)]
  split
  · refine ⟨_, rfl, rfl, ?_, ?_⟩
    · exact Bucket.Get_set_ne_none _ _ _ (by simp)
    · refine Bucket.Get_set_ne_none _ _ _ (Bucket.Get_set_ne_none _ _ _ ?_)
      simp
  · refine ⟨_, rfl, rfl, ?_, ?_⟩
    · exact Bucket.Get_set_ne_none _ _ _ (Bucket.Get_set_ne_none _ _ _
        (Bucket.Get_set_ne_none _ _ _ (Bucket.Get_set_ne_none _ _ _ hf)))
    · refine Bucket.Get_set_ne_none _ _ _ ?_
      simp

/-- A successful `Store` was given a pair the engine accepts, wrote the record and left
the partition initialised, with a last-slot entry the engine accepts as a key, whatever
the partition. -/
theorem Store_record {p q : Partition} {k v : String} (h : Store p k v = .ok q) :
    k ≠ "" ∧ q.b = p.b.set k v ∧ Accepts k v ∧ Initialised q ∧
      ∀ l, q.inb.Get recLastIdxKey = some l → KeyFits l := by
  obtain ⟨l, f, h1, h2, h3, h4⟩ := getOrInit_pair p.inb
  have hf : (initInb p.inb).Get recFirstIdxKey ≠ none := by simp [h4]
  by_cases ha : Accepts k v
  · unfold Store at h
    simp only [h1, h2, bind, Except.bind, Bucket.Put_eq _ _ ha] at h
    generalize (if p.b.Get l = none then Itoa (Atoi l + 1) else l) = N at h
    by_cases hN : Accepts N k
    · simp only [Bucket.Put_eq _ _ hN,
        Bucket.Put_eq _ _ (show Accepts k N from
          ⟨ha.1, ha.2.1, valueFits_of_keyFits hN.2.1⟩),
        Bucket.Put_eq _ _ (show Accepts recLastIdxKey N from
          ⟨reserved_ne_empty.2.1, keyFits_reserved.2.1, valueFits_of_keyFits hN.2.1⟩),
        Bucket.Put_eq _ _ (accepts_first 1), Bucket.Put_eq _ _ (accepts_cnt _),
        pure, Except.pure] at h
      split at h
      · cases h
        refine ⟨ha.1, rfl, ha, ⟨Bucket.Get_set_ne_none _ _ _ (by simp),
          Bucket.Get_set_ne_none _ _ _ (Bucket.Get_set_ne_none _ _ _ (by simp))⟩, ?_⟩
        intro l' hl'
        simp only [Bucket.Get_set, reserved_distinct.2.2, Ne.symm reserved_distinct.1,
          if_false, if_true, Option.some.injEq] at hl'
        subst hl'
        exact hN.2.1
      · cases h
        refine ⟨ha.1, rfl, ha, ⟨Bucket.Get_set_ne_none _ _ _ (Bucket.Get_set_ne_none _ _ _
            (Bucket.Get_set_ne_none _ _ _ (Bucket.Get_set_ne_none _ _ _ hf))),
          Bucket.Get_set_ne_none _ _ _ (by simp)⟩, ?_⟩
        intro l' hl'
        simp only [Bucket.Get_set, reserved_distinct.2.2, if_false, if_true,
          Option.some.injEq] at hl'
        subst hl'
        exact hN.2.1
    · obtain ⟨e, he⟩ := Bucket.Put_error (initInb p.inb) hN
      simp [he] at h
  · obtain ⟨e, he⟩ := Store_fails p ha
    rw [he] at h
    cases h

/-- `Store` of a key over the size limit fails in the first `Put`. -/
theorem Store_key_too_large (p : Partition) {k : String} (v : String) (h1 : k ≠ "")
    (h2 : MaxKeySize < k.utf8ByteSize) (h3 : ¬ IsNumeral k) :
    Store p k v = .error .ErrKeyTooLarge := by
  obtain ⟨l, f, e1, e2, _, _⟩ := getOrInit_pair p.inb
  unfold Store
  simp only [e1, e2, bind, Except.bind, Bucket.Put_key_too_large p.b v h1 h2 h3]

theorem utf8ByteSize_replicate (n : Nat) :
    (String.mk (List.replicate n 'a')).utf8ByteSize = n := by
  show String.utf8ByteSize.go (List.replicate n 'a') = n
  induction n with
  | zero => rfl
  | succ n ih =>
    show String.utf8ByteSize.go (List.replicate n 'a') + Char.utf8Size 'a' = n + 1
    rw [ih]
    rfl

theorem utf8ByteSize_longKey : longKey.utf8ByteSize = MaxKeySize + 1 :=
  utf8ByteSize_replicate _

theorem ordinary_longKey : Ordinary longKey := by
  decide

theorem longKey_too_large : MaxKeySize < longKey.utf8ByteSize := by
  rw [utf8ByteSize_longKey]
  exact Nat.lt_succ_self _

theorem Store_empty_key (p : Partition) (v : String) : ∃ e, Store p "" v = .error e := by
  obtain ⟨l, f, h1, h2, _, _⟩ := getOrInit_pair p.inb
  refine ⟨.ErrKeyRequired, ?_⟩
  unfold Store
  simp [h1, h2, bind, Except.bind, Bucket.Put_empty]

theorem Initialised_repairP (b inb : Bucket) (t l : String) :
    Initialised ⟨b, repairP inb t l⟩ := by
  constructor
  · show (repairP inb t l).Get recFirstIdxKey ≠ none
    simp [repairP, abidxP, atidxP, Bucket.Get_set, reserved_distinct]
  · show (repairP inb t l).Get recLastIdxKey ≠ none
    simp [repairP, abidxP, atidxP, Bucket.Get_set]

theorem storeLoop_keeps : ∀ (data : List ChunkData) (b inb : Bucket) (lstidx c : Int)
    (r : Bucket × Bucket × Int × Int), storeLoop data b inb lstidx c = .ok r →
    (∀ x, inb.Get x ≠ none → r.2.1.Get x ≠ none) ∧ (b.Get "" = none → r.1.Get "" = none) ∧
    ((∀ l, inb.Get recLastIdxKey = some l → KeyFits l) →
      ∀ l, r.2.1.Get recLastIdxKey = some l → KeyFits l) := by
  intro data
  induction data with
  | nil =>
    intro b inb lstidx c r h
    simp only [storeLoop, Except.ok.injEq] at h
    subst h
    exact ⟨fun x hx => hx, fun hb => hb, fun hl => hl⟩
  | cons kv rest ih =>
    intro b inb lstidx c r h
    by_cases hkv : Accepts kv.Key (kv.Value.getD "")
    · simp only [storeLoop, Bucket.Put_eq _ _ hkv,
        Bucket.Put_eq _ _ (accepts_slot lstidx hkv.2.1),
        Bucket.Put_eq _ _ (accepts_key hkv lstidx), Bucket.Put_eq _ _ (accepts_last lstidx),
        bind, Except.bind] at h
      obtain ⟨h1, h2, h3⟩ := ih _ _ _ _ r h
      refine ⟨fun x hx => h1 x ?_, fun hb => h2 ?_, fun _ => h3 ?_⟩
      · exact Bucket.Get_set_ne_none _ _ _ (Bucket.Get_set_ne_none _ _ _
          (Bucket.Get_set_ne_none _ _ _ hx))
      · rw [Bucket.Get_set_ne _ _ (Ne.symm hkv.1)]
        exact hb
      · intro l hl
        simp only [Bucket.Get_set, if_true, Option.some.injEq] at hl
        subst hl
        exact keyFits_Itoa _
    · obtain ⟨e, he⟩ := Bucket.Put_error b hkv
      simp [storeLoop, he, bind, Except.bind] at h

theorem initInb_last_fits {inb : Bucket}
    (h : ∀ l, inb.Get recLastIdxKey = some l → KeyFits l) :
    ∀ l, (initInb inb).Get recLastIdxKey = some l → KeyFits l := by
  intro l hl
  unfold initInb at hl
  by_cases h1 : inb.Get recLastIdxKey = none
  · simp only [h1, if_true] at hl
    split at hl
    · simp only [Bucket.Get_set, Ne.symm reserved_distinct.1, if_false, if_true,
        Option.some.injEq] at hl
      subst hl
      exact Or.inr (by decide)
    · simp only [Bucket.Get_set, if_true, Option.some.injEq] at hl
      subst hl
      exact Or.inr (by decide)
  · simp only [h1, if_false] at hl
    split at hl
    · simp only [Bucket.Get_set, Ne.symm reserved_distinct.1, if_false] at hl
      exact h l hl
    · exact h l hl

/-- A successful `StoreOnce` leaves the partition initialised. -/
theorem StoreOnce_initialised {p q : Partition} {data : List ChunkData}
    (h : StoreOnce p data = .ok q) :
    Initialised q ∧ (p.b.Get "" = none → q.b.Get "" = none) ∧
    ((∀ l, p.inb.Get recLastIdxKey = some l → KeyFits l) →
      ∀ l, q.inb.Get recLastIdxKey = some l → KeyFits l) := by
  obtain ⟨l, f, h1, h2, h3, h4⟩ := getOrInit_pair p.inb
  have hl : (initInb p.inb).Get recLastIdxKey ≠ none := by simp [h3]
  have hf : (initInb p.inb).Get recFirstIdxKey ≠ none := by simp [h4]
  unfold StoreOnce at h
  simp only [h1, h2, bind, Except.bind] at h
  cases hs : storeLoop data p.b (initInb p.inb)
      (if p.b.Get l = none then Atoi l + 1 else Atoi l) 0 with
  | error e => simp [hs] at h
  | ok r =>
    obtain ⟨b1, inb3, l1, c⟩ := r
    obtain ⟨hk1, hk2, hk3⟩ := storeLoop_keeps _ _ _ _ _ _ hs
    simp only [hs, Bucket.Put_eq _ _ (accepts_first _),
      Bucket.Put_eq _ _ (accepts_cnt _), pure, Except.pure] at h
    split at h
    · cases h
      refine ⟨⟨Bucket.Get_set_ne_none _ _ _ (by simp),
        Bucket.Get_set_ne_none _ _ _ (Bucket.Get_set_ne_none _ _ _ (hk1 _ hl))⟩, hk2, ?_⟩
      intro hfit l' hl'
      simp only [Bucket.Get_set, reserved_distinct.2.2, Ne.symm reserved_distinct.1,
        if_false] at hl'
      exact hk3 (initInb_last_fits hfit) l' hl'
    · cases h
      refine ⟨⟨Bucket.Get_set_ne_none _ _ _ (hk1 _ hf),
        Bucket.Get_set_ne_none _ _ _ (hk1 _ hl)⟩, hk2, ?_⟩
      intro hfit l' hl'
      simp only [Bucket.Get_set, reserved_distinct.2.2, if_false] at hl'
      exact hk3 (initInb_last_fits hfit) l' hl' 

theorem delP_b_empty (b inb : Bucket) (k : String) (h : b.Get "" = none) :
    (delP b inb k).1.Get "" = none := by
  unfold delP
  cases inb.Get k with
  | none => exact h
  | some c =>
    show (b.Delete k).Get "" = none
    rw [Bucket.Get_Delete]
    split
    · rfl
    · exact h

theorem delAllP_b_empty : ∀ (keys : List String) (b inb : Bucket), b.Get "" = none →
    (delAllP keys b inb).1.Get "" = none := by
  intro keys
  induction keys with
  | nil => intro b inb h; exact h
  | cons k rest ih =>
    intro b inb h
    exact ih _ _ (delP_b_empty b inb k h)

/-- The last-slot entry the repair scans write is a numeral. -/
theorem repairP_last_fits (inb : Bucket) (t l : String) :
    ∀ x, (repairP inb t l).Get recLastIdxKey = some x → KeyFits x := by
  intro x hx
  unfold repairP abidxP at hx
  simp only [Bucket.Get_set, if_true, Option.some.injEq] at hx
  subst hx
  cases hs : scanDown (atidxP inb l) (Atoi l + 1 - Atoi t).toNat (Atoi l) with
  | none => exact Or.inr (by decide)
  | some s => exact Or.inr (scanDown_isNumeral _ _ _ _ hs)

theorem cutFinish_sane (p : Partition) (t l : String) (chunk : List ChunkData)
    (hb : p.b.Get "" = none) : Kept p (commitR p (cutFinish p t l chunk)) := by
  by_cases hc : chunk = []
  · left
    subst hc
    rfl
  · right
    rw [cutFinish_eq p t l hc]
    exact ⟨Initialised_repairP _ _ _ _, delAllP_b_empty _ _ _ hb, repairP_last_fits _ _ _⟩

/-- One operation, with any keys, on a partition without a record of the empty key whose
last-slot entry the engine accepts as a key. -/
theorem applyOp_kept {p : Partition} (hb : p.b.Get "" = none)
    (hfit : ∀ l, p.inb.Get recLastIdxKey = some l → KeyFits l) (op : Op) :
    Kept p (applyOp p op) := by
  cases op with
  | Store k v =>
    cases hs : Store p k v with
    | error e => left; simp [applyOp, commit, hs]
    | ok q =>
      right
      obtain ⟨hk, hb', _, hi, hl⟩ := Store_record hs
      simp only [applyOp, commit, hs]
      refine ⟨hi, ?_, hl⟩
      rw [hb', Bucket.Get_set_ne _ _ (Ne.symm hk)]
      exact hb
  | StoreOnce data =>
    cases hs : StoreOnce p data with
    | error e => left; simp [applyOp, commit, hs]
    | ok q =>
      right
      obtain ⟨hi, hb', hl⟩ := StoreOnce_initialised hs
      simp only [applyOp, commit, hs]
      exact ⟨hi, hb' hb, hl hfit⟩
  | Fetch k => left; rfl
  | Count => left; rfl
  | FetchChunkUp max offset => left; exact FetchChunkUp_state p max offset
  | FetchChunkDown max offset => left; exact FetchChunkDown_state p max offset
  | Delete k =>
    cases hf : p.inb.Get recFirstIdxKey with
    | none => left; simp [applyOp, commit, Delete, hf]
    | some t =>
      cases hl : p.inb.Get recLastIdxKey with
      | none => left; simp [applyOp, commit, Delete, hf, hl]
      | some l =>
        right
        simp only [applyOp, commit, Delete_eq hf hl]
        exact ⟨Initialised_repairP _ _ _ _, delP_b_empty _ _ _ hb, repairP_last_fits _ _ _⟩
  | DeleteOnce keys =>
    by_cases hk : keys = []
    · left; subst hk; rfl
    · cases hf : p.inb.Get recFirstIdxKey with
      | none =>
        left
        have : keys.length ≠ 0 := by simpa using hk
        simp [applyOp, commit, DeleteOnce, hf, this]
      | some t =>
        cases hl : p.inb.Get recLastIdxKey with
        | none =>
          left
          have : keys.length ≠ 0 := by simpa using hk
          simp [applyOp, commit, DeleteOnce, hf, hl, this]
        | some l =>
          right
          simp only [applyOp, commit, DeleteOnce_eq hf hl hk]
          exact ⟨Initialised_repairP _ _ _ _, delAllP_b_empty _ _ _ hb,
            repairP_last_fits _ _ _⟩
  | FetchDelete k =>
    cases hf : p.inb.Get recFirstIdxKey with
    | none => left; simp [applyOp, commitR, FetchDelete, hf]
    | some t =>
      cases hl : p.inb.Get recLastIdxKey with
      | none => left; simp [applyOp, commitR, FetchDelete, hf, hl]
      | some l =>
        right
        simp only [applyOp, commitR, FetchDelete_eq hf hl]
        exact ⟨Initialised_repairP _ _ _ _, delP_b_empty _ _ _ hb, repairP_last_fits _ _ _⟩
  | SliceUp =>
    cases hf : p.inb.Get recFirstIdxKey with
    | none => left; simp [applyOp, commitR, SliceUp, hf]
    | some t =>
      cases hl : p.inb.Get recLastIdxKey with
      | none => left; simp [applyOp, commitR, SliceUp, hf, hl]
      | some l =>
        cases hk : p.inb.Get l with
        | none => left; simp [applyOp, commitR, SliceUp, hf, hl, slice, hk]
        | some keyb =>
          right
          simp only [applyOp, commitR, SliceUp, hf, hl, slice_eq p t l l hk]
          exact ⟨Initialised_repairP _ _ _ _, delP_b_empty _ _ _ hb,
            repairP_last_fits _ _ _⟩
  | SliceDown =>
    cases hf : p.inb.Get recFirstIdxKey with
    | none => left; simp [applyOp, commitR, SliceDown, hf]
    | some t =>
      cases hl : p.inb.Get recLastIdxKey with
      | none => left; simp [applyOp, commitR, SliceDown, hf, hl]
      | some l =>
        cases hk : p.inb.Get t with
        | none => left; simp [applyOp, commitR, SliceDown, hf, hl, slice, hk]
        | some keyb =>
          right
          simp only [applyOp, commitR, SliceDown, hf, hl, slice_eq p t l t hk]
          exact ⟨Initialised_repairP _ _ _ _, delP_b_empty _ _ _ hb,
            repairP_last_fits _ _ _⟩
  | CutChunkUp max =>
    cases hl : p.inb.Get recLastIdxKey with
    | none => left; simp [applyOp, commitR, CutChunkUp, hl]
    | some l =>
      cases hf : p.inb.Get recFirstIdxKey with
      | none => left; simp [applyOp, commitR, CutChunkUp, hf, hl]
      | some t =>
        by_cases hm : max < 0 ∨ MaxSliceCap < max
        · left; simp [applyOp, commitR, CutChunkUp, hf, hl, hm]
        · simp only [applyOp, CutChunkUp, hf, hl, hm, if_false]
          exact cutFinish_sane p t l _ hb
  | CutChunkDown max =>
    cases hf : p.inb.Get recFirstIdxKey with
    | none => left; simp [applyOp, commitR, CutChunkDown, hf]
    | some t =>
      cases hl : p.inb.Get recLastIdxKey with
      | none => left; simp [applyOp, commitR, CutChunkDown, hf, hl]
      | some l =>
        by_cases hm : max < 0 ∨ MaxSliceCap < max
        · left; simp [applyOp, commitR, CutChunkDown, hf, hl, hm]
        · simp only [applyOp, CutChunkDown, hf, hl, hm, if_false]
          exact cutFinish_sane p t l _ hb

/-- In every state the operations produce, with any keys, the partition is sane and its
last-slot entry is a string the engine accepts as a key. -/
theorem sane_and_fits_of_reachAny {p : Partition} (hr : ReachAny p) :
    Sane p ∧ ∀ l, p.inb.Get recLastIdxKey = some l → KeyFits l := by
  induction hr with
  | refl => exact ⟨⟨Or.inl rfl, rfl⟩, fun l hl => by simp [Partition.empty, Bucket.Get] at hl⟩
  | step _ _ ih =>
    rcases applyOp_kept ih.1.2 ih.2 _ with e | ⟨hi, hb, hl⟩
    · rw [e]; exact ih
    · exact ⟨⟨Or.inr hi, hb⟩, hl⟩

theorem Sane_of_reachAny {p : Partition} (hr : ReachAny p) : Sane p :=
  (sane_and_fits_of_reachAny hr).1

/-! ## Windows that cover every populated slot -/

theorem filterMap_recordAt_nil (p : Partition) : ∀ (ws : List Int),
    (∀ s ∈ ws, ¬ Populated p.inb s) → ws.filterMap (recordAt p) = [] := by
  intro ws
  induction ws with
  | nil => intro _; rfl
  | cons s rest ih =>
    intro h
    have hs : recordAt p s = none := by
      have := h s (List.mem_cons_self _ _)
      unfold Populated at this
      unfold recordAt
      cases hk : p.inb.Get (Itoa s) with
      | none => rfl
      | some k => exact absurd (by simp [hk]) this
    rw [List.filterMap_cons, hs]
    exact ih fun s' hs' => h s' (List.mem_cons_of_mem _ hs')

/-- Only populated slots contribute records. -/
theorem filterMap_recordAt_filter (p : Partition) : ∀ (ws : List Int),
    (ws.filter fun s => decide (Populated p.inb s)).filterMap (recordAt p) =
      ws.filterMap (recordAt p) := by
  intro ws
  induction ws with
  | nil => rfl
  | cons s rest ih =>
    by_cases hs : Populated p.inb s
    · rw [List.filter_cons_of_pos (by simpa using hs), List.filterMap_cons,
        List.filterMap_cons, ih]
    · have hn : recordAt p s = none := by
        unfold Populated at hs
        unfold recordAt
        cases hk : p.inb.Get (Itoa s) with
        | none => rfl
        | some k => exact absurd (by simp [hk]) hs
      rw [List.filter_cons_of_neg (by simpa using hs), List.filterMap_cons, hn, ih]

/-- Every populated slot contributes exactly one record. -/
theorem length_filterMap_recordAt (p : Partition) : ∀ (ws : List Int),
    (∀ s ∈ ws, Populated p.inb s) → (ws.filterMap (recordAt p)).length = ws.length := by
  intro ws
  induction ws with
  | nil => intro _; rfl
  | cons s rest ih =>
    intro h
    have hs := h s (List.mem_cons_self _ _)
    unfold Populated at hs
    cases hk : p.inb.Get (Itoa s) with
    | none => exact absurd hk hs
    | some k =>
      have hr : recordAt p s = some ⟨k, p.b.Get k⟩ := by simp [recordAt, hk]
      rw [List.filterMap_cons, hr]
      simp only [List.length_cons]
      rw [ih fun s' hs' => h s' (List.mem_cons_of_mem _ hs')]

theorem limit_of_length_le (max : Int) (l : List ChunkData) (h0 : 0 ≤ max)
    (h : (l.length : Int) ≤ max) : limit max l = l := by
  unfold limit
  split
  · rfl
  · exact List.take_of_length_le (by omega)

/-- The populated slots of a well-formed partition, in ascending order. -/
theorem populated_slots {p : Partition} {F L : Int} (h : WF p F L) :
    ∃ slots : List Int, slots.Pairwise (· < ·) ∧ (∀ s, s ∈ slots ↔ Populated p.inb s) ∧
      (slots.length : Int) = storedCount p ∧
      (walkUp (L + 1 - F).toNat F).filterMap (recordAt p) = slots.filterMap (recordAt p) ∧
      (walkDown (L + 1).toNat L).filterMap (recordAt p) =
        (slots.filterMap (recordAt p)).reverse := by
  have hFL : 0 ≤ F ∧ F ≤ L := by
    rcases h.tight with ⟨h1, h2, _⟩ | ⟨h1, h2, _⟩ <;> omega
  have hw := h.tight.within
  refine ⟨(walkUp (L + 1 - F).toNat F).filter fun s => decide (Populated p.inb s),
    (walkUp_pairwise _ _).filter _, ?_, ?_, (filterMap_recordAt_filter p _).symm, ?_⟩
  · intro s
    simp only [List.mem_filter, mem_walkUp, decide_eq_true_eq]
    constructor
    · exact fun hs => hs.2
    · intro hs
      have := hw s hs
      exact ⟨⟨this.2.1, by omega⟩, hs⟩
  · obtain ⟨S, hS, hc⟩ := storedCount_of_typed h.typed
    have hnd : ((walkUp (L + 1 - F).toNat F).filter
        fun s => decide (Populated p.inb s)).Nodup :=
      ((walkUp_pairwise _ _).filter _).imp fun hlt => ne_of_lt hlt
    have hS' : S = ((walkUp (L + 1 - F).toNat F).filter
        fun s => decide (Populated p.inb s)).toFinset := by
      ext s
      rw [hS, List.mem_toFinset]
      simp only [List.mem_filter, mem_walkUp, decide_eq_true_eq]
      constructor
      · intro hs
        have := hw s hs
        exact ⟨⟨this.2.1, by omega⟩, hs⟩
      · exact fun hs => hs.2
    rw [hc, hS', List.toFinset_card_of_nodup hnd]
  · have e1 : walkDown (L + 1).toNat L = (walkUp (L + 1).toNat 0).reverse := by
      have := walkDown_eq_reverse (L + 1).toNat 0
      have e : (0 : Int) + ((L + 1).toNat : Int) - 1 = L := by omega
      rw [e] at this
      exact this
    have e2 : walkUp (L + 1).toNat 0 = walkUp F.toNat 0 ++ walkUp (L + 1 - F).toNat F := by
      have e : (L + 1).toNat = F.toNat + (L + 1 - F).toNat := by omega
      rw [e, walkUp_append]
      have e' : (0 : Int) + (F.toNat : Int) = F := by omega
      rw [e']
    have e3 : (walkUp F.toNat 0).filterMap (recordAt p) = [] := by
      apply filterMap_recordAt_nil
      intro s hs hp
      have h1 := (mem_walkUp _ _ _).1 hs
      have h2 := hw s hp
      omega
    rw [e1, List.filterMap_reverse, e2, List.filterMap_append, e3, List.nil_append,
      filterMap_recordAt_filter]

/-! ## What a deleting window removes -/

theorem delP_b_frame (b inb : Bucket) (k : String) {x : String} (hx : x ≠ k) :
    (delP b inb k).1.Get x = b.Get x := by
  unfold delP
  cases inb.Get k with
  | none => rfl
  | some c => exact Bucket.Get_Delete_ne _ hx

theorem delAllP_b_frame : ∀ (keys : List String) (b inb : Bucket) (x : String),
    x ∉ keys → (delAllP keys b inb).1.Get x = b.Get x := by
  intro keys
  induction keys with
  | nil => intro b inb x _; rfl
  | cons k rest ih =>
    intro b inb x hx
    have h1 : x ≠ k := fun e => hx (by simp [e])
    have h2 : x ∉ rest := fun e => hx (List.mem_cons_of_mem _ e)
    show (delAllP rest (delP b inb k).1 (delP b inb k).2).1.Get x = b.Get x
    rw [ih _ _ x h2, delP_b_frame b inb k h1]

/-- Deleting pairwise distinct ordinary keys that all have an entry lowers the count by
their number. -/
theorem count_delAllP : ∀ (keys : List String) (b inb : Bucket), Typed b inb →
    keys.Nodup → (∀ k ∈ keys, Ordinary k ∧ inb.Get k ≠ none) →
    Atoi (((delAllP keys b inb).2.Get recCntKey).getD "0") =
      Atoi ((inb.Get recCntKey).getD "0") - keys.length := by
  intro keys
  induction keys with
  | nil => intro b inb _ _ _; simp [delAllP]
  | cons k rest ih =>
    intro b inb ht hnd hk
    obtain ⟨hk1, hk2⟩ := hk k (List.mem_cons_self _ _)
    cases hc : inb.Get k with
    | none => exact absurd hc hk2
    | some c =>
      obtain ⟨n, _, _, _, hg⟩ := delP_present ht hk1 hc
      have hnd' := List.nodup_cons.1 hnd
      have hrest : ∀ k' ∈ rest, Ordinary k' ∧ (delP b inb k).2.Get k' ≠ none := by
        intro k' hk'
        obtain ⟨ho, hp⟩ := hk k' (List.mem_cons_of_mem _ hk')
        refine ⟨ho, ?_⟩
        have hne : k' ≠ k := fun e => hnd'.1 (e ▸ hk')
        rw [hg]
        simp only [ho.2.2.1, ho.ne_Itoa n, hne, if_false]
        exact hp
      have := ih (delP b inb k).1 (delP b inb k).2 (Typed_delP ht (Or.inl hk1)) hnd'.2 hrest
      show Atoi (((delAllP rest (delP b inb k).1 (delP b inb k).2).2.Get recCntKey).getD
        "0") = _
      rw [this, hg recCntKey]
      simp only [if_true, Option.getD_some, Atoi_Itoa, List.length_cons]
      push_cast
      omega

theorem repairP_cnt (inb : Bucket) (t l : String) :
    (repairP inb t l).Get recCntKey = inb.Get recCntKey := by
  have h1 : recCntKey ≠ recLastIdxKey := by decide
  have h2 : recCntKey ≠ recFirstIdxKey := by decide
  simp [repairP, abidxP, atidxP, Bucket.Get_set, h1, h2]

/-- The keys of the records of pairwise distinct slots are pairwise distinct when no
entry is stale. -/
theorem keys_nodup {p : Partition} (he : Exact p) {ws : List Int} (hws : ws.Nodup) :
    ((ws.filterMap (recordAt p)).map ChunkData.Key).Nodup := by
  induction ws with
  | nil => simp
  | cons s rest ih =>
    have hnd := List.nodup_cons.1 hws
    cases hr : recordAt p s with
    | none =>
      rw [List.filterMap_cons, hr]
      exact ih hnd.2
    | some cd =>
      rw [List.filterMap_cons, hr]
      simp only [List.map_cons, List.nodup_cons]
      refine ⟨?_, ih hnd.2⟩
      intro hm
      obtain ⟨cd', hcd', hkey⟩ := List.mem_map.1 hm
      obtain ⟨s', hs', hr'⟩ := List.mem_filterMap.1 hcd'
      have h1 := he.slotBack _ _ (recordAt_key p s cd hr).1
      have h2 := he.slotBack _ _ (recordAt_key p s' cd' hr').1
      rw [hkey, h1] at h2
      have : s = s' := Itoa_injective (Option.some.inj h2)
      exact hnd.1 (this ▸ hs')

theorem limit_sublist (max : Int) (l : List ChunkData) : (limit max l).Sublist l := by
  unfold limit
  split
  · exact List.Sublist.refl _
  · exact List.take_sublist _ _

/-- The keys a window returns: pairwise distinct ordinary keys that have an entry. -/
theorem window_keys {p : Partition} {F L : Int} (h : WF p F L) (he : Exact p) (max : Int)
    {ws : List Int} (hws : ws.Nodup) :
    ((limit max (ws.filterMap (recordAt p))).map ChunkData.Key).Nodup ∧
    ∀ k ∈ (limit max (ws.filterMap (recordAt p))).map ChunkData.Key,
      Ordinary k ∧ p.inb.Get k ≠ none := by
  constructor
  · exact ((limit_sublist max _).map _).nodup (keys_nodup he hws)
  · intro k hk
    obtain ⟨cd, hcd, rfl⟩ := List.mem_map.1 hk
    obtain ⟨s, _, hr⟩ := List.mem_filterMap.1 ((limit_sublist max _).subset hcd)
    have h1 := (recordAt_key p s cd hr).1
    refine ⟨h.typed.slotVal _ _ h1, ?_⟩
    rw [he.slotBack _ _ h1]
    simp

theorem CutChunkUp_eq {p : Partition} {F L : Int} (h : WF p F L) {max : Int}
    (hmax : 0 ≤ max) (hcap : max ≤ MaxSliceCap) :
    CutChunkUp p max = cutFinish p (Itoa F) (Itoa L) (windowTail p max L) := by
  have hm : ¬ (max < 0 ∨ MaxSliceCap < max) := by omega
  unfold CutChunkUp
  simp only [h.first, h.last, hm, if_false, Atoi_Itoa, chunkUp_window, windowTail]

/-- The partition a deleting window leaves. -/
theorem cutFinish_spec {p : Partition} {F L : Int} (h : WF p F L) (he : Exact p)
    (max : Int) {ws : List Int} (hws : ws.Nodup) :
    ∃ q, cutFinish p (Itoa F) (Itoa L) (limit max (ws.filterMap (recordAt p))) =
        .ok (limit max (ws.filterMap (recordAt p)), q) ∧
      (∀ cd ∈ limit max (ws.filterMap (recordAt p)), q.b.Get cd.Key = none) ∧
      (∀ x, x ∉ (limit max (ws.filterMap (recordAt p))).map ChunkData.Key →
        q.b.Get x = p.b.Get x) ∧
      storedCount q = storedCount p - (limit max (ws.filterMap (recordAt p))).length := by
  obtain ⟨hnd, hkeys⟩ := window_keys h he max hws
  generalize limit max (ws.filterMap (recordAt p)) = chunk at hnd hkeys
  by_cases hc : chunk = []
  · subst hc
    exact ⟨p, rfl, fun cd hcd => by simp at hcd, fun x _ => rfl, by simp⟩
  · refine ⟨_, cutFinish_eq p _ _ hc, ?_, ?_, ?_⟩
    · intro cd hcd
      exact delAllP_b_removed _ h.loose (fun k hk => Or.inl (hkeys k hk).1) cd.Key
        (List.mem_map.2 ⟨cd, hcd, rfl⟩)
    · intro x hx
      exact delAllP_b_frame _ _ _ x hx
    · show Atoi (((repairP _ _ _).Get recCntKey).getD "0") = _
      rw [repairP_cnt, count_delAllP _ _ _ h.typed hnd hkeys]
      simp [storedCount]

/-! ## StoreOnce against a run of Store -/

theorem WF_unique {p : Partition} {F L F' L' : Int} (h : WF p F L) (h' : WF p F' L') :
    F = F' ∧ L = L' := by
  have h1 := h.first
  have h2 := h.last
  rw [h'.first] at h1
  rw [h'.last] at h2
  exact ⟨(Itoa_injective (Option.some.inj h1)).symm, (Itoa_injective (Option.some.inj h2)).symm⟩

theorem storeAll_snoc {p s s1 : Partition} {k v : String} :
    ∀ (l : List (String × String)), storeAll p l = .ok s → Store s k v = .ok s1 →
    storeAll p (l ++ [(k, v)]) = .ok s1 := by
  intro l
  induction l generalizing p with
  | nil =>
    intro h1 h2
    simp only [storeAll, Except.ok.injEq] at h1
    subst h1
    simp [storeAll, h2]
  | cons kv rest ih =>
    intro h1 h2
    obtain ⟨k', v'⟩ := kv
    simp only [storeAll, List.cons_append] at h1 ⊢
    cases hs : Store p k' v' with
    | error e => simp [hs] at h1
    | ok q =>
      simp only [hs] at h1 ⊢
      exact ih h1 h2

theorem storeAll_single_error {p : Partition} {k v : String} {e : Error}
    (h : Store p k v = .error e) : storeAll p [(k, v)] = .error e := by
  simp only [storeAll, h]

/-- On a well-formed partition `StoreOnce` of pairs with ordinary keys that the engine
accepts and the run of `Store` over the same pairs both succeed and leave the same entries; with no pair at all
they agree up to the count entry, which `StoreOnce` writes. -/
theorem storeOnce_vs_storeAll {p : Partition} {F L : Int} (h : WF p F L) :
    ∀ (data : List ChunkData), (∀ kv ∈ data, Ordinary kv.Key) →
    (∀ kv ∈ data, Accepts kv.Key (kv.Value.getD "")) →
    ∃ q s F' L', StoreOnce p data = .ok q ∧ storeAll p (pairsOf data) = .ok s ∧
      WF q F' L' ∧ WF s F' L' ∧ (∀ x, q.b.Get x = s.b.Get x) ∧
      (∀ x, x ≠ recCntKey → q.inb.Get x = s.inb.Get x) ∧
      storedCount q = storedCount s ∧
      (data ≠ [] → q.inb.Get recCntKey = s.inb.Get recCntKey) := by
  intro data
  induction data using List.reverseRecOn with
  | nil =>
    intro _ _
    obtain ⟨q, hq, hwf, hc, hb, hg⟩ := StoreOnce_spec h [] (by simp) (by simp)
    have hwf' : WF q F L := by simpa using hwf
    refine ⟨q, p, F, L, hq, rfl, hwf', h, ?_, ?_, ?_, fun hne => absurd rfl hne⟩
    · intro x
      rw [hb]
      rfl
    · intro x hx
      by_cases hx' : x = recFirstIdxKey
      · subst hx'
        rw [hwf'.first, h.first]
      · rw [hg x hx hx']
        rfl
    · simp [storedCount, hc, Atoi_Itoa]
  | append_singleton data kv ih =>
    intro hk ha
    obtain ⟨q0, s0, F', L', hq0, hs0, hwq0, hws0, hb0, hg0, hc0, _⟩ :=
      ih (fun kv' hkv' => hk kv' (List.mem_append_left _ hkv'))
        (fun kv' hkv' => ha kv' (List.mem_append_left _ hkv'))
    obtain ⟨q0', q1, F0, hq0', hq1, hwq0', _, hb1, hg1⟩ := StoreOnce_snoc h data kv hk ha
    rw [hq0] at hq0'
    cases hq0'
    obtain ⟨hF, hL⟩ := WF_unique hwq0 hwq0'
    subst hF
    subst hL
    have hkv : Ordinary kv.Key := hk kv (by simp)
    obtain ⟨s1, hs1, hsb, hsg, hws1⟩ := Store_spec hws0 hkv (kv.Value.getD "")
      (ha kv (by simp))
    have hwq1 := WF_of_store_entries hwq0 hkv (kv.Value.getD "") hb1 hg1
    have hsame : ∀ x, q1.inb.Get x = s1.inb.Get x := by
      intro x
      rw [hg1, hsg, hc0]
      by_cases h1 : x = recCntKey
      · simp [h1]
      · simp only [h1, if_false, hg0 x h1]
    refine ⟨q1, s1, _, _, hq1, ?_, hwq1, hws1, ?_, fun x _ => hsame x, ?_,
      fun _ => hsame _⟩
    · have : pairsOf (data ++ [kv]) = pairsOf data ++ [(kv.Key, kv.Value.getD "")] := by
        simp [pairsOf]
      rw [this]
      exact storeAll_snoc _ hs0 hs1
    · intro x
      rw [hb1, hsb, Bucket.Get_set, Bucket.Get_set, hb0]
    · simp [storedCount, hsame]

/-! ## Operations that may mention the empty key -/

theorem Plain_iff (k : String) : Plain k ↔ (Ordinary k ∨ k = "") := by
  constructor
  · intro h
    by_cases hk : k = ""
    · exact Or.inr hk
    · exact Or.inl ⟨hk, h⟩
  · rintro (h | h)
    · exact h.2
    · subst h
      decide

/-- Operations without numerals and reserved keys keep a well-formed partition well
formed: with the empty key a store fails and a deletion finds no entry. -/
theorem WF_applyOp_plain {p : Partition} {F L : Int} (h : WF p F L) (op : Op)
    (hop : op.Plain) : ∃ F' L', WF (applyOp p op) F' L' := by
  cases op with
  | Store key data =>
    rcases (Plain_iff key).1 hop with hk | hk
    · exact WF_applyOp h (.Store key data) hk
    · subst hk
      obtain ⟨e, he⟩ := Store_empty_key p data
      exact ⟨F, L, by simpa [applyOp, commit, he] using h⟩
  | StoreOnce data =>
    by_cases he : ∃ kv ∈ data, kv.Key = ""
    · obtain ⟨e, he'⟩ := StoreOnce_error p data he
      exact ⟨F, L, by simpa [applyOp, commit, he'] using h⟩
    · refine WF_applyOp h (.StoreOnce data) ?_
      intro kv hkv
      rcases (Plain_iff kv.Key).1 (hop kv hkv) with hk | hk
      · exact hk
      · exact absurd ⟨kv, hkv, hk⟩ he
  | Fetch key => exact ⟨F, L, by simpa [applyOp, commitR, Fetch] using h⟩
  | Delete key =>
    obtain ⟨F', L', hwf⟩ := WF_del_repair h key ((Plain_iff key).1 hop)
    exact ⟨F', L', by simpa [applyOp, commit, Delete_eq h.first h.last] using hwf⟩
  | DeleteOnce keys =>
    by_cases hk : keys = []
    · subst hk
      exact ⟨F, L, by simpa [applyOp, commit, DeleteOnce] using h⟩
    · obtain ⟨F', L', hwf⟩ := WF_delAll_repair h keys
        (fun k hm => (Plain_iff k).1 (hop k hm))
      exact ⟨F', L', by simpa [applyOp, commit, DeleteOnce_eq h.first h.last hk] using hwf⟩
  | FetchDelete key =>
    obtain ⟨F', L', hwf⟩ := WF_del_repair h key ((Plain_iff key).1 hop)
    exact ⟨F', L', by simpa [applyOp, commitR, FetchDelete_eq h.first h.last] using hwf⟩
  | FetchChunkUp max offset => exact WF_applyOp h (.FetchChunkUp max offset) trivial
  | FetchChunkDown max offset => exact WF_applyOp h (.FetchChunkDown max offset) trivial
  | SliceUp => exact WF_applyOp h .SliceUp trivial
  | SliceDown => exact WF_applyOp h .SliceDown trivial
  | CutChunkUp max => exact WF_applyOp h (.CutChunkUp max) trivial
  | CutChunkDown max => exact WF_applyOp h (.CutChunkDown max) trivial
  | Count => exact WF_applyOp h .Count trivial

theorem applyOp_empty_plain (op : Op) (hop : op.Plain) :
    applyOp Partition.empty op = Partition.empty ∨
      ∃ F L, WF (applyOp Partition.empty op) F L := by
  cases op with
  | Store key data =>
    rcases (Plain_iff key).1 hop with hk | hk
    · exact applyOp_empty (.Store key data) hk
    · subst hk
      obtain ⟨e, he⟩ := Store_empty_key Partition.empty data
      exact Or.inl (by simp [applyOp, commit, he])
  | StoreOnce data =>
    by_cases he : ∃ kv ∈ data, kv.Key = ""
    · obtain ⟨e, he'⟩ := StoreOnce_error Partition.empty data he
      exact Or.inl (by simp [applyOp, commit, he'])
    · refine applyOp_empty (.StoreOnce data) ?_
      intro kv hkv
      rcases (Plain_iff kv.Key).1 (hop kv hkv) with hk | hk
      · exact hk
      · exact absurd ⟨kv, hkv, hk⟩ he
  | Fetch key => left; rfl
  | Delete key => left; rfl
  | DeleteOnce keys =>
    left
    simp only [applyOp, DeleteOnce]
    split <;> rfl
  | FetchChunkUp max offset => left; rfl
  | FetchChunkDown max offset => left; rfl
  | FetchDelete key => left; rfl
  | SliceUp => left; rfl
  | SliceDown => left; rfl
  | CutChunkUp max => left; rfl
  | CutChunkDown max => left; rfl
  | Count => left; rfl

/-- A partition reached without numerals and reserved keys was never written or is well
formed. -/
theorem ReachPlain.wellFormedPlain {p : Partition} (hr : ReachPlain p) :
    p = Partition.empty ∨ ∃ F L, WF p F L := by
  induction hr with
  | refl => exact Or.inl rfl
  | @step q op _ hop ih =>
    rcases ih with he | ⟨F, L, hwf⟩
    · subst he; exact applyOp_empty_plain op hop
    · exact Or.inr (WF_applyOp_plain hwf op hop)

/-! ## Reading and draining a partition that holds a list of pairs -/

/-- The records of the slots of a chain are its pairs. -/
theorem chain_records {p : Partition} : ∀ (l : List (String × String)) (n : Int),
    Chain p l n →
    (walkUp l.length n).filterMap (recordAt p) = l.map fun kv => ⟨kv.1, some kv.2⟩ := by
  intro l
  induction l with
  | nil => intro n _; rfl
  | cons kv rest ih =>
    intro n hc
    obtain ⟨c1, c2, c3⟩ := hc
    have hr : recordAt p n = some ⟨kv.1, some kv.2⟩ := by simp [recordAt, c1, c2]
    simp only [List.length_cons, walkUp, List.filterMap_cons, hr, List.map_cons]
    rw [ih (n + 1) c3]

/-- The count of a partition that holds `l` is the length of `l`. -/
theorem Holds.count {p : Partition} {l : List (String × String)} {F : Int}
    (h : Holds p l F) : storedCount p = l.length := by
  obtain ⟨S, hS, hc⟩ := storedCount_of_typed h.wf.typed
  have hS' : S = Finset.Ico F (F + l.length) := by
    ext m
    rw [hS, Finset.mem_Ico]
    constructor
    · exact h.window m
    · intro hm
      obtain ⟨kv, _, hg⟩ := Chain_slot l F m h.chain hm.1 hm.2
      simp [Populated, hg]
  rw [hc, hS', Int.card_Ico]
  have : (F + (l.length : Int) - F).toNat = l.length := by omega
  rw [this]

/-- `FetchChunkDown(0,0)` on a partition that holds `l` returns the pairs of `l`. -/
theorem Holds.fetchDown {p : Partition} {l : List (String × String)} {F : Int}
    (h : Holds p l F) :
    FetchChunkDown p 0 0 = .ok (l.map fun kv => ⟨kv.1, some kv.2⟩, p) := by
  rw [FetchChunkDown_window h.wf.first h.wf.last 0 0 (le_refl _) (by decide) (Or.inl rfl)]
  by_cases hl : l = []
  · subst hl
    have h0 : ∀ s ∈ walkUp 1 0, ¬ Populated p.inb s := by
      intro s _ hs
      have := h.window s hs
      simp at this
      omega
    have := filterMap_recordAt_nil p _ h0
    simp [windowHead, limit, Atoi_Itoa, this]
  · have hpos := h.pos
    have hF : ¬ (0 : Int) > F := by omega
    have hn : (F + (l.length : Int) - 1 + 1 - F).toNat = l.length := by omega
    simp only [hl, if_false, Atoi_Itoa, hF, windowHead, limit, if_true, hn]
    rw [chain_records l F h.chain]

/-- Draining from the head returns the values in order and leaves a partition that holds
nothing. -/
theorem drainDown_holds_nothing : ∀ (l : List (String × String)) (p : Partition) (F : Int),
    Holds p l F → ∃ q F', drainDown l.length p = .ok (l.map (fun kv => some kv.2), q) ∧
      Holds q [] F' := by
  intro l
  induction l with
  | nil => intro p F h; exact ⟨p, F, rfl, h⟩
  | cons kv rest ih =>
    intro p F h
    obtain ⟨k, v⟩ := kv
    obtain ⟨p', hs, h'⟩ := Holds_sliceDown h
    obtain ⟨q, F', hq, hq'⟩ := ih p' _ h'
    exact ⟨q, F', by simp [drainDown, hs, hq], hq'⟩

/-! ## The two maps when no key is stored twice -/

/-- Without a second `Store` of a key that has a record the two maps agree and every
record has exactly one slot. -/
theorem maps_agree_when_fresh (p : Partition) (hr : ReachFresh p) :
    (∀ s k, p.inb.Get (Itoa s) = some k → p.inb.Get k = some (Itoa s)) ∧
    (∀ s k, Ordinary k → p.inb.Get k = some (Itoa s) → p.inb.Get (Itoa s) = some k) ∧
    (∀ k, p.b.Get k ≠ none → ∃! s, p.inb.Get (Itoa s) = some k) := by
  rcases hr.wellFormedFresh with he | ⟨F, L, hwf, hex⟩
  · subst he
    exact ⟨fun s k h => by simp [Partition.empty] at h,
      fun s k _ h => by simp [Partition.empty] at h,
      fun k h => absurd rfl h⟩
  · refine ⟨hex.slotBack, ?_, ?_⟩
    · intro s k hk h
      obtain ⟨n, hn, hb⟩ := hwf.typed.keyBack k _ hk h
      rw [Itoa_injective hn]
      exact hb
    · intro k hk
      cases hb : p.b.Get k with
      | none => exact absurd hb hk
      | some v =>
        have hord := hwf.typed.bKeys k v hb
        cases hi : p.inb.Get k with
        | none => exact absurd hi (hwf.typed.bIdx k v hb)
        | some c =>
          obtain ⟨n, hn, hback⟩ := hwf.typed.keyBack k c hord hi
          refine ⟨n, hback, ?_⟩
          intro s hs
          have := hex.slotBack s k hs
          rw [hi, hn] at this
          exact (Itoa_injective (Option.some.inj this)).symm

/-- Without a second `Store` of a key that has a record the boundary pointers are both
zero exactly when no record is left. -/
theorem pointers_reflect_emptiness_when_fresh (p : Partition) (hr : ReachFresh p) :
    firstSlot p ≤ lastSlot p ∧
    ((firstSlot p = 0 ∧ lastSlot p = 0) ↔ ∀ k, p.b.Get k = none) := by
  rcases hr.wellFormedFresh with he | ⟨F, L, hwf, hex⟩
  · subst he
    exact ⟨by decide, fun _ _ => rfl, fun _ => ⟨by decide, by decide⟩⟩
  · have hF : firstSlot p = F := by simp [firstSlot, hwf.first, Atoi_Itoa]
    have hL : lastSlot p = L := by simp [lastSlot, hwf.last, Atoi_Itoa]
    rw [hF, hL]
    rcases hwf.tight with ⟨h1, h2, h0⟩ | ⟨h1, h2, hpF, _, _⟩
    · refine ⟨by omega, fun _ => ?_, fun _ => ⟨h1, h2⟩⟩
      intro k
      cases hb : p.b.Get k with
      | none => rfl
      | some v =>
        have hord := hwf.typed.bKeys k v hb
        cases hi : p.inb.Get k with
        | none => exact absurd hi (hwf.typed.bIdx k v hb)
        | some c =>
          obtain ⟨n, _, hback⟩ := hwf.typed.keyBack k c hord hi
          exact absurd (by simp [Populated, hback]) (h0 n)
    · refine ⟨h2, fun h => by omega, fun hb => ?_⟩
      unfold Populated at hpF
      cases hk : p.inb.Get (Itoa F) with
      | none => exact absurd hk hpF
      | some k =>
        have h3 := hex.slotBack F k hk
        exact absurd (hb k) (hwf.typed.idxB k _ (hwf.typed.slotVal F k hk) h3)

/-! # The claims -/

set_option maxRecDepth 100000

/-- C1, as stated, fails: with the distinct keys `1` and `2` (slot numerals) the first
`SliceDown` after `Store("1","x")`, `Store("2","y")` returns `y`, not `x`. -/
theorem drain_order_fails_for_numeral_keys :
    (do
      let p ← storeAll Partition.empty [("1", "x"), ("2", "y")]
      let (d, _) ← SliceDown p
      pure d) = Except.ok (some "y") := by
  decide

/-- C1, amended: for every list of pairs with pairwise distinct ordinary keys of at most
`MaxKeySize` bytes and values of at most `MaxValueSize` bytes, the stores on a
never-written partition succeed, after them `n` successive `SliceDown` calls return the
values in insertion order, and on the same partition `n` successive `SliceUp` calls return
them in reverse order. -/
theorem drain_order (kvs : List (String × String)) (hk : ∀ kv ∈ kvs, Ordinary kv.1)
    (hs : ∀ kv ∈ kvs, Storable kv.1 kv.2) (hnd : (kvs.map Prod.fst).Nodup) :
    ∃ p, storeAll Partition.empty kvs = .ok p ∧
      (∃ q, drainDown kvs.length p = .ok (kvs.map (fun kv => some kv.2), q)) ∧
      (∃ q, drainUp kvs.length p = .ok (kvs.reverse.map (fun kv => some kv.2), q)) := by
  cases kvs with
  | nil => exact ⟨Partition.empty, rfl, ⟨_, rfl⟩, ⟨_, rfl⟩⟩
  | cons kv rest =>
    obtain ⟨q, F', hq, hq'⟩ := storeAll_holds (kv :: rest) [] _ 1 Holds_initP_empty hk
      (fun x hx => (hs x hx).accepts (hk x hx).1) hnd (by simp)
    have hinit : storeAll (initP Partition.empty) (kv :: rest) =
        storeAll Partition.empty (kv :: rest) := by
      obtain ⟨k, v⟩ := kv
      simp only [storeAll, Store_initP]
    rw [hinit] at hq
    simp only [List.nil_append] at hq'
    exact ⟨q, hq, drainDown_holds _ q F' hq', drainUp_holds _ q F' hq'⟩

/-- C1, amended, at the pairs `(a,1)`, `(b,2)`. -/
theorem drain_order_witness :
    ∃ p, storeAll Partition.empty [("a", "1"), ("b", "2")] = .ok p ∧
      (∃ q, drainDown [("a", "1"), ("b", "2")].length p =
        .ok ([("a", "1"), ("b", "2")].map (fun kv => some kv.2), q)) ∧
      (∃ q, drainUp [("a", "1"), ("b", "2")].length p =
        .ok ([("a", "1"), ("b", "2")].reverse.map (fun kv => some kv.2), q)) :=
  drain_order [("a", "1"), ("b", "2")] (by decide) (by decide) (by decide)

/-- C2 (the code misses it): `Store("k","v1")` then `Store("k","v2")` on a never-written
partition.  After the first call `k` has slot 1, the last index is 1 and the count is 1;
the second call gives `k` the new slot 2, moves the last index to 2 and the count to 2,
and leaves the entry of slot 1 pointing to `k`.  Only `Fetch` behaves as an update. -/
theorem upsert_takes_new_slot :
    ((storeAll Partition.empty [("k", "v1")]).map fun p =>
      (p.inb.Get "k", lastSlot p, (Count p).map Prod.fst)) =
        .ok (some "1", 1, .ok 1) ∧
    ((storeAll Partition.empty [("k", "v1"), ("k", "v2")]).map fun p =>
      (p.inb.Get "k", lastSlot p, (Count p).map Prod.fst)) =
        .ok (some "2", 2, .ok 2) ∧
    ((storeAll Partition.empty [("k", "v1"), ("k", "v2")]).map fun p =>
      (p.inb.Get "1", p.inb.Get "2", (Fetch p "k").map Prod.fst)) =
        .ok (some "k", some "k", .ok (some "v2")) := by
  decide

/-- C3 (the code misses it): `Count` is not the number of records.  After
`Store("k","v1")` and `Store("k","v2")` on a never-written partition the record bucket
holds the one record of `k` and `Count` returns `2`; after `Store("a","1")` and
`Delete("1")` (the numeral of the slot of `a`, a key that was never stored) the record of
`a` is still there, `Fetch("a")` returns its value, and `Count` returns `0`. -/
theorem count_differs_from_number_of_records :
    ((storeAll Partition.empty [("k", "v1"), ("k", "v2")]).map fun p =>
      ((Count p).map Prod.fst, p.b, (Fetch p "k").map Prod.fst)) =
      (.ok (.ok 2, [("k", "v2")], .ok (some "v2")) :
        Except Error (Except Error Int × Bucket × Except Error (Option String))) ∧
    (((storeAll Partition.empty [("a", "1")]).bind fun p => Delete p "1").map fun p =>
      ((Count p).map Prod.fst, p.b, (Fetch p "a").map Prod.fst)) =
      (.ok (.ok 0, [("a", "1")], .ok (some "1")) :
        Except Error (Except Error Int × Bucket × Except Error (Option String))) :=
  ⟨by decide, by decide⟩

/-- Where the count is right: in every partition reached from a never-written one by
operations with ordinary keys that never store a key that has a record, `Count` returns
the number of keys for which `Fetch` returns a value. -/
theorem count_is_number_of_records (p : Partition) (hr : ReachFresh p) :
    ∃ K : Finset String, (∀ k, k ∈ K ↔ ∃ v, Fetch p k = .ok (some v, p)) ∧
      Count p = .ok ((K.card : Int), p) := by
  have hfetch : ∀ k, (∃ v, Fetch p k = .ok (some v, p)) ↔ p.b.Get k ≠ none := by
    intro k
    simp only [Fetch, Except.ok.injEq, Prod.mk.injEq, and_true]
    cases p.b.Get k <;> simp
  rcases hr.wellFormedFresh with he | ⟨F, L, _, hex⟩
  · subst he
    exact ⟨∅, fun k => by rw [hfetch]; simp [Partition.empty], by decide⟩
  · obtain ⟨K, hK, hc⟩ := hex.cntKeys
    refine ⟨K, fun k => by rw [hfetch, hK], ?_⟩
    simp only [Count, storedCount] at hc ⊢
    rw [hc]

/-- The count at the partition left by `Store("a","1")`. -/
theorem count_is_number_of_records_witness :
    ∃ K : Finset String,
      (∀ k, k ∈ K ↔ ∃ v, Fetch (applyOp Partition.empty (.Store "a" "1")) k =
        .ok (some v, applyOp Partition.empty (.Store "a" "1"))) ∧
      Count (applyOp Partition.empty (.Store "a" "1")) =
        .ok ((K.card : Int), applyOp Partition.empty (.Store "a" "1")) :=
  count_is_number_of_records (applyOp Partition.empty (.Store "a" "1"))
    (ReachFrom.step ReachFrom.refl
      ⟨show Ordinary "a" by decide, show Partition.empty.b.Get "a" = none by decide⟩)

/-- C4: on a never-written partition, after `Store` of `a`,`b`,`c` with values
`1`,`2`,`3`, `SliceDown` returns `1`, the following `SliceUp` returns `3`, then `Count`
is `1` and `Fetch` of `b` is `2`, all without error. -/
theorem scenario_abc :
    (do
      let p ← Store Partition.empty "a" "1"
      let p ← Store p "b" "2"
      let p ← Store p "c" "3"
      let (d1, p) ← SliceDown p
      let (d2, p) ← SliceUp p
      let (n, p) ← Count p
      let (v, _) ← Fetch p "b"
      pure (d1, d2, n, v)) =
    Except.ok (some "1", some "3", 1, some "2") := by
  decide

/-- C5 (the code misses it): a pop on a partition without records is an error.  On a
never-written partition, and on one drained by a pop (first and last index both `0`),
`SliceUp` and `SliceDown` return `ErrCorruptedInternalBucket` instead of a `nil` value
with a `nil` error. -/
theorem pop_on_empty_is_error :
    SliceUp Partition.empty = .error .ErrCorruptedInternalBucket ∧
    SliceDown Partition.empty = .error .ErrCorruptedInternalBucket ∧
    (do
      let p ← Store Partition.empty "a" "1"
      let (v, p) ← SliceDown p
      pure (v, p.inb.Get recFirstIdxKey, p.inb.Get recLastIdxKey)) =
        Except.ok (some "1", some "0", some "0") ∧
    (do
      let p ← Store Partition.empty "a" "1"
      let (_, p) ← SliceDown p
      SliceDown p) = .error .ErrCorruptedInternalBucket ∧
    (do
      let p ← Store Partition.empty "a" "1"
      let (_, p) ← SliceDown p
      SliceUp p) = .error .ErrCorruptedInternalBucket := by
  decide

/-- C6, as stated, fails: on a never-written partition `Delete` of a key that was never
inserted returns `ErrCorruptedInternalBucket`. -/
theorem delete_never_written_errors :
    Fetch Partition.empty "k" = .ok (none, Partition.empty) ∧
    Delete Partition.empty "k" = .error .ErrCorruptedInternalBucket := by
  decide

/-- C6, amended: in every partition reached with ordinary keys whose boundary entries
exist, `Delete` of an ordinary key that has no record returns no error and `Count` is
the same before and after. -/
theorem delete_absent_keeps_count (p : Partition) (k : String) (hr : Reach p)
    (hi : Initialised p) (hk : Ordinary k) (ha : Fetch p k = .ok (none, p)) :
    ∃ q n, Delete p k = .ok q ∧ Count p = .ok (n, p) ∧ Count q = .ok (n, q) := by
  rcases hr.wellFormed with he | ⟨F, L, hwf⟩
  · subst he; exact absurd rfl hi.1
  · have hb : p.b.Get k = none := by
      simpa [Fetch] using ha
    have hinb : p.inb.Get k = none := by
      cases hc : p.inb.Get k with
      | none => rfl
      | some v => exact absurd hb (hwf.typed.idxB k v hk hc)
    exact ⟨p, storedCount p, Delete_absent_of_WF hwf hinb, rfl, rfl⟩

/-- C6, amended, at the partition left by `Store("a","1")` and the absent key `zz`. -/
theorem delete_absent_keeps_count_witness :
    Initialised (applyOp Partition.empty (.Store "a" "1")) ∧ Ordinary "zz" ∧
    ∃ q n, Delete (applyOp Partition.empty (.Store "a" "1")) "zz" = .ok q ∧
      Count (applyOp Partition.empty (.Store "a" "1")) =
        .ok (n, applyOp Partition.empty (.Store "a" "1")) ∧
      Count q = .ok (n, q) :=
  ⟨by decide, by decide,
    delete_absent_keeps_count (applyOp Partition.empty (.Store "a" "1")) "zz"
      (ReachFrom.step ReachFrom.refl (show Ordinary "a" by decide)) (by decide) (by decide)
      (by decide)⟩

/-- C7: in every partition reached with ordinary keys after a successful `Store`,
`Delete` of a key without key→slot entry (an ordinary key or any other) commits the very
same partition
(records, slot→key and key→slot entries, first index, last index and count), so a
second `Delete` of the key changes nothing either. -/
theorem delete_unknown_is_noop (p : Partition) (k : String) (hr : ReachStored p)
    (ha : p.inb.Get k = none) :
    Delete p k = .ok p ∧ ((Delete p k).bind fun q => Delete q k) = Delete p k := by
  obtain ⟨F, L, hwf⟩ := hr.wellFormedStored
  have h := Delete_absent_of_WF hwf ha
  exact ⟨h, by simp [h, Except.bind]⟩

/-- C7 at the partition left by `Store("a","1")` and the unknown key `zz`. -/
theorem delete_unknown_is_noop_witness :
    (applyOp Partition.empty (.Store "a" "1")).inb.Get "zz" = none ∧
    Delete (applyOp Partition.empty (.Store "a" "1")) "zz" =
      .ok (applyOp Partition.empty (.Store "a" "1")) ∧
    ((Delete (applyOp Partition.empty (.Store "a" "1")) "zz").bind fun q => Delete q "zz") =
      Delete (applyOp Partition.empty (.Store "a" "1")) "zz" :=
  ⟨by decide,
    delete_unknown_is_noop (applyOp Partition.empty (.Store "a" "1")) "zz"
      ⟨Partition.empty, "a", "1", _, ReachFrom.refl, by decide, by decide, ReachFrom.refl⟩
      (by decide)⟩

/-- C8: on a partition reached with ordinary keys that is empty (first and last index
read `0`: never written, or drained), take a non-empty list of pairs whose keys are
pairwise distinct, no decimal integer numerals and no reserved bookkeeping strings.  After
`StoreOnce` of the list and `DeleteOnce` of exactly its keys `Count` is `0`, the first
and the last index are `0` and `FetchChunkUp(0,0)` returns no record.  When no key is
empty, every key has at most `MaxKeySize` bytes and every value at most `MaxValueSize`
bytes, both operations succeed, the two boundary entries hold `0` and `FetchChunkUp(0,0)`
succeeds with the empty list (a pair the engine refuses makes `StoreOnce` fail and nothing
is stored). -/
theorem storeOnce_deleteOnce_round_trip (p : Partition) (data : List ChunkData)
    (hr : Reach p) (hF : firstSlot p = 0) (hL : lastSlot p = 0) (hne : data ≠ [])
    (hnd : (data.map ChunkData.Key).Nodup)
    (hk : ∀ kv ∈ data, ¬ IsNumeral kv.Key ∧ kv.Key ≠ recCntKey ∧
      kv.Key ≠ recFirstIdxKey ∧ kv.Key ≠ recLastIdxKey) :
    ∃ q r, q = commit p (StoreOnce p data) ∧
      r = commit q (DeleteOnce q (data.map ChunkData.Key)) ∧
      Count r = .ok (0, r) ∧ firstSlot r = 0 ∧ lastSlot r = 0 ∧
      (∀ chunk r', FetchChunkUp r 0 0 = .ok (chunk, r') → chunk = []) ∧
      ((∀ kv ∈ data, kv.Key ≠ "" ∧ Storable kv.Key (kv.Value.getD "")) →
        StoreOnce p data = .ok q ∧ DeleteOnce q (data.map ChunkData.Key) = .ok r ∧
        r.inb.Get recFirstIdxKey = some (Itoa 0) ∧
        r.inb.Get recLastIdxKey = some (Itoa 0) ∧
        FetchChunkUp r 0 0 = .ok ([], r)) := by
  have hzero : ∀ r : Partition, r.inb.Get recFirstIdxKey = some (Itoa 0) →
      r.inb.Get recLastIdxKey = some (Itoa 0) → firstSlot r = 0 ∧ lastSlot r = 0 := by
    intro r h1 h2
    simp [firstSlot, lastSlot, h1, h2, Atoi_Itoa]
  by_cases hall : ∀ kv ∈ data, Accepts kv.Key (kv.Value.getD "")
  · obtain ⟨q, r, hq, hr', hc, h1, h2, hf⟩ := round_trip_ok p data hr hF hL hne hnd
      (fun kv hm => ⟨(hall kv hm).1, hk kv hm⟩) hall
    refine ⟨q, r, by simp [hq, commit], by simp [hr', commit], hc, (hzero r h1 h2).1,
      (hzero r h1 h2).2, ?_, fun _ => ⟨hq, hr', h1, h2, hf⟩⟩
    intro chunk r' hch
    rw [hf] at hch
    cases hch
    rfl
  · have hex : ∃ kv ∈ data, ¬ Accepts kv.Key (kv.Value.getD "") := by
      by_contra hcon
      exact hall (fun kv hm => by
        by_contra e
        exact hcon ⟨kv, hm, e⟩)
    have hbound : ¬ ∀ kv ∈ data, kv.Key ≠ "" ∧ Storable kv.Key (kv.Value.getD "") :=
      fun h => hall (fun kv hm => (h kv hm).2.accepts (h kv hm).1)
    obtain ⟨e, he⟩ := StoreOnce_fails p data hex
    have hq : commit p (StoreOnce p data) = p := by simp [he, commit]
    have hkeys : data.map ChunkData.Key ≠ [] := by simpa using hne
    have hlen : (data.map ChunkData.Key).length ≠ 0 := by simpa using hne
    rcases hr.wellFormed with hemp | ⟨F, L, hwf⟩
    · subst hemp
      have hd : DeleteOnce Partition.empty (data.map ChunkData.Key) =
          .error .ErrCorruptedInternalBucket := by
        simp only [DeleteOnce, hlen, if_false]
        rfl
      refine ⟨Partition.empty, Partition.empty, hq.symm, by simp [hd, commit], by decide,
        by decide, by decide, ?_, fun h => absurd h hbound⟩
      intro chunk r' hch
      have : FetchChunkUp Partition.empty 0 0 = .error .ErrCorruptedInternalBucket := rfl
      rw [this] at hch
      cases hch
    · have h1 : F = 0 := by simpa [firstSlot, hwf.first, Atoi_Itoa] using hF
      have h2 : L = 0 := by simpa [lastSlot, hwf.last, Atoi_Itoa] using hL
      subst h1; subst h2
      obtain ⟨hex0, hb0⟩ := exact_of_zero_window hwf
      have hord : ∀ k ∈ data.map ChunkData.Key, Ordinary k ∨ k = "" := by
        intro k hm
        obtain ⟨kv, hkv, rfl⟩ := List.mem_map.1 hm
        by_cases hke : kv.Key = ""
        · exact Or.inr hke
        · exact Or.inl ⟨hke, hk kv hkv⟩
      have hdel := DeleteOnce_eq hwf.first hwf.last hkeys
      obtain ⟨F', L', hwfr⟩ := WF_delAll_repair hwf (data.map ChunkData.Key) hord
      have hexr := Exact_delAll_repair hwf hex0 (data.map ChunkData.Key) hord
      have hbr : ∀ x, (delAllP (data.map ChunkData.Key) p.b p.inb).1.Get x = none := by
        intro x
        cases hg : (delAllP (data.map ChunkData.Key) p.b p.inb).1.Get x with
        | none => rfl
        | some v =>
          have := delAllP_b_sub _ _ _ x v hg
          rw [hb0] at this
          cases this
      obtain ⟨hc, g1, g2, hf⟩ := drained_results hwfr hexr hbr
      refine ⟨p, _, hq.symm, by simp [hdel, commit], hc, (hzero _ g1 g2).1,
        (hzero _ g1 g2).2, ?_, fun h => absurd h hbound⟩
      intro chunk r' hch
      rw [hf] at hch
      cases hch
      rfl

/-- C8 at a never-written partition and the pairs `(a,1)`, `(b,2)`. -/
theorem storeOnce_deleteOnce_round_trip_witness :
    ∃ q r, q = commit Partition.empty
        (StoreOnce Partition.empty [⟨"a", some "1"⟩, ⟨"b", some "2"⟩]) ∧
      r = commit q (DeleteOnce q ([⟨"a", some "1"⟩, ⟨"b", some "2"⟩].map ChunkData.Key)) ∧
      Count r = .ok (0, r) ∧ firstSlot r = 0 ∧ lastSlot r = 0 ∧
      (∀ chunk r', FetchChunkUp r 0 0 = .ok (chunk, r') → chunk = []) ∧
      ((∀ kv ∈ [(⟨"a", some "1"⟩ : ChunkData), ⟨"b", some "2"⟩],
          kv.Key ≠ "" ∧ Storable kv.Key (kv.Value.getD "")) →
        StoreOnce Partition.empty [⟨"a", some "1"⟩, ⟨"b", some "2"⟩] = .ok q ∧
        DeleteOnce q ([⟨"a", some "1"⟩, ⟨"b", some "2"⟩].map ChunkData.Key) = .ok r ∧
        r.inb.Get recFirstIdxKey = some (Itoa 0) ∧
        r.inb.Get recLastIdxKey = some (Itoa 0) ∧
        FetchChunkUp r 0 0 = .ok ([], r)) :=
  storeOnce_deleteOnce_round_trip Partition.empty [⟨"a", some "1"⟩, ⟨"b", some "2"⟩]
    ReachFrom.refl (by decide) (by decide) (by decide) (by decide) (by decide)

/-- C9, as stated, fails: slot 1 is assigned to `a`, and after `a` is popped the next
`Store` assigns slot 1 to `b`. -/
theorem slot_reused_after_drain :
    (do
      let p1 ← Store Partition.empty "a" "1"
      let (_, p2) ← SliceDown p1
      let p3 ← Store p2 "b" "2"
      pure (p1.inb.Get "1", p2.inb.Get "1", p3.inb.Get "1")) =
    Except.ok (some "a", none, some "b") := by
  decide

/-- C9, amended: in every partition reached with ordinary keys, no operation with
ordinary keys changes the key of a populated slot (an entry can only be removed), and
`Store` of a key of at most `MaxKeySize` bytes with a value of at most `MaxValueSize`
bytes hands out the slot after the stored last index, which is above every populated
slot. -/
theorem populated_slot_not_reassigned (p : Partition) (op : Op) (hr : Reach p)
    (hop : op.Ordinary) :
    (∀ n k k', p.inb.Get (Itoa n) = some k →
      (applyOp p op).inb.Get (Itoa n) = some k' → k' = k) ∧
    (∀ key data, op = .Store key data → Storable key data →
      (applyOp p op).inb.Get (Itoa (lastSlot p + 1)) = some key ∧
      (applyOp p op).inb.Get key = some (Itoa (lastSlot p + 1)) ∧
      ∀ n, Populated p.inb n → n ≤ lastSlot p) := by
  have hstore : ∀ {q : Partition} {F L : Int}, WF q F L → ∀ key data, Ordinary key →
      Accepts key data → ∀ q', Store q key data = .ok q' →
      q'.inb.Get (Itoa (L + 1)) = some key ∧ q'.inb.Get key = some (Itoa (L + 1)) := by
    intro q F L hq key data hkey ha q' hq'
    obtain ⟨p', h1, _, h3, _⟩ := Store_spec hq hkey data ha
    rw [hq'] at h1
    cases h1
    constructor
    · rw [h3]
      simp [Ne.symm (recCntKey_ne_Itoa _), Ne.symm (recFirstIdxKey_ne_Itoa _),
        Ne.symm (recLastIdxKey_ne_Itoa _), Ne.symm (Ordinary.ne_Itoa hkey _)]
    · rw [h3]
      simp [hkey.2.2.1, hkey.2.2.2.1, hkey.2.2.2.2]
  rcases hr.wellFormed with he | ⟨F, L, hwf⟩
  · subst he
    refine ⟨fun n k k' hn _ => by simp [Partition.empty] at hn, ?_⟩
    intro key data hop' hst
    subst hop'
    have ha : Accepts key data := hst.accepts hop.1
    obtain ⟨p', h1, _⟩ := Store_spec WF_initP_empty hop data ha
    have h2 := hstore WF_initP_empty key data hop ha p' h1
    rw [Store_initP] at h1
    have hl : lastSlot Partition.empty = 0 := by decide
    simp only [applyOp, commit, h1, hl]
    exact ⟨h2.1, h2.2, fun n hn => by simp [Populated, Partition.empty] at hn⟩
  · refine ⟨fun n k k' => slot_kept_of_WF hwf op hop n k k', ?_⟩
    intro key data hop' hst
    subst hop'
    have ha : Accepts key data := hst.accepts hop.1
    obtain ⟨p', h1, _⟩ := Store_spec hwf hop data ha
    have h2 := hstore hwf key data hop ha p' h1
    have hl : lastSlot p = L := by simp [lastSlot, hwf.last, Atoi_Itoa]
    simp only [applyOp, commit, h1, hl]
    exact ⟨h2.1, h2.2, fun n hn => (hwf.tight.within n hn).2.2⟩

/-- C9, amended, at the partition left by `Store("a","1")` and the operation
`Store("b","2")`. -/
theorem populated_slot_not_reassigned_witness :
    (∀ n k k', (applyOp Partition.empty (.Store "a" "1")).inb.Get (Itoa n) = some k →
      (applyOp (applyOp Partition.empty (.Store "a" "1")) (.Store "b" "2")).inb.Get
        (Itoa n) = some k' → k' = k) ∧
    (∀ key data, Op.Store "b" "2" = .Store key data → Storable key data →
      (applyOp (applyOp Partition.empty (.Store "a" "1")) (.Store "b" "2")).inb.Get
        (Itoa (lastSlot (applyOp Partition.empty (.Store "a" "1")) + 1)) = some key ∧
      (applyOp (applyOp Partition.empty (.Store "a" "1")) (.Store "b" "2")).inb.Get key =
        some (Itoa (lastSlot (applyOp Partition.empty (.Store "a" "1")) + 1)) ∧
      ∀ n, Populated (applyOp Partition.empty (.Store "a" "1")).inb n →
        n ≤ lastSlot (applyOp Partition.empty (.Store "a" "1"))) :=
  populated_slot_not_reassigned (applyOp Partition.empty (.Store "a" "1")) (.Store "b" "2")
    (ReachFrom.step ReachFrom.refl (show Ordinary "a" by decide))
    (show Ordinary "b" by decide)

/-- C10 (the code misses it): `CutChunkDown` returns a chunk for every slot it visits,
populated or not.  On a drained partition `CutChunkDown(50)` returns one chunk with an
empty key and a `nil` value where `FetchChunkDown(50,0)` returns nothing; after `Store`
of `a`,`b`,`c` and `Delete` of `b`, `CutChunkDown(0)` returns three chunks where
`FetchChunkDown(0,0)` returns the two records. -/
theorem cutChunkDown_returns_unpopulated_slots :
    (do
      let p ← Store Partition.empty "a" "1"
      let (_, p) ← SliceDown p
      let (f, _) ← FetchChunkDown p 50 0
      let (c, _) ← CutChunkDown p 50
      pure (f, c)) = Except.ok ([], [⟨"", none⟩]) ∧
    (do
      let p ← Store Partition.empty "a" "1"
      let p ← Store p "b" "2"
      let p ← Store p "c" "3"
      let p ← Delete p "b"
      let (f, _) ← FetchChunkDown p 0 0
      let (c, _) ← CutChunkDown p 0
      pure (f, c)) =
    Except.ok ([⟨"a", some "1"⟩, ⟨"c", some "3"⟩],
      [⟨"a", some "1"⟩, ⟨"", none⟩, ⟨"c", some "3"⟩]) := by
  decide

/-- C11, as stated, fails: `CutChunkUp` allocates room for `max` records before it
collects, `FetchChunkUp` room for as many records as the last index.  After
`Store("a","1")`, `CutChunkUp` with `max = MaxSliceCap + 1` panics in `make` and deletes
nothing, where `FetchChunkUp` with that `max` and offset `0` returns the record of `a`. -/
theorem cutChunkUp_panics_on_large_max :
    CutChunkUp (applyOp Partition.empty (.Store "a" "1")) (MaxSliceCap + 1) =
      .error .PanicMakesliceCap ∧
    FetchChunkUp (applyOp Partition.empty (.Store "a" "1")) (MaxSliceCap + 1) 0 =
      .ok ([⟨"a", some "1"⟩], applyOp Partition.empty (.Store "a" "1")) := by
  decide

/-- C11, amended: in every state reached by operations with ordinary keys that never store
a key that has a record, and for every `max` from `0` to `MaxSliceCap`, `CutChunkUp(max)`
answers as `FetchChunkUp(max,0)` does (the same list, or the same error on a
never-written partition); on an initialised partition both succeed, and after `CutChunkUp`
no returned key has a record, the record of every other key is unchanged and the count is
lower by the number of records returned. -/
theorem cutChunkUp_collects_then_deletes (p : Partition) (max : Int) (hr : ReachFresh p)
    (hmax : 0 ≤ max) (hcap : max ≤ MaxSliceCap) :
    (CutChunkUp p max).map Prod.fst = (FetchChunkUp p max 0).map Prod.fst ∧
    (Initialised p → ∃ chunk q, CutChunkUp p max = .ok (chunk, q) ∧
      FetchChunkUp p max 0 = .ok (chunk, p) ∧
      (∀ cd ∈ chunk, Fetch q cd.Key = .ok (none, q)) ∧
      (∀ x, x ∉ chunk.map ChunkData.Key → (Fetch q x).map Prod.fst = .ok (p.b.Get x)) ∧
      Count q = .ok (storedCount p - chunk.length, q)) := by
  rcases hr.wellFormedFresh with he | ⟨F, L, hwf, hex⟩
  · subst he
    exact ⟨rfl, fun hi => absurd hi (by decide)⟩
  · have hL : 0 ≤ L := by
      rcases hwf.tight with ⟨_, h2, _⟩ | ⟨h1, h2, _⟩ <;> omega
    have hfetch : FetchChunkUp p max 0 = .ok (windowTail p max L, p) := by
      rw [FetchChunkUp_window hwf.last max 0 (le_refl _) (by rw [Atoi_Itoa]; exact hL)
        (Or.inl rfl)]
      simp [Atoi_Itoa, hL]
    obtain ⟨q, hq, h1, h2, h3⟩ := cutFinish_spec hwf hex max
      ((walkDown_pairwise (L + 1).toNat L).imp fun hlt => ne_of_gt hlt)
    have hcut : CutChunkUp p max = .ok (windowTail p max L, q) := by
      rw [CutChunkUp_eq hwf hmax hcap]
      exact hq
    refine ⟨by rw [hcut, hfetch]; rfl, fun _ => ⟨_, q, hcut, hfetch, ?_, ?_, ?_⟩⟩
    · intro cd hcd
      simp [Fetch, h1 cd hcd]
    · intro x hx
      simp [Fetch, h2 x hx, Except.map]
    · show Except.ok (storedCount q, q) = _
      rw [h3]
      rfl

/-- C11, amended, at the partition left by `Store` of `a`, `b`, with `max = 1`: `CutChunkUp(1)`
returns the record of `b`. -/
theorem cutChunkUp_collects_then_deletes_witness :
    ((CutChunkUp (applyOp (applyOp Partition.empty (.Store "a" "1")) (.Store "b" "2"))
      1).map Prod.fst = .ok [⟨"b", some "2"⟩]) ∧
    ((CutChunkUp (applyOp (applyOp Partition.empty (.Store "a" "1")) (.Store "b" "2"))
      1).map Prod.fst =
      (FetchChunkUp (applyOp (applyOp Partition.empty (.Store "a" "1")) (.Store "b" "2"))
        1 0).map Prod.fst) ∧
    ∃ chunk q, CutChunkUp (applyOp (applyOp Partition.empty (.Store "a" "1"))
        (.Store "b" "2")) 1 = .ok (chunk, q) ∧
      (∀ cd ∈ chunk, Fetch q cd.Key = .ok (none, q)) ∧
      Count q = .ok (storedCount (applyOp (applyOp Partition.empty (.Store "a" "1"))
        (.Store "b" "2")) - chunk.length, q) :=
  ⟨by decide,
    (cutChunkUp_collects_then_deletes
      (applyOp (applyOp Partition.empty (.Store "a" "1")) (.Store "b" "2")) 1
      (ReachFrom.step (ReachFrom.step ReachFrom.refl
        ⟨show Ordinary "a" by decide, show Partition.empty.b.Get "a" = none by decide⟩)
        ⟨show Ordinary "b" by decide,
          show (applyOp Partition.empty (.Store "a" "1")).b.Get "b" = none by decide⟩)
      (by decide) (by decide)).1,
    ((cutChunkUp_collects_then_deletes
      (applyOp (applyOp Partition.empty (.Store "a" "1")) (.Store "b" "2")) 1
      (ReachFrom.step (ReachFrom.step ReachFrom.refl
        ⟨show Ordinary "a" by decide, show Partition.empty.b.Get "a" = none by decide⟩)
        ⟨show Ordinary "b" by decide,
          show (applyOp Partition.empty (.Store "a" "1")).b.Get "b" = none by decide⟩)
      (by decide) (by decide)).2 (by decide)).imp
      fun _ h => h.imp fun _ h' => ⟨h'.1, h'.2.2.1, h'.2.2.2.2⟩⟩

/-- C12: in every state with a non-zero first index reached by operations with ordinary
keys, `FetchChunkUp(1,0)` returns a single record, `SliceUp` returns the value of that
record and leaves the partition that `Delete` of its key leaves; `FetchChunkDown(1,0)`,
`SliceDown` and `Delete` are related in the same way. -/
theorem pop_is_window_of_one_then_delete (p : Partition) (hr : Reach p)
    (hF : firstSlot p ≠ 0) :
    (∃ k v q, FetchChunkUp p 1 0 = .ok ([⟨k, v⟩], p) ∧ SliceUp p = .ok (v, q) ∧
      Delete p k = .ok q) ∧
    (∃ k v q, FetchChunkDown p 1 0 = .ok ([⟨k, v⟩], p) ∧ SliceDown p = .ok (v, q) ∧
      Delete p k = .ok q) := by
  rcases hr.wellFormed with he | ⟨F, L, hwf⟩
  · subst he
    exact absurd (by decide) hF
  · have hF' : F ≠ 0 := by simpa [firstSlot, hwf.first, Atoi_Itoa] using hF
    rcases hwf.tight with ⟨h0, _⟩ | ⟨h1, h2, hpF, hpL, _⟩
    · exact absurd h0 hF'
    · constructor
      · cases hk : p.inb.Get (Itoa L) with
        | none => exact absurd hk hpL
        | some k =>
          refine ⟨k, p.b.Get k, _, ?_, ?_, Delete_eq hwf.first hwf.last k⟩
          · rw [FetchChunkUp_window hwf.last 1 0 (le_refl _) (by rw [Atoi_Itoa]; omega)
              (Or.inl rfl)]
            obtain ⟨n, hn⟩ : ∃ n, (L + 1).toNat = n + 1 := ⟨L.toNat, by omega⟩
            have hL0 : (0 : Int) ≤ L := by omega
            simp [windowTail, limit, Atoi_Itoa, hL0, hn, walkDown, recordAt, hk]
          · simp only [SliceUp, hwf.first, hwf.last]
            exact slice_eq p _ _ _ hk
      · cases hk : p.inb.Get (Itoa F) with
        | none => exact absurd hk hpF
        | some k =>
          refine ⟨k, p.b.Get k, _, ?_, ?_, Delete_eq hwf.first hwf.last k⟩
          · rw [FetchChunkDown_window hwf.first hwf.last 1 0 (by decide) (by decide)
              (Or.inl rfl)]
            obtain ⟨n, hn⟩ : ∃ n, (L + 1 - F).toNat = n + 1 := ⟨(L - F).toNat, by omega⟩
            have hF0 : ¬ (0 : Int) > F := by omega
            simp [windowHead, limit, Atoi_Itoa, hF0, hn, walkUp, recordAt, hk]
          · simp only [SliceDown, hwf.first, hwf.last]
            exact slice_eq p _ _ _ hk

/-- C12 at the partition left by `Store("a","1")`, `Store("b","2")`. -/
theorem pop_is_window_of_one_then_delete_witness :
    (∃ k v q, FetchChunkUp (applyOp (applyOp Partition.empty (.Store "a" "1"))
        (.Store "b" "2")) 1 0 = .ok ([⟨k, v⟩], applyOp (applyOp Partition.empty
        (.Store "a" "1")) (.Store "b" "2")) ∧
      SliceUp (applyOp (applyOp Partition.empty (.Store "a" "1")) (.Store "b" "2")) =
        .ok (v, q) ∧
      Delete (applyOp (applyOp Partition.empty (.Store "a" "1")) (.Store "b" "2")) k =
        .ok q) ∧
    (∃ k v q, FetchChunkDown (applyOp (applyOp Partition.empty (.Store "a" "1"))
        (.Store "b" "2")) 1 0 = .ok ([⟨k, v⟩], applyOp (applyOp Partition.empty
        (.Store "a" "1")) (.Store "b" "2")) ∧
      SliceDown (applyOp (applyOp Partition.empty (.Store "a" "1")) (.Store "b" "2")) =
        .ok (v, q) ∧
      Delete (applyOp (applyOp Partition.empty (.Store "a" "1")) (.Store "b" "2")) k =
        .ok q) :=
  pop_is_window_of_one_then_delete
    (applyOp (applyOp Partition.empty (.Store "a" "1")) (.Store "b" "2"))
    (ReachFrom.step (ReachFrom.step ReachFrom.refl (show Ordinary "a" by decide))
      (show Ordinary "b" by decide))
    (by decide)

/-- C13, as stated, fails: after `Store("a","1")` the last index is 1, and
`FetchChunkUp(0,5)` returns the record of `a`: the offset 5 exceeds the last index and is
ignored, where the walk from slot `max(1 - 5, 0) = 0` meets no record. -/
theorem fetchChunkUp_ignores_large_offset :
    lastSlot (applyOp Partition.empty (.Store "a" "1")) = 1 ∧
    (FetchChunkUp (applyOp Partition.empty (.Store "a" "1")) 0 5).map Prod.fst =
      .ok [⟨"a", some "1"⟩] ∧
    windowTail (applyOp Partition.empty (.Store "a" "1")) 0
      (Max.max (lastSlot (applyOp Partition.empty (.Store "a" "1")) - 5) 0) = [] := by
  decide

/-- C13, amended: on every initialised partition whose last index is not negative and
below `2^63` (as in every state the operations produce), for every `max ≥ 0` and every
offset `≥ 0`, `FetchChunkUp(max, offset)` succeeds, changes nothing and returns the
records of the populated slots met walking downward (in strictly descending slot order,
down to slot 0) from slot `lastSlot - offset` when the offset does not exceed the last
index and from slot `lastSlot` otherwise: at most `max` of them, all of them when
`max = 0`. -/
theorem fetchChunkUp_walks_down_from_start (p : Partition) (max offset : Int)
    (hi : p.inb.Get recLastIdxKey ≠ none) (hL : 0 ≤ lastSlot p)
    (hL2 : lastSlot p < 2 ^ 63) (hmax : 0 ≤ max) (hoff : 0 ≤ offset) :
    FetchChunkUp p max offset =
      .ok (windowTail p max
        (if offset ≤ lastSlot p then lastSlot p - offset else lastSlot p), p) := by
  cases hl : p.inb.Get recLastIdxKey with
  | none => exact absurd hl hi
  | some l =>
    have e : lastSlot p = Atoi l := by simp [lastSlot, hl]
    rw [e] at hL hL2 ⊢
    have _ := hmax
    exact FetchChunkUp_window hl max offset hoff hL (Or.inr hL2)

/-- C13, amended, at the partition left by `Store("a","1")`, with `max = 0` and
`offset = 5`. -/
theorem fetchChunkUp_walks_down_from_start_witness :
    FetchChunkUp (applyOp Partition.empty (.Store "a" "1")) 0 5 =
      .ok (windowTail (applyOp Partition.empty (.Store "a" "1")) 0
        (if 5 ≤ lastSlot (applyOp Partition.empty (.Store "a" "1")) then
          lastSlot (applyOp Partition.empty (.Store "a" "1")) - 5
         else lastSlot (applyOp Partition.empty (.Store "a" "1"))),
        applyOp Partition.empty (.Store "a" "1")) :=
  fetchChunkUp_walks_down_from_start (applyOp Partition.empty (.Store "a" "1")) 0 5
    (by decide) (by decide) (by decide) (by decide) (by decide)

/-- C14, as stated, fails: after `Store` of `a`, `b`, `c` the first index is 1.
`FetchChunkDown(0,1)` returns all three records (the offset 1 does not exceed the first
index and is ignored) where the walk from slot `1 + 1` meets `b` and `c` only; and
`FetchChunkDown(0,2)` returns `c` alone (the offset 2 exceeds the first index and is
applied) where the walk from slot 1 meets all three. -/
theorem fetchChunkDown_applies_offset_above_first :
    ((storeAll Partition.empty [("a", "1"), ("b", "2"), ("c", "3")]).map fun p =>
      (firstSlot p, (FetchChunkDown p 0 1).map Prod.fst,
        windowHead p 0 (firstSlot p + 1) (lastSlot p))) =
      .ok (1, .ok [⟨"a", some "1"⟩, ⟨"b", some "2"⟩, ⟨"c", some "3"⟩],
        [⟨"b", some "2"⟩, ⟨"c", some "3"⟩]) ∧
    ((storeAll Partition.empty [("a", "1"), ("b", "2"), ("c", "3")]).map fun p =>
      ((FetchChunkDown p 0 2).map Prod.fst, windowHead p 0 (firstSlot p) (lastSlot p))) =
      .ok (.ok [⟨"c", some "3"⟩],
        [⟨"a", some "1"⟩, ⟨"b", some "2"⟩, ⟨"c", some "3"⟩]) := by
  decide

/-- C14, amended: on every initialised partition whose first index is not negative, for
every `max` from `0` to `MaxSliceCap` and every offset `≥ 0` with
`firstSlot + offset < 2^63`, `FetchChunkDown(max, offset)` succeeds, changes nothing and
returns the records of the populated slots met walking upward (in strictly ascending slot
order, up to the last index) from slot `firstSlot + offset` when the offset exceeds the
first index and from slot `firstSlot` otherwise: at most `max` of them, all of them when
`max = 0`. -/
theorem fetchChunkDown_walks_up_from_start (p : Partition) (max offset : Int)
    (hi : Initialised p) (hF : 0 ≤ firstSlot p) (hmax : 0 ≤ max)
    (hcap : max ≤ MaxSliceCap) (hoff : 0 ≤ offset) (hsum : firstSlot p + offset < 2 ^ 63) :
    FetchChunkDown p max offset =
      .ok (windowHead p max
        (if offset > firstSlot p then firstSlot p + offset else firstSlot p)
        (lastSlot p), p) := by
  cases hf : p.inb.Get recFirstIdxKey with
  | none => exact absurd hf hi.1
  | some t =>
    cases hl : p.inb.Get recLastIdxKey with
    | none => exact absurd hl hi.2
    | some l =>
      have e1 : firstSlot p = Atoi t := by simp [firstSlot, hf]
      have e2 : lastSlot p = Atoi l := by simp [lastSlot, hl]
      rw [e1] at hF hsum
      rw [e1, e2]
      exact FetchChunkDown_window hf hl max offset hmax hcap
        (Or.inr ⟨by norm_num; omega, hsum⟩)

/-- C14, amended, at the partition left by `Store("a","1")`, with `max = 0` and
`offset = 1`. -/
theorem fetchChunkDown_walks_up_from_start_witness :
    FetchChunkDown (applyOp Partition.empty (.Store "a" "1")) 0 1 =
      .ok (windowHead (applyOp Partition.empty (.Store "a" "1")) 0
        (if 1 > firstSlot (applyOp Partition.empty (.Store "a" "1")) then
          firstSlot (applyOp Partition.empty (.Store "a" "1")) + 1
         else firstSlot (applyOp Partition.empty (.Store "a" "1")))
        (lastSlot (applyOp Partition.empty (.Store "a" "1"))),
        applyOp Partition.empty (.Store "a" "1")) :=
  fetchChunkDown_walks_up_from_start (applyOp Partition.empty (.Store "a" "1")) 0 1
    (by decide) (by decide) (by decide) (by decide) (by decide) (by decide)

/-- C15, as stated, fails for a list that holds the empty key, which is neither a numeral
nor a reserved string: `StoreOnce` of `(a,1)`, `("",2)` fails as a whole on the engine's
refusal of the empty key and stores nothing, while `Store` pair by pair has stored `a`
when the second call fails. -/
theorem storeOnce_with_empty_key_stores_nothing :
    (¬ IsNumeral "" ∧ "" ≠ recCntKey ∧ "" ≠ recFirstIdxKey ∧ "" ≠ recLastIdxKey) ∧
    StoreOnce Partition.empty [⟨"a", some "1"⟩, ⟨"", some "2"⟩] =
      .error .ErrKeyRequired ∧
    (Fetch (applyOp Partition.empty (.StoreOnce [⟨"a", some "1"⟩, ⟨"", some "2"⟩]))
      "a").map Prod.fst = .ok none ∧
    Store (applyOp Partition.empty (.Store "a" "1")) "" "2" = .error .ErrKeyRequired ∧
    (Fetch (applyOp (applyOp Partition.empty (.Store "a" "1")) (.Store "" "2"))
      "a").map Prod.fst = .ok (some "1") := by
  decide

/-- C15, amended: in every state reached by operations with ordinary keys, for every
non-empty list of pairs with ordinary keys (non-empty, not a numeral, not a reserved
string) of at most `MaxKeySize` bytes and values of at most `MaxValueSize` bytes,
`StoreOnce` of the list and `Store` of its pairs one after the other both succeed and
leave partitions that answer every read alike: the same records, slot and key entries,
first index, last index and count. -/
theorem storeOnce_equals_store_pair_by_pair (p : Partition) (data : List ChunkData)
    (hr : Reach p) (hne : data ≠ []) (hk : ∀ kv ∈ data, Ordinary kv.Key)
    (hs : ∀ kv ∈ data, Storable kv.Key (kv.Value.getD "")) :
    ∃ q s, StoreOnce p data = .ok q ∧ storeAll p (pairsOf data) = .ok s ∧
      Partition.Same q s ∧ firstSlot q = firstSlot s ∧ lastSlot q = lastSlot s ∧
      (Count q).map Prod.fst = (Count s).map Prod.fst := by
  obtain ⟨p0, F, L, hwf, h1, h2⟩ : ∃ p0 F L, WF p0 F L ∧
      StoreOnce p0 data = StoreOnce p data ∧
      storeAll p0 (pairsOf data) = storeAll p (pairsOf data) := by
    rcases hr.wellFormed with he | ⟨F, L, hwf⟩
    · subst he
      refine ⟨_, 0, 0, WF_initP_empty, StoreOnce_initP _ _, ?_⟩
      cases data with
      | nil => exact absurd rfl hne
      | cons kv rest => simp only [pairsOf, List.map_cons, storeAll, Store_initP]
    · exact ⟨p, F, L, hwf, rfl, rfl⟩
  obtain ⟨q, s, _, _, hq, hs, _, _, hb, hg, hc, hcnt⟩ := storeOnce_vs_storeAll hwf data hk
    (fun kv hm => (hs kv hm).accepts (hk kv hm).1)
  rw [h1] at hq
  rw [h2] at hs
  have hsame : ∀ x, q.inb.Get x = s.inb.Get x := by
    intro x
    by_cases hx : x = recCntKey
    · subst hx
      exact hcnt hne
    · exact hg x hx
  refine ⟨q, s, hq, hs, ⟨hb, hsame⟩, ?_, ?_, ?_⟩
  · simp [firstSlot, hsame]
  · simp [lastSlot, hsame]
  · simp [Count, Except.map, hsame]

/-- C15, amended, at the partition left by `Store("a","1")` and the pairs `(b,2)`,
`(c,3)`. -/
theorem storeOnce_equals_store_pair_by_pair_witness :
    ∃ q s, StoreOnce (applyOp Partition.empty (.Store "a" "1"))
        [⟨"b", some "2"⟩, ⟨"c", some "3"⟩] = .ok q ∧
      storeAll (applyOp Partition.empty (.Store "a" "1"))
        (pairsOf [⟨"b", some "2"⟩, ⟨"c", some "3"⟩]) = .ok s ∧
      Partition.Same q s ∧ firstSlot q = firstSlot s ∧ lastSlot q = lastSlot s ∧
      (Count q).map Prod.fst = (Count s).map Prod.fst :=
  storeOnce_equals_store_pair_by_pair (applyOp Partition.empty (.Store "a" "1"))
    [⟨"b", some "2"⟩, ⟨"c", some "3"⟩]
    (ReachFrom.step ReachFrom.refl (show Ordinary "a" by decide)) (by decide) (by decide)
    (by decide)

/-- C16: in every state the operations produce, whatever the keys, `FetchDelete(k)` hands
back the value `Fetch(k)` hands back and leaves the partition `Delete(k)` leaves.  On an
initialised partition both `FetchDelete` and `Delete` succeed; on a never-written
partition both fail with `ErrCorruptedInternalBucket`, nothing is written and the value
is `nil`, as for `Fetch`. -/
theorem fetchDelete_is_fetch_then_delete (p : Partition) (k : String) (hr : ReachAny p) :
    valueOf (FetchDelete p k) = valueOf (Fetch p k) ∧
    commitR p (FetchDelete p k) = commit p (Delete p k) ∧
    (Initialised p → ∃ q, FetchDelete p k = .ok (p.b.Get k, q) ∧ Delete p k = .ok q ∧
      Fetch p k = .ok (p.b.Get k, p)) ∧
    (¬ Initialised p → FetchDelete p k = .error .ErrCorruptedInternalBucket ∧
      Delete p k = .error .ErrCorruptedInternalBucket ∧ Fetch p k = .ok (none, p)) := by
  have hs := Sane_of_reachAny hr
  by_cases hi : Initialised p
  · cases hf : p.inb.Get recFirstIdxKey with
    | none => exact absurd hf hi.1
    | some t =>
      cases hl : p.inb.Get recLastIdxKey with
      | none => exact absurd hl hi.2
      | some l =>
        refine ⟨?_, ?_, fun _ => ⟨_, FetchDelete_eq hf hl k, Delete_eq hf hl k, rfl⟩,
          fun h => absurd hi h⟩
        · rw [FetchDelete_eq hf hl k]; rfl
        · rw [FetchDelete_eq hf hl k, Delete_eq hf hl k]; rfl
  · have he : p = Partition.empty := by
      rcases hs.1 with e | e
      · exact e
      · exact absurd e hi
    subst he
    exact ⟨rfl, rfl, fun h => absurd h hi, fun _ => ⟨rfl, rfl, rfl⟩⟩

/-- C16 at the partition left by `Store("a","1")` and the key `a`. -/
theorem fetchDelete_is_fetch_then_delete_witness :
    valueOf (FetchDelete (applyOp Partition.empty (.Store "a" "1")) "a") =
      valueOf (Fetch (applyOp Partition.empty (.Store "a" "1")) "a") ∧
    commitR (applyOp Partition.empty (.Store "a" "1"))
        (FetchDelete (applyOp Partition.empty (.Store "a" "1")) "a") =
      commit (applyOp Partition.empty (.Store "a" "1"))
        (Delete (applyOp Partition.empty (.Store "a" "1")) "a") ∧
    valueOf (FetchDelete (applyOp Partition.empty (.Store "a" "1")) "a") = some "1" :=
  ⟨(fetchDelete_is_fetch_then_delete (applyOp Partition.empty (.Store "a" "1")) "a"
      (ReachFrom.step ReachFrom.refl trivial)).1,
    (fetchDelete_is_fetch_then_delete (applyOp Partition.empty (.Store "a" "1")) "a"
      (ReachFrom.step ReachFrom.refl trivial)).2.1,
    by decide⟩

/-- C17, as stated, fails: `FetchChunkDown` allocates room for `n` records before it
collects, `FetchChunkUp` room for as many records as the last index.  After
`Store("a","1")` the count is `1`; with `n = MaxSliceCap + 1`, `FetchChunkDown(n,0)`
panics in `make` where `FetchChunkUp(n,0)` returns the record of `a`. -/
theorem fetchChunkDown_panics_on_large_max :
    Count (applyOp Partition.empty (.Store "a" "1")) =
      .ok (1, applyOp Partition.empty (.Store "a" "1")) ∧
    FetchChunkDown (applyOp Partition.empty (.Store "a" "1")) (MaxSliceCap + 1) 0 =
      .error .PanicMakesliceCap ∧
    FetchChunkUp (applyOp Partition.empty (.Store "a" "1")) (MaxSliceCap + 1) 0 =
      .ok ([⟨"a", some "1"⟩], applyOp Partition.empty (.Store "a" "1")) := by
  decide

/-- C17, amended: in every initialised state reached by operations with ordinary keys and
for every `n` from `0` to `MaxSliceCap` that is at least the count, `FetchChunkDown(n,0)`
and `FetchChunkUp(n,0)` succeed; the first returns the records of the populated slots in
ascending slot order, one record for each populated slot and nothing else, and the second
returns the same list reversed. -/
theorem full_windows_are_reverse_of_each_other (p : Partition) (n : Int) (hr : Reach p)
    (hi : Initialised p) (hn : storedCount p ≤ n) (h0 : 0 ≤ n) (hcap : n ≤ MaxSliceCap) :
    Count p = .ok (storedCount p, p) ∧
    ∃ slots : List Int, slots.Pairwise (· < ·) ∧ (∀ s, s ∈ slots ↔ Populated p.inb s) ∧
      (slots.filterMap (recordAt p)).length = slots.length ∧
      FetchChunkDown p n 0 = .ok (slots.filterMap (recordAt p), p) ∧
      FetchChunkUp p n 0 = .ok ((slots.filterMap (recordAt p)).reverse, p) := by
  refine ⟨rfl, ?_⟩
  rcases hr.wellFormed with he | ⟨F, L, hwf⟩
  · subst he
    exact absurd hi (by decide)
  · obtain ⟨slots, hpw, hmem, hlen, hup, hdown⟩ := populated_slots hwf
    have hFL : 0 ≤ F ∧ F ≤ L := by
      rcases hwf.tight with ⟨h1, h2, _⟩ | ⟨h1, h2, _⟩ <;> omega
    have hlen' : (slots.filterMap (recordAt p)).length = slots.length :=
      length_filterMap_recordAt p slots fun s hs => (hmem s).1 hs
    refine ⟨slots, hpw, hmem, hlen', ?_, ?_⟩
    · rw [FetchChunkDown_window hwf.first hwf.last n 0 h0 hcap (Or.inl rfl)]
      have hF0 : ¬ (0 : Int) > F := by omega
      simp only [Atoi_Itoa, hF0, if_false, windowHead, hup]
      rw [limit_of_length_le n _ h0 (by rw [hlen']; omega)]
    · rw [FetchChunkUp_window hwf.last n 0 (le_refl _) (by rw [Atoi_Itoa]; omega)
        (Or.inl rfl)]
      have hL0 : (0 : Int) ≤ L := by omega
      simp only [Atoi_Itoa, hL0, if_true, sub_zero, windowTail, hdown]
      rw [limit_of_length_le n _ h0 (by rw [List.length_reverse, hlen']; omega)]

/-- C17, amended, at the partition left by `Store` of `a`, `b`, `c` and `Delete` of `b`, with
`n = 2`. -/
theorem full_windows_are_reverse_of_each_other_witness :
    Count (applyOp (applyOp (applyOp (applyOp Partition.empty (.Store "a" "1"))
      (.Store "b" "2")) (.Store "c" "3")) (.Delete "b")) =
      .ok (2, applyOp (applyOp (applyOp (applyOp Partition.empty (.Store "a" "1"))
        (.Store "b" "2")) (.Store "c" "3")) (.Delete "b")) ∧
    ((FetchChunkDown (applyOp (applyOp (applyOp (applyOp Partition.empty (.Store "a" "1"))
      (.Store "b" "2")) (.Store "c" "3")) (.Delete "b")) 2 0).map Prod.fst) =
      .ok [⟨"a", some "1"⟩, ⟨"c", some "3"⟩] ∧
    ∃ slots : List Int, slots.Pairwise (· < ·) ∧
      (∀ s, s ∈ slots ↔ Populated (applyOp (applyOp (applyOp (applyOp Partition.empty
        (.Store "a" "1")) (.Store "b" "2")) (.Store "c" "3")) (.Delete "b")).inb s) ∧
      FetchChunkDown (applyOp (applyOp (applyOp (applyOp Partition.empty (.Store "a" "1"))
        (.Store "b" "2")) (.Store "c" "3")) (.Delete "b")) 2 0 =
        .ok (slots.filterMap (recordAt (applyOp (applyOp (applyOp (applyOp Partition.empty
          (.Store "a" "1")) (.Store "b" "2")) (.Store "c" "3")) (.Delete "b"))),
          applyOp (applyOp (applyOp (applyOp Partition.empty (.Store "a" "1"))
            (.Store "b" "2")) (.Store "c" "3")) (.Delete "b")) ∧
      FetchChunkUp (applyOp (applyOp (applyOp (applyOp Partition.empty (.Store "a" "1"))
        (.Store "b" "2")) (.Store "c" "3")) (.Delete "b")) 2 0 =
        .ok ((slots.filterMap (recordAt (applyOp (applyOp (applyOp (applyOp
          Partition.empty (.Store "a" "1")) (.Store "b" "2")) (.Store "c" "3"))
          (.Delete "b")))).reverse,
          applyOp (applyOp (applyOp (applyOp Partition.empty (.Store "a" "1"))
            (.Store "b" "2")) (.Store "c" "3")) (.Delete "b")) :=
  ⟨by decide, by decide,
    (full_windows_are_reverse_of_each_other
      (applyOp (applyOp (applyOp (applyOp Partition.empty (.Store "a" "1"))
        (.Store "b" "2")) (.Store "c" "3")) (.Delete "b")) 2
      (ReachFrom.step (ReachFrom.step (ReachFrom.step (ReachFrom.step ReachFrom.refl
        (show Ordinary "a" by decide)) (show Ordinary "b" by decide))
        (show Ordinary "c" by decide)) (show Ordinary "b" by decide))
      (by decide) (by decide) (by decide) (by decide)).2.imp
      fun _ h => ⟨h.1, h.2.1, h.2.2.2.1, h.2.2.2.2⟩⟩

/-- C18: `DeleteOnce` with an empty key list fails with `ErrNoKeysSet` on every handle,
open or not (the test of the key list comes before the test of the handle: with a key a
closed handle answers `ErrLocalDatabaseNotYetOpened`), and on every partition the
failing call writes nothing. -/
theorem deleteOnce_rejects_empty_key_list (db : DB) (p : Partition) :
    DB.DeleteOnce db [] = .error .ErrNoKeysSet ∧
    DeleteOnce p [] = .error .ErrNoKeysSet ∧
    applyOp p (.DeleteOnce []) = p ∧
    DB.DeleteOnce ⟨none⟩ ["a"] = .error .ErrLocalDatabaseNotYetOpened :=
  ⟨rfl, rfl, rfl, rfl⟩

/-- C19: whatever the partition, a `Store(k,v)` that succeeds leaves a partition in which
`Fetch(k)` returns `v`, and `Fetch` of a key without a record returns `nil` with no
error; in every state the operations produce `Store` of a non-empty key of at most
`MaxKeySize` bytes with a value of at most `MaxValueSize` bytes does succeed. -/
theorem store_fetch_round_trip (p : Partition) (k v : String) :
    (∀ q, Store p k v = .ok q → Fetch q k = .ok (some v, q)) ∧
    (p.b.Get k = none → Fetch p k = .ok (none, p)) ∧
    (ReachAny p → k ≠ "" → Storable k v → ∃ q, Store p k v = .ok q) := by
  refine ⟨?_, ?_, ?_⟩
  · intro q hq
    obtain ⟨_, hb, _⟩ := Store_record hq
    simp [Fetch, hb]
  · intro h
    simp [Fetch, h]
  · intro hr hk hs
    obtain ⟨hsane, hfit⟩ := sane_and_fits_of_reachAny hr
    obtain ⟨q, hq, _⟩ := Store_ok p hsane.2 hfit (hs.accepts hk)
    exact ⟨q, hq⟩

/-- C19 at `Store("a","1")` on a never-written partition. -/
theorem store_fetch_round_trip_witness :
    Fetch (applyOp Partition.empty (.Store "a" "1")) "a" =
      .ok (some "1", applyOp Partition.empty (.Store "a" "1")) ∧
    Fetch Partition.empty "a" = .ok (none, Partition.empty) ∧
    ∃ q, Store Partition.empty "a" "1" = .ok q :=
  ⟨(store_fetch_round_trip Partition.empty "a" "1").1 _ (by decide),
    (store_fetch_round_trip Partition.empty "a" "1").2.1 (by decide),
    (store_fetch_round_trip Partition.empty "a" "1").2.2 ReachFrom.refl (by decide)
      (by decide)⟩

/-- C20, as stated, fails: after `Store` of `a` and `b` the first index is 1 and slot 1
points to `a`.  `Store` of the reserved first-index string moves the first index entry to
`3`, and `Store` of the slot numeral `1` overwrites the entry of slot 1 with `3`. -/
theorem store_of_reserved_or_numeral_key_overwrites :
    ((storeAll Partition.empty [("a", "1"), ("b", "2")]).map fun p =>
      (p.inb.Get recFirstIdxKey, p.inb.Get "1", firstSlot p)) =
      .ok (some "1", some "a", 1) ∧
    ((storeAll Partition.empty [("a", "1"), ("b", "2"), (recFirstIdxKey, "x")]).map
      fun p => p.inb.Get recFirstIdxKey) = .ok (some "3") ∧
    ((storeAll Partition.empty [("a", "1"), ("b", "2"), ("1", "x")]).map
      fun p => p.inb.Get "1") = .ok (some "3") := by
  decide

/-- C20, amended: in every state with a non-zero first index reached by operations with
ordinary keys, `Store(k,v)` of an ordinary key `k` of at most `MaxKeySize` bytes with a
value of at most `MaxValueSize` bytes succeeds and leaves the first index entry and every
slot entry that existed unchanged. -/
theorem store_keeps_bookkeeping_entries (p : Partition) (k v : String) (hr : Reach p)
    (hF : firstSlot p ≠ 0) (hk : Ordinary k) (hs : Storable k v) :
    ∃ q, Store p k v = .ok q ∧
      q.inb.Get recFirstIdxKey = p.inb.Get recFirstIdxKey ∧
      ∀ n k', p.inb.Get (Itoa n) = some k' → q.inb.Get (Itoa n) = some k' := by
  rcases hr.wellFormed with he | ⟨F, L, hwf⟩
  · subst he
    exact absurd (by decide) hF
  · have hF' : F ≠ 0 := by simpa [firstSlot, hwf.first, Atoi_Itoa] using hF
    obtain ⟨q, hq, _, hg⟩ := Store_entries hwf hk v (hs.accepts hk.1)
    refine ⟨q, hq, ?_, ?_⟩
    · rw [hg, hwf.first]
      simp [reserved_distinct, hF']
    · intro n k' hn
      have hle := (hwf.tight.within n (by simp [Populated, hn])).2.2
      have hne : Itoa n ≠ Itoa (L + 1) := fun e => by
        have := Itoa_injective e
        omega
      rw [hg]
      simp only [Ne.symm (recCntKey_ne_Itoa n), Ne.symm (recFirstIdxKey_ne_Itoa n),
        Ne.symm (recLastIdxKey_ne_Itoa n), Ne.symm (hk.ne_Itoa n), hne, if_false]
      exact hn

/-- C20, amended, at the partition left by `Store("a","1")` and the key `b`. -/
theorem store_keeps_bookkeeping_entries_witness :
    ∃ q, Store (applyOp Partition.empty (.Store "a" "1")) "b" "2" = .ok q ∧
      q.inb.Get recFirstIdxKey =
        (applyOp Partition.empty (.Store "a" "1")).inb.Get recFirstIdxKey ∧
      ∀ n k', (applyOp Partition.empty (.Store "a" "1")).inb.Get (Itoa n) = some k' →
        q.inb.Get (Itoa n) = some k' :=
  store_keeps_bookkeeping_entries (applyOp Partition.empty (.Store "a" "1")) "b" "2"
    (ReachFrom.step ReachFrom.refl (show Ordinary "a" by decide)) (by decide)
    (by decide) (by decide)

/-- C21: whatever the partition and the arguments, `Fetch`, `FetchChunkUp`,
`FetchChunkDown` and `Count` leave the partition as it is: every record, every slot and
key entry, both boundary pointers and the stored count.  `Fetch` and `Count` always
succeed; the two windows either fail or hand the same partition back. -/
theorem reads_change_nothing (p : Partition) (key : String) (max offset : Int) :
    applyOp p (.Fetch key) = p ∧ applyOp p (.FetchChunkUp max offset) = p ∧
    applyOp p (.FetchChunkDown max offset) = p ∧ applyOp p .Count = p ∧
    Fetch p key = .ok (p.b.Get key, p) ∧ Count p = .ok (storedCount p, p) ∧
    (∀ l q, FetchChunkUp p max offset = .ok (l, q) → q = p) ∧
    (∀ l q, FetchChunkDown p max offset = .ok (l, q) → q = p) := by
  refine ⟨rfl, FetchChunkUp_state p max offset, FetchChunkDown_state p max offset, rfl, rfl,
    rfl, ?_, ?_⟩
  · intro l q h
    have := FetchChunkUp_state p max offset
    rw [h] at this
    exact this
  · intro l q h
    have := FetchChunkDown_state p max offset
    rw [h] at this
    exact this

/-- C22, as stated, fails: after `Store("1","x")` the last index is 1, slot 1 holds an
entry and the key `2` has no record; `Store("2","y")` gives the key `2` slot 1 again, not
slot 2, and leaves the last index at 1. -/
theorem store_after_numeral_key_reuses_slot :
    ((storeAll Partition.empty [("1", "x")]).map fun p =>
      (lastSlot p, p.b.Get "2", p.inb.Get "1")) = .ok (1, none, some "1") ∧
    ((storeAll Partition.empty [("1", "x"), ("2", "y")]).map fun p =>
      (p.inb.Get "2", lastSlot p, p.inb.Get "1")) = .ok (some "1", 1, some "2") := by
  decide

/-- C22, amended: in every state reached by operations with ordinary keys, `Store(k,v)` of
an ordinary key of at most `MaxKeySize` bytes with a value of at most `MaxValueSize` bytes
succeeds and assigns `k` the slot `lastSlot + 1` in both maps; the last index afterwards
is that slot, the slot held no entry before, the first index becomes 1 when the last
index was 0 and is unchanged otherwise. -/
theorem store_takes_slot_after_last (p : Partition) (k v : String) (hr : Reach p)
    (hk : Ordinary k) (hs : Storable k v) :
    ∃ q, Store p k v = .ok q ∧
      q.inb.Get k = some (Itoa (lastSlot p + 1)) ∧
      q.inb.Get (Itoa (lastSlot p + 1)) = some k ∧
      lastSlot q = lastSlot p + 1 ∧
      p.inb.Get (Itoa (lastSlot p + 1)) = none ∧
      (lastSlot p = 0 → firstSlot q = 1) ∧
      (lastSlot p ≠ 0 → firstSlot q = firstSlot p) := by
  obtain ⟨p0, F, L, hwf, hst, hL, hF, hslot⟩ : ∃ p0 F L, WF p0 F L ∧
      Store p0 k v = Store p k v ∧ lastSlot p = L ∧ firstSlot p = F ∧
      (∀ n, p.inb.Get (Itoa n) = p0.inb.Get (Itoa n)) := by
    rcases hr.wellFormed with he | ⟨F, L, hwf⟩
    · subst he
      refine ⟨_, 0, 0, WF_initP_empty, Store_initP _ _ _, by decide, by decide, ?_⟩
      intro n
      have h0 : ¬ Populated (initP Partition.empty).inb n := by
        rcases WF_initP_empty.tight with ⟨_, _, h0⟩ | ⟨h1, _⟩
        · exact h0 n
        · omega
      have : (initP Partition.empty).inb.Get (Itoa n) = none := by
        simpa [Populated] using h0
      rw [this]
      rfl
    · exact ⟨p, F, L, hwf, rfl, by simp [lastSlot, hwf.last, Atoi_Itoa],
        by simp [firstSlot, hwf.first, Atoi_Itoa], fun _ => rfl⟩
  obtain ⟨q, hq, _, hg⟩ := Store_entries hwf hk v (hs.accepts hk.1)
  rw [hst] at hq
  rw [hL, hF]
  have hFL : (L = 0 → F = 0) ∧ (L ≠ 0 → F ≠ 0) := by
    rcases hwf.tight with ⟨h1, h2, _⟩ | ⟨h1, h2, _⟩ <;> constructor <;> intros <;> omega
  have hlast : q.inb.Get recLastIdxKey = some (Itoa (L + 1)) := by
    rw [hg]
    simp [Ne.symm reserved_distinct.1, reserved_distinct.2.2]
  have hfirst : q.inb.Get recFirstIdxKey = some (Itoa (if F = 0 then 1 else F)) := by
    rw [hg]
    simp [reserved_distinct.2.1]
  refine ⟨q, hq, ?_, ?_, ?_, ?_, ?_, ?_⟩
  · rw [hg]
    simp [hk.2.2.1, hk.2.2.2.1, hk.2.2.2.2]
  · rw [hg]
    simp [Ne.symm (recCntKey_ne_Itoa _), Ne.symm (recFirstIdxKey_ne_Itoa _),
      Ne.symm (recLastIdxKey_ne_Itoa _), Ne.symm (hk.ne_Itoa _)]
  · simp [lastSlot, hlast, Atoi_Itoa]
  · rw [hslot]
    cases hn : p0.inb.Get (Itoa (L + 1)) with
    | none => rfl
    | some k' =>
      have := (hwf.tight.within (L + 1) (by simp [Populated, hn])).2.2
      omega
  · intro h0
    simp [firstSlot, hfirst, hFL.1 h0, Atoi_Itoa]
  · intro h0
    simp [firstSlot, hfirst, hFL.2 h0, Atoi_Itoa]

/-- C22, amended, at the partition left by `Store("a","1")` and the key `b`. -/
theorem store_takes_slot_after_last_witness :
    ∃ q, Store (applyOp Partition.empty (.Store "a" "1")) "b" "2" = .ok q ∧
      q.inb.Get "b" = some (Itoa (lastSlot (applyOp Partition.empty (.Store "a" "1")) + 1)) ∧
      q.inb.Get (Itoa (lastSlot (applyOp Partition.empty (.Store "a" "1")) + 1)) =
        some "b" ∧
      lastSlot q = lastSlot (applyOp Partition.empty (.Store "a" "1")) + 1 ∧
      (applyOp Partition.empty (.Store "a" "1")).inb.Get
        (Itoa (lastSlot (applyOp Partition.empty (.Store "a" "1")) + 1)) = none ∧
      (lastSlot (applyOp Partition.empty (.Store "a" "1")) = 0 → firstSlot q = 1) ∧
      (lastSlot (applyOp Partition.empty (.Store "a" "1")) ≠ 0 →
        firstSlot q = firstSlot (applyOp Partition.empty (.Store "a" "1"))) :=
  store_takes_slot_after_last (applyOp Partition.empty (.Store "a" "1")) "b" "2"
    (ReachFrom.step ReachFrom.refl (show Ordinary "a" by decide)) (by decide) (by decide)

/-- C23: in every state reached by operations with ordinary keys, a successful `Store`
among them: when no slot is populated both boundary pointers are 0; when a slot is
populated the first index is a populated slot, the last index is a populated slot, and
every populated slot lies between them, so that the first index is the smallest and the
last index the largest populated slot and no slot outside holds an entry. -/
theorem boundary_pointers_are_tight (p : Partition) (hr : ReachStored p) :
    ((∀ n, ¬ Populated p.inb n) → firstSlot p = 0 ∧ lastSlot p = 0) ∧
    ((∃ n, Populated p.inb n) →
      Populated p.inb (firstSlot p) ∧ Populated p.inb (lastSlot p)) ∧
    (∀ n, Populated p.inb n → firstSlot p ≤ n ∧ n ≤ lastSlot p) := by
  obtain ⟨F, L, hwf⟩ := hr.wellFormedStored
  have hF : firstSlot p = F := by simp [firstSlot, hwf.first, Atoi_Itoa]
  have hL : lastSlot p = L := by simp [lastSlot, hwf.last, Atoi_Itoa]
  rw [hF, hL]
  rcases hwf.tight with ⟨h1, h2, h0⟩ | ⟨_, _, hpF, hpL, hin⟩
  · exact ⟨fun _ => ⟨h1, h2⟩, fun ⟨n, hn⟩ => absurd hn (h0 n),
      fun n hn => absurd hn (h0 n)⟩
  · exact ⟨fun h => absurd hpF (h F), fun _ => ⟨hpF, hpL⟩, hin⟩

/-- C23 at the partition left by `Store` of `a`, `b`, `c` and `Delete` of `a`: the first
index is 2 and the last index is 3. -/
theorem boundary_pointers_are_tight_witness :
    (firstSlot (applyOp (applyOp (applyOp (applyOp Partition.empty (.Store "a" "1"))
      (.Store "b" "2")) (.Store "c" "3")) (.Delete "a")) = 2 ∧
     lastSlot (applyOp (applyOp (applyOp (applyOp Partition.empty (.Store "a" "1"))
      (.Store "b" "2")) (.Store "c" "3")) (.Delete "a")) = 3) ∧
    ∀ n, Populated (applyOp (applyOp (applyOp (applyOp Partition.empty (.Store "a" "1"))
      (.Store "b" "2")) (.Store "c" "3")) (.Delete "a")).inb n →
      firstSlot (applyOp (applyOp (applyOp (applyOp Partition.empty (.Store "a" "1"))
        (.Store "b" "2")) (.Store "c" "3")) (.Delete "a")) ≤ n ∧
      n ≤ lastSlot (applyOp (applyOp (applyOp (applyOp Partition.empty (.Store "a" "1"))
        (.Store "b" "2")) (.Store "c" "3")) (.Delete "a")) :=
  ⟨by decide,
    (boundary_pointers_are_tight
      (applyOp (applyOp (applyOp (applyOp Partition.empty (.Store "a" "1"))
        (.Store "b" "2")) (.Store "c" "3")) (.Delete "a"))
      ⟨Partition.empty, "a", "1", _, ReachFrom.refl, by decide, by decide,
        ReachFrom.step (ReachFrom.step (ReachFrom.step ReachFrom.refl
          (show Ordinary "b" by decide)) (show Ordinary "c" by decide))
          (show Ordinary "a" by decide)⟩).2.2⟩

/-- C24: in every state reached from a never-written partition by operations whose keys
are neither numerals nor reserved strings (the empty key included), the stored count,
which is what `Count` returns, is the number of populated slots. -/
theorem count_is_number_of_populated_slots (p : Partition) (hr : ReachPlain p) :
    ∃ S : Finset Int, (∀ n, n ∈ S ↔ Populated p.inb n) ∧ storedCount p = S.card ∧
      Count p = .ok ((S.card : Int), p) := by
  rcases hr.wellFormedPlain with he | ⟨F, L, hwf⟩
  · subst he
    exact ⟨∅, fun n => by simp [Populated, Partition.empty], by decide, by decide⟩
  · obtain ⟨S, hS, hc⟩ := storedCount_of_typed hwf.typed
    refine ⟨S, hS, hc, ?_⟩
    rw [← hc]
    rfl

/-- C24 at the partition left by `Store("k","v1")`, `Store("k","v2")`, `Delete("")`: two
slots are populated and the count is 2. -/
theorem count_is_number_of_populated_slots_witness :
    storedCount (applyOp (applyOp (applyOp Partition.empty (.Store "k" "v1"))
      (.Store "k" "v2")) (.Delete "")) = 2 ∧
    ∃ S : Finset Int,
      (∀ n, n ∈ S ↔ Populated (applyOp (applyOp (applyOp Partition.empty
        (.Store "k" "v1")) (.Store "k" "v2")) (.Delete "")).inb n) ∧
      storedCount (applyOp (applyOp (applyOp Partition.empty (.Store "k" "v1"))
        (.Store "k" "v2")) (.Delete "")) = S.card ∧
      Count (applyOp (applyOp (applyOp Partition.empty (.Store "k" "v1"))
        (.Store "k" "v2")) (.Delete "")) =
        .ok ((S.card : Int), applyOp (applyOp (applyOp Partition.empty (.Store "k" "v1"))
          (.Store "k" "v2")) (.Delete "")) :=
  ⟨by decide,
    count_is_number_of_populated_slots
      (applyOp (applyOp (applyOp Partition.empty (.Store "k" "v1")) (.Store "k" "v2"))
        (.Delete ""))
      (ReachFrom.step (ReachFrom.step (ReachFrom.step ReachFrom.refl
        (show Plain "k" by decide)) (show Plain "k" by decide))
        (show Plain "" by decide))⟩

/-- C25 (the code misses it): after `Store("k","v1")` and `Store("k","v2")` on a
never-written partition the record of `k` is live, slot 1 and slot 2 both point to `k`,
and the key entry of `k` points to slot 2: the two maps disagree at slot 1 and the record
has two slots. -/
theorem second_store_leaves_two_slots :
    ((storeAll Partition.empty [("k", "v1"), ("k", "v2")]).map fun p =>
      ((Fetch p "k").map Prod.fst, p.inb.Get "1", p.inb.Get "2", p.inb.Get "k")) =
      .ok (.ok (some "v2"), some "k", some "k", some "2") ∧
    Ordinary "k" := by
  decide

/-- C26 (the code misses it): after `Store("k","v1")`, `Store("k","v2")` and
`Delete("k")` on a never-written partition no record is left (`Fetch` of `k` returns
`nil` and the record bucket is empty), yet the first index and the last index are both 1
and `Count` returns 1: the entry of slot 1, left by the first `Store`, is still there. -/
theorem pointers_nonzero_without_records :
    (do
      let p ← Store Partition.empty "k" "v1"
      let p ← Store p "k" "v2"
      let p ← Delete p "k"
      pure (p.b, (Fetch p "k").map Prod.fst, firstSlot p, lastSlot p)) =
      Except.ok ([], .ok none, 1, 1) ∧
    (do
      let p ← Store Partition.empty "k" "v1"
      let p ← Store p "k" "v2"
      let p ← Delete p "k"
      pure (p.inb.Get "1", (Count p).map Prod.fst)) =
      Except.ok (some "k", .ok 1) ∧
    Ordinary "k" := by
  decide

/-- C27, as stated, fails: a key of `MaxKeySize + 1` bytes is non-empty, no numeral and no
reserved string, and the engine refuses it: `Store` fails with `ErrKeyTooLarge`, nothing
is stored and `Count` stays `0`, not `1`. -/
theorem store_refuses_key_over_size_limit :
    Ordinary longKey ∧
    Store Partition.empty longKey "v" = .error .ErrKeyTooLarge ∧
    storeAll Partition.empty [(longKey, "v")] = .error .ErrKeyTooLarge ∧
    (Count (applyOp Partition.empty (.Store longKey "v"))).map Prod.fst = .ok 0 := by
  have ho : Ordinary longKey := ordinary_longKey
  have hs : Store Partition.empty longKey "v" = .error .ErrKeyTooLarge :=
    Store_key_too_large Partition.empty "v" ho.1 longKey_too_large ho.2.1
  have happ : applyOp Partition.empty (.Store longKey "v") = Partition.empty := by
    show commit Partition.empty (Store Partition.empty longKey "v") = Partition.empty
    rw [hs]
    rfl
  have hall : storeAll Partition.empty [(longKey, "v")] = .error .ErrKeyTooLarge :=
    storeAll_single_error hs
  refine ⟨ho, hs, hall, ?_⟩
  rw [happ]
  rfl

/-- C27, amended: for every list of pairs with pairwise distinct ordinary keys (non-empty,
not numerals, not reserved strings) of at most `MaxKeySize` bytes and values of at most
`MaxValueSize` bytes, the stores on a never-written partition succeed; after
them `Count` is the length of the list, the list `FetchChunkDown(0,0)` hands back is the
list of pairs in order (without error when the list is not empty; with no pair the
partition is still never written and the empty list comes with
`ErrCorruptedInternalBucket`), as many `SliceDown` calls as pairs return the values in
order without error, and after them `Count` is 0 and both boundary pointers are 0. -/
theorem stores_then_drain_from_head (kvs : List (String × String))
    (hk : ∀ kv ∈ kvs, Ordinary kv.1) (hs : ∀ kv ∈ kvs, Storable kv.1 kv.2)
    (hnd : (kvs.map Prod.fst).Nodup) :
    ∃ p, storeAll Partition.empty kvs = .ok p ∧
      Count p = .ok ((kvs.length : Int), p) ∧
      chunksOf (FetchChunkDown p 0 0) = kvs.map (fun kv => ⟨kv.1, some kv.2⟩) ∧
      (kvs ≠ [] →
        FetchChunkDown p 0 0 = .ok (kvs.map (fun kv => ⟨kv.1, some kv.2⟩), p)) ∧
      ∃ q, drainDown kvs.length p = .ok (kvs.map (fun kv => some kv.2), q) ∧
        Count q = .ok (0, q) ∧ firstSlot q = 0 ∧ lastSlot q = 0 := by
  cases kvs with
  | nil =>
    exact ⟨Partition.empty, rfl, rfl, rfl, fun h => absurd rfl h, Partition.empty, rfl, rfl,
      rfl, rfl⟩
  | cons kv rest =>
    obtain ⟨p, F, hp, hh⟩ := storeAll_holds (kv :: rest) [] _ 1 Holds_initP_empty hk
      (fun x hx => (hs x hx).accepts (hk x hx).1) hnd (by simp)
    have hinit : storeAll (initP Partition.empty) (kv :: rest) =
        storeAll Partition.empty (kv :: rest) := by
      obtain ⟨k, v⟩ := kv
      simp only [storeAll, Store_initP]
    rw [hinit] at hp
    simp only [List.nil_append] at hh
    obtain ⟨q, F', hq, hq'⟩ := drainDown_holds_nothing _ p F hh
    have hcq : storedCount q = 0 := by simpa using hq'.count
    have hwq : WF q 0 0 := by simpa using hq'.wf
    refine ⟨p, hp, ?_, ?_, fun _ => hh.fetchDown, q, hq, ?_, ?_, ?_⟩
    · show Except.ok (storedCount p, p) = _
      rw [hh.count]
    · rw [hh.fetchDown]
      rfl
    · show Except.ok (storedCount q, q) = _
      rw [hcq]
    · simp [firstSlot, hwq.first, Atoi_Itoa]
    · simp [lastSlot, hwq.last, Atoi_Itoa]

/-- C27, amended, at the pairs `(a,1)`, `(b,2)`. -/
theorem stores_then_drain_from_head_witness :
    ∃ p, storeAll Partition.empty [("a", "1"), ("b", "2")] = .ok p ∧
      Count p = .ok ((([("a", "1"), ("b", "2")] : List (String × String)).length : Int), p) ∧
      chunksOf (FetchChunkDown p 0 0) =
        [("a", "1"), ("b", "2")].map (fun kv => ⟨kv.1, some kv.2⟩) ∧
      (([("a", "1"), ("b", "2")] : List (String × String)) ≠ [] →
        FetchChunkDown p 0 0 =
          .ok ([("a", "1"), ("b", "2")].map (fun kv => ⟨kv.1, some kv.2⟩), p)) ∧
      ∃ q, drainDown ([("a", "1"), ("b", "2")] : List (String × String)).length p =
          .ok ([("a", "1"), ("b", "2")].map (fun kv => some kv.2), q) ∧
        Count q = .ok (0, q) ∧ firstSlot q = 0 ∧ lastSlot q = 0 :=
  stores_then_drain_from_head [("a", "1"), ("b", "2")] (by decide) (by decide) (by decide)

end LokalDB
